import Mathlib

/-!
# pax8-cli: the account store and the API dispatch shim

A shallow embedding of `cmd/pax8/main.go`.  Go strings and byte slices are lists of
bytes, a Go map is a finite map with extensional equality (`Finmap`), and the nil map is
`none`.  The parts of the Go standard library the program calls (`unicode/utf8`,
`encoding/json`, `strings.ToUpper`) are modelled here as well, following the documented
behaviour of those packages; the operating system, the argument parser and the HTTP
client are parameters (`Env`).
-/

namespace Pax8

/-! ## Bytes and strings -/

abbrev Byte := Fin 256

/-- A Go `string` or `[]byte`: an arbitrary sequence of bytes (not necessarily UTF-8). -/
abbrev Bytes := List Byte

/-- The byte of a number, as the Go conversion `byte(n)`. -/
def byte (n : Nat) : Byte := Fin.ofNat n

/-- The bytes of an ASCII literal. -/
def ascii (s : String) : Bytes := s.toList.map (fun c => byte c.toNat)

/-! ## unicode/utf8 -/

/-- The rune `utf8.RuneError`, U+FFFD. -/
def RuneError : Nat := 0xFFFD

/-- The table `acceptRanges`: the lowest second byte after the first byte `p0`. -/
def acceptLo (p0 : Byte) : Nat :=
  if p0.val = 0xE0 then 0xA0 else if p0.val = 0xF0 then 0x90 else 0x80

/-- The table `acceptRanges`: the highest second byte after the first byte `p0`. -/
def acceptHi (p0 : Byte) : Nat :=
  if p0.val = 0xED then 0x9F else if p0.val = 0xF4 then 0x8F else 0xBF

/-- The function `utf8.DecodeRune`: the first rune of `p` and its width in bytes;
`(RuneError, 1)` for an invalid or truncated encoding, `(RuneError, 0)` for no input. -/
def DecodeRune (p : Bytes) : Nat × Nat :=
  match p with
  | [] => (RuneError, 0)
  | p0 :: rest =>
    if p0.val < 0x80 then (p0.val, 1)
    else if p0.val < 0xC2 ∨ 0xF4 < p0.val then (RuneError, 1)
    else
      match rest with
      | [] => (RuneError, 1)
      | b1 :: rest1 =>
        if b1.val < acceptLo p0 ∨ acceptHi p0 < b1.val then (RuneError, 1)
        else if p0.val < 0xE0 then ((p0.val % 32) * 64 + b1.val % 64, 2)
        else
          match rest1 with
          | [] => (RuneError, 1)
          | b2 :: rest2 =>
            if b2.val < 0x80 ∨ 0xBF < b2.val then (RuneError, 1)
            else if p0.val < 0xF0 then
              ((p0.val % 16) * 4096 + (b1.val % 64) * 64 + b2.val % 64, 3)
            else
              match rest2 with
              | [] => (RuneError, 1)
              | b3 :: _ =>
                if b3.val < 0x80 ∨ 0xBF < b3.val then (RuneError, 1)
                else
                  ((p0.val % 8) * 262144 + (b1.val % 64) * 4096 + (b2.val % 64) * 64
                    + b3.val % 64, 4)

/-- The function `utf8.AppendRune` on an empty buffer: the UTF-8 encoding of a rune,
with U+FFFD standing in for surrogates and runes beyond U+10FFFF. -/
def EncodeRune (r : Nat) : Bytes :=
  if r ≤ 0x7F then [byte r]
  else if r ≤ 0x7FF then [byte (0xC0 + r / 64), byte (0x80 + r % 64)]
  else if 0x10FFFF < r ∨ (0xD800 ≤ r ∧ r ≤ 0xDFFF) then [0xEF, 0xBF, 0xBD]
  else if r ≤ 0xFFFF then
    [byte (0xE0 + r / 4096), byte (0x80 + r / 64 % 64), byte (0x80 + r % 64)]
  else
    [byte (0xF0 + r / 262144), byte (0x80 + r / 4096 % 64), byte (0x80 + r / 64 % 64),
      byte (0x80 + r % 64)]

/-- The loop of `utf8.Valid`, with the number of bytes left as fuel. -/
def ValidAux : Nat → Bytes → Bool
  | _, [] => true
  | 0, _ :: _ => false
  | n + 1, b :: rest =>
    if b.val < 0x80 then ValidAux n rest
    else if (DecodeRune (b :: rest)).1 = RuneError ∧ (DecodeRune (b :: rest)).2 = 1 then false
    else ValidAux n (rest.drop ((DecodeRune (b :: rest)).2 - 1))

/-- The function `utf8.Valid`: the bytes are a sequence of well-formed UTF-8 encodings. -/
def Valid (s : Bytes) : Bool := ValidAux s.length s

/-! ## The data model (`Config`, `Account`) -/

/-- The struct `Account`. -/
structure Account where
  ClientID : Bytes
  ClientSecret : Bytes
deriving DecidableEq, Repr

/-- The type `map[string]Account`, when not nil. -/
abbrev AccountMap := Finmap (fun _ : Bytes => Account)

/-- The struct `Config`; a nil `AccountMap` is `none`. -/
structure Config where
  DefaultAccount : Bytes
  AccountMap : Option AccountMap
deriving DecidableEq

/-- The zero value of `Account`. -/
def Account.zero : Account := ⟨[], []⟩

/-- The zero value of `Config` (`var config Config`). -/
def Config.zero : Config := ⟨[], none⟩

/-- A map read `m[key]`, with the comma-ok flag: the zero value and `false` for a missing
key or a nil map. -/
def mapGet (m : Option AccountMap) (key : Bytes) : Account × Bool :=
  match m with
  | none => (Account.zero, false)
  | some fm =>
    match fm.lookup key with
    | some a => (a, true)
    | none => (Account.zero, false)

/-- Bytewise lexicographic order on strings, Go's `<=` on `string`. -/
def bytesLE : Bytes → Bytes → Bool
  | [], _ => true
  | _ :: _, [] => false
  | a :: as, b :: bs => if a.val < b.val then true else if b.val < a.val then false
      else bytesLE as bs

/-! ## encoding/json: strings -/

/-- The table `hex` of the encoder: a lower-case hexadecimal digit. -/
def hexDigit (n : Nat) : Byte := if n < 10 then byte (0x30 + n) else byte (0x57 + n)

/-- The table `htmlSafeSet`: the ASCII bytes a JSON string holds without an escape when
HTML escaping is on (all of 0x20..0x7F but the quote, the backslash and the three
characters lower-than, greater-than and ampersand). -/
def htmlSafe (b : Byte) : Bool :=
  0x20 ≤ b.val && b.val < 0x80 && b.val != 0x22 && b.val != 0x5C && b.val != 0x3C
    && b.val != 0x3E && b.val != 0x26

/-- What `appendString` writes for one ASCII byte. -/
def escapeASCII (b : Byte) : Bytes :=
  if htmlSafe b then [b]
  else if b.val = 0x5C ∨ b.val = 0x22 then [0x5C, b]
  else if b.val = 0x08 then [0x5C, 0x62]
  else if b.val = 0x0C then [0x5C, 0x66]
  else if b.val = 0x0A then [0x5C, 0x6E]
  else if b.val = 0x0D then [0x5C, 0x72]
  else if b.val = 0x09 then [0x5C, 0x74]
  else [0x5C, 0x75, 0x30, 0x30, hexDigit (b.val / 16), hexDigit (b.val % 16)]

/-- The loop of `appendString` with `escapeHTML` set (the setting of `json.Marshal`),
with the number of bytes left as fuel: the text between the quotes. -/
def appendStringAux : Nat → Bytes → Bytes
  | _, [] => []
  | 0, _ :: _ => []
  | n + 1, b :: rest =>
    if b.val < 0x80 then escapeASCII b ++ appendStringAux n rest
    else if (DecodeRune (b :: rest)).1 = RuneError ∧ (DecodeRune (b :: rest)).2 = 1 then
      [0x5C, 0x75, 0x66, 0x66, 0x66, 0x64] ++ appendStringAux n rest
    else if (DecodeRune (b :: rest)).1 = 0x2028 ∨ (DecodeRune (b :: rest)).1 = 0x2029 then
      [0x5C, 0x75, 0x32, 0x30, 0x32, hexDigit ((DecodeRune (b :: rest)).1 % 16)]
        ++ appendStringAux n (rest.drop ((DecodeRune (b :: rest)).2 - 1))
    else
      (b :: rest).take (DecodeRune (b :: rest)).2
        ++ appendStringAux n (rest.drop ((DecodeRune (b :: rest)).2 - 1))

/-- The text `appendString` puts between the quotes for a Go string. -/
def encodeString (s : Bytes) : Bytes := appendStringAux s.length s

/-- The value of a hexadecimal digit, as in `getu4`. -/
def hexVal (b : Byte) : Option Nat :=
  if 0x30 ≤ b.val ∧ b.val ≤ 0x39 then some (b.val - 0x30)
  else if 0x61 ≤ b.val ∧ b.val ≤ 0x66 then some (b.val - 0x61 + 10)
  else if 0x41 ≤ b.val ∧ b.val ≤ 0x46 then some (b.val - 0x41 + 10)
  else none

/-- The function `getu4`: the code unit of a leading `\uXXXX`, or `none` (Go: -1). -/
def getu4 : Bytes → Option Nat
  | b :: u :: h1 :: h2 :: h3 :: h4 :: _ =>
    if b.val = 0x5C ∧ u.val = 0x75 then
      match hexVal h1, hexVal h2, hexVal h3, hexVal h4 with
      | some a, some b, some c, some d => some (a * 4096 + b * 256 + c * 16 + d)
      | _, _, _, _ => none
    else none
  | _ => none

/-- The function `utf16.DecodeRune` on the second code unit found by `getu4`. -/
def utf16DecodeRune (r1 : Nat) (r2 : Option Nat) : Nat :=
  match r2 with
  | some r2 =>
    if 0xD800 ≤ r1 ∧ r1 < 0xDC00 ∧ 0xDC00 ≤ r2 ∧ r2 < 0xE000 then
      (r1 - 0xD800) * 1024 + (r2 - 0xDC00) + 0x10000
    else RuneError
  | none => RuneError

/-- One round of the loop of `unquoteBytes`, at the byte `c` followed by `rest`: the bytes
it writes and how many bytes of `rest` it consumes; `none` is Go's `ok == false`. -/
def unquoteStep (c : Byte) (rest : Bytes) : Option (Bytes × Nat) :=
  if c.val = 0x5C then
    match rest with
    | [] => none
    | e :: _ =>
      if e.val = 0x22 ∨ e.val = 0x5C ∨ e.val = 0x2F ∨ e.val = 0x27 then some ([e], 1)
      else if e.val = 0x62 then some ([0x08], 1)
      else if e.val = 0x66 then some ([0x0C], 1)
      else if e.val = 0x6E then some ([0x0A], 1)
      else if e.val = 0x72 then some ([0x0D], 1)
      else if e.val = 0x74 then some ([0x09], 1)
      else if e.val = 0x75 then
        match getu4 (c :: rest) with
        | none => none
        | some rr =>
          if 0xD800 ≤ rr ∧ rr < 0xE000 then
            if utf16DecodeRune rr (getu4 (rest.drop 5)) ≠ RuneError then
              some (EncodeRune (utf16DecodeRune rr (getu4 (rest.drop 5))), 11)
            else some (EncodeRune RuneError, 5)
          else some (EncodeRune rr, 5)
      else none
  else if c.val = 0x22 ∨ c.val < 0x20 then none
  else if c.val < 0x80 then some ([c], 0)
  else some (EncodeRune (DecodeRune (c :: rest)).1, (DecodeRune (c :: rest)).2 - 1)

/-- The loop of `unquoteBytes` on the text between the quotes, with the number of bytes
left as fuel; `none` is Go's `ok == false`. -/
def unquoteAux : Nat → Bytes → Option Bytes
  | _, [] => some []
  | 0, _ :: _ => none
  | n + 1, c :: rest =>
    match unquoteStep c rest with
    | none => none
    | some (out, k) => (unquoteAux n (rest.drop k)).map (fun t => out ++ t)

/-- The function `unquoteBytes`, on the text between the quotes of a JSON string. -/
def unquote (s : Bytes) : Option Bytes := unquoteAux s.length s

/-! ## encoding/json: values, the scanner's grammar, indentation -/

/-- A JSON text cut into its tokens: numbers and strings keep their source text (for a
string, the text between the quotes). -/
inductive JValue where
  | null
  | bool (b : Bool)
  | num (raw : Bytes)
  | str (raw : Bytes)
  | arr (elems : List JValue)
  | obj (members : List (Bytes × JValue))

/-- The function `isSpace` of the scanner. -/
def isSpace (b : Byte) : Bool :=
  b.val = 0x20 || b.val = 0x09 || b.val = 0x0D || b.val = 0x0A

/-- Drop leading JSON white space. -/
def skipSpace : Bytes → Bytes
  | [] => []
  | b :: rest => if isSpace b then skipSpace rest else b :: rest

def isDigit (b : Byte) : Bool := 0x30 ≤ b.val && b.val ≤ 0x39

def isHex (b : Byte) : Bool :=
  (0x30 ≤ b.val && b.val ≤ 0x39) || (0x61 ≤ b.val && b.val ≤ 0x66)
    || (0x41 ≤ b.val && b.val ≤ 0x46)

/-- The scanner states `stateInString`, `stateInStringEsc` and `stateInStringEscU*`: read
the text of a string up to its closing quote; the result is that text and what follows
the quote. -/
def scanString : Bytes → Option (Bytes × Bytes)
  | [] => none
  | b :: rest =>
    if b.val = 0x22 then some ([], rest)
    else if b.val = 0x5C then
      match rest with
      | [] => none
      | e :: rest1 =>
        if e.val = 0x62 ∨ e.val = 0x66 ∨ e.val = 0x6E ∨ e.val = 0x72 ∨ e.val = 0x74
            ∨ e.val = 0x5C ∨ e.val = 0x2F ∨ e.val = 0x22 then
          (scanString rest1).map (fun r => (b :: e :: r.1, r.2))
        else if e.val = 0x75 then
          match rest1 with
          | h1 :: h2 :: h3 :: h4 :: rest2 =>
            if isHex h1 ∧ isHex h2 ∧ isHex h3 ∧ isHex h4 then
              (scanString rest2).map (fun r => (b :: e :: h1 :: h2 :: h3 :: h4 :: r.1, r.2))
            else none
          | _ => none
        else none
    else if b.val < 0x20 then none
    else (scanString rest).map (fun r => (b :: r.1, r.2))

/-- The longest run of decimal digits at the front, and the rest. -/
def spanDigits : Bytes → Bytes × Bytes
  | [] => ([], [])
  | b :: rest =>
    if isDigit b then ((b :: (spanDigits rest).1), (spanDigits rest).2) else ([], b :: rest)

/-- The scanner states `stateNeg`, `state0`, `state1`: the integer part of a number. -/
def scanInt : Bytes → Option (Bytes × Bytes)
  | [] => none
  | b :: rest =>
    if b.val = 0x30 then some ([b], rest)
    else if isDigit b then some (b :: (spanDigits rest).1, (spanDigits rest).2)
    else none

/-- The scanner states `stateDot`, `stateDot0`: an optional fraction. -/
def scanFrac : Bytes → Option (Bytes × Bytes)
  | [] => some ([], [])
  | b :: rest =>
    if b.val = 0x2E then
      match spanDigits rest with
      | ([], _) => none
      | (d :: ds, r) => some (b :: d :: ds, r)
    else some ([], b :: rest)

/-- The scanner states `stateE`, `stateESign`, `stateE0`: an optional exponent. -/
def scanExp : Bytes → Option (Bytes × Bytes)
  | [] => some ([], [])
  | b :: rest =>
    if b.val = 0x65 ∨ b.val = 0x45 then
      match rest with
      | [] => none
      | s :: rest1 =>
        if s.val = 0x2B ∨ s.val = 0x2D then
          match spanDigits rest1 with
          | ([], _) => none
          | (d :: ds, r) => some (b :: s :: d :: ds, r)
        else
          match spanDigits rest with
          | ([], _) => none
          | (d :: ds, r) => some (b :: d :: ds, r)
    else some ([], b :: rest)

/-- A number literal at the front of the input: its text and the rest. -/
def scanNumber (bs : Bytes) : Option (Bytes × Bytes) :=
  let signed : Bytes × Bytes :=
    match bs with
    | b :: rest => if b.val = 0x2D then ([b], rest) else ([], bs)
    | [] => ([], [])
  match scanInt signed.2 with
  | none => none
  | some (i, r1) =>
    match scanFrac r1 with
    | none => none
    | some (f, r2) =>
      match scanExp r2 with
      | none => none
      | some (e, r3) => some (signed.1 ++ i ++ f ++ e, r3)

/-- The limit `maxNestingDepth` of the scanner. -/
def maxNestingDepth : Nat := 10000

/-- If the input starts with the word, what follows it. -/
def stripWord : Bytes → Bytes → Option Bytes
  | [], bs => some bs
  | _ :: _, [] => none
  | w :: ws, b :: bs => if w = b then stripWord ws bs else none

mutual
/-- One JSON value at the front of the input (no leading white space), with `depth`
further levels of nesting allowed: the value and what follows it.  The grammar is the one
the scanner of `encoding/json` accepts; `fuel` bounds the number of nested and
consecutive values. -/
def parseValue : Nat → Nat → Bytes → Option (JValue × Bytes)
  | 0, _, _ => none
  | _ + 1, _, [] => none
  | fuel + 1, depth, b :: rest =>
    if b.val = 0x7B then
      match depth with
      | 0 => none
      | depth + 1 =>
        match skipSpace rest with
        | [] => none
        | c :: rest1 =>
          if c.val = 0x7D then some (.obj [], rest1)
          else (parseMembers fuel depth (c :: rest1)).map (fun r => (.obj r.1, r.2))
    else if b.val = 0x5B then
      match depth with
      | 0 => none
      | depth + 1 =>
        match skipSpace rest with
        | [] => none
        | c :: rest1 =>
          if c.val = 0x5D then some (.arr [], rest1)
          else (parseElems fuel depth (c :: rest1)).map (fun r => (.arr r.1, r.2))
    else if b.val = 0x22 then (scanString rest).map (fun r => (.str r.1, r.2))
    else if b.val = 0x74 then (stripWord [0x72, 0x75, 0x65] rest).map (fun r => (.bool true, r))
    else if b.val = 0x66 then
      (stripWord [0x61, 0x6C, 0x73, 0x65] rest).map (fun r => (.bool false, r))
    else if b.val = 0x6E then (stripWord [0x75, 0x6C, 0x6C] rest).map (fun r => (.null, r))
    else (scanNumber (b :: rest)).map (fun r => (.num r.1, r.2))
/-- The elements of an array from its first element on, up to and including the closing
bracket. -/
def parseElems : Nat → Nat → Bytes → Option (List JValue × Bytes)
  | 0, _, _ => none
  | fuel + 1, depth, bs =>
    match parseValue fuel depth bs with
    | none => none
    | some (v, r1) =>
      match skipSpace r1 with
      | [] => none
      | d :: r2 =>
        if d.val = 0x2C then
          (parseElems fuel depth (skipSpace r2)).map (fun r => (v :: r.1, r.2))
        else if d.val = 0x5D then some ([v], r2)
        else none
/-- The members of an object from the quote of its first key on, up to and including the
closing brace. -/
def parseMembers : Nat → Nat → Bytes → Option (List (Bytes × JValue) × Bytes)
  | 0, _, _ => none
  | _ + 1, _, [] => none
  | fuel + 1, depth, q :: rest =>
    if q.val = 0x22 then
      match scanString rest with
      | none => none
      | some (key, r1) =>
        match skipSpace r1 with
        | [] => none
        | c :: r2 =>
          if c.val = 0x3A then
            match parseValue fuel depth (skipSpace r2) with
            | none => none
            | some (v, r3) =>
              match skipSpace r3 with
              | [] => none
              | d :: r4 =>
                if d.val = 0x2C then
                  (parseMembers fuel depth (skipSpace r4)).map (fun r => ((key, v) :: r.1, r.2))
                else if d.val = 0x7D then some ([(key, v)], r4)
                else none
          else none
    else none
end

/-- The check `checkValid` together with the cutting into tokens: the value of a whole
JSON text, or `none` when the scanner reports an error (a malformed text, or one nested
deeper than `maxNestingDepth`). -/
def parseJSON (data : Bytes) : Option JValue :=
  match parseValue (data.length + 1) maxNestingDepth (skipSpace data) with
  | none => none
  | some (v, rest) => if skipSpace rest = [] then some v else none

/-- A line break followed by `d` levels of the indent `"  "` (the `newline` helper of
`Indent`, with an empty prefix). -/
def newline (d : Nat) : Bytes := 0x0A :: List.replicate (2 * d) 0x20

mutual
/-- The function `json.Indent` with prefix `""` and indent `"  "`, on a value at
nesting depth `d`. -/
def indent : Nat → JValue → Bytes
  | _, .null => [0x6E, 0x75, 0x6C, 0x6C]
  | _, .bool true => [0x74, 0x72, 0x75, 0x65]
  | _, .bool false => [0x66, 0x61, 0x6C, 0x73, 0x65]
  | _, .num raw => raw
  | _, .str raw => 0x22 :: (raw ++ [0x22])
  | _, .arr [] => [0x5B, 0x5D]
  | d, .arr (e :: es) =>
    0x5B :: (newline (d + 1) ++ (indent (d + 1) e ++ (indentElems (d + 1) es
      ++ (newline d ++ [0x5D]))))
  | _, .obj [] => [0x7B, 0x7D]
  | d, .obj ((k, v) :: ms) =>
    0x7B :: (newline (d + 1) ++ (0x22 :: (k ++ (0x22 :: 0x3A :: 0x20 :: (indent (d + 1) v
      ++ (indentMembers (d + 1) ms ++ (newline d ++ [0x7D])))))))
/-- The elements of an array after the first, each after a comma and on its own line. -/
def indentElems : Nat → List JValue → Bytes
  | _, [] => []
  | d, e :: es => 0x2C :: (newline d ++ (indent d e ++ indentElems d es))
/-- The members of an object after the first, each after a comma and on its own line. -/
def indentMembers : Nat → List (Bytes × JValue) → Bytes
  | _, [] => []
  | d, (k, v) :: ms =>
    0x2C :: (newline d ++ (0x22 :: (k ++ (0x22 :: 0x3A :: 0x20 :: (indent d v
      ++ indentMembers d ms)))))
end

/-! ## The keys of a map in ascending order -/

theorem bytesLE_refl (a : Bytes) : bytesLE a a = true := by
  induction a with
  | nil => rfl
  | cons x xs ih => simp [bytesLE, ih]

theorem bytesLE_total (a b : Bytes) : bytesLE a b = true ∨ bytesLE b a = true := by
  induction a generalizing b with
  | nil => left; rfl
  | cons x xs ih =>
    cases b with
    | nil => right; rfl
    | cons y ys =>
      simp only [bytesLE]
      by_cases h1 : x.val < y.val
      · left; simp [h1]
      · by_cases h2 : y.val < x.val
        · right; simp [h2]
        · simpa [h1, h2] using ih ys

theorem bytesLE_antisymm (a b : Bytes) (h1 : bytesLE a b = true) (h2 : bytesLE b a = true) :
    a = b := by
  induction a generalizing b with
  | nil =>
    cases b with
    | nil => rfl
    | cons y ys => simp [bytesLE] at h2
  | cons x xs ih =>
    cases b with
    | nil => simp [bytesLE] at h1
    | cons y ys =>
      simp only [bytesLE] at h1 h2
      by_cases hxy : x.val < y.val
      · have hyx : ¬ y.val < x.val := by omega
        simp [hxy, hyx] at h2
      · by_cases hyx : y.val < x.val
        · simp [hxy, hyx] at h1
        · simp only [hxy, hyx, if_false] at h1 h2
          have hv : x = y := Fin.ext (by omega)
          rw [hv, ih ys h1 h2]

theorem bytesLE_trans (a b c : Bytes) (h1 : bytesLE a b = true) (h2 : bytesLE b c = true) :
    bytesLE a c = true := by
  induction a generalizing b c with
  | nil => rfl
  | cons x xs ih =>
    cases b with
    | nil => simp [bytesLE] at h1
    | cons y ys =>
      cases c with
      | nil => simp [bytesLE] at h2
      | cons z zs =>
        simp only [bytesLE] at h1 h2 ⊢
        by_cases hxy : x.val < y.val
        · by_cases hyz : y.val < z.val
          · have : x.val < z.val := by omega
            simp [this]
          · by_cases hzy : z.val < y.val
            · simp [hyz, hzy] at h2
            · have : x.val < z.val := by omega
              simp [this]
        · by_cases hyx : y.val < x.val
          · simp [hxy, hyx] at h1
          · simp only [hxy, hyx, if_false] at h1
            by_cases hyz : y.val < z.val
            · have : x.val < z.val := by omega
              simp [this]
            · by_cases hzy : z.val < y.val
              · simp [hyz, hzy] at h2
              · simp only [hyz, hzy, if_false] at h2
                have h3 : ¬ x.val < z.val := by omega
                have h4 : ¬ z.val < x.val := by omega
                simp only [h3, h4, if_false]
                exact ih ys zs h1 h2

/-- The order of `bytesLE` as a relation. -/
def KeyLE (a b : Bytes) : Prop := bytesLE a b = true

instance : DecidableRel KeyLE := fun a b => inferInstanceAs (Decidable (bytesLE a b = true))

instance : IsTotal Bytes KeyLE := ⟨bytesLE_total⟩

instance : IsTrans Bytes KeyLE := ⟨bytesLE_trans⟩

instance : IsAntisymm Bytes KeyLE := ⟨bytesLE_antisymm⟩

/-- The keys of a map in ascending order: the order in which `json.Marshal` writes a map
and in which this model ranges over it (Go leaves the order of `range` unspecified). -/
def sortedKeys (m : AccountMap) : List Bytes :=
  Quot.liftOn m.keys.val (List.insertionSort KeyLE) (fun a b (h : a.Perm b) =>
    List.eq_of_perm_of_sorted
      (((List.perm_insertionSort KeyLE a).trans h).trans (List.perm_insertionSort KeyLE b).symm)
      (List.sorted_insertionSort KeyLE a) (List.sorted_insertionSort KeyLE b))

/-! ## encoding/json: Marshal and Unmarshal for `Config` and `json.RawMessage` -/

/-- The error values the program can print with `%v`. -/
inductive GoError where
  /-- An error of the operating system or of the HTTP client, with its text. -/
  | external (msg : Bytes)
  /-- The `*json.SyntaxError` of `checkValid`. -/
  | jsonInvalid
  /-- A `*json.UnmarshalTypeError`: the kind of JSON value that did not fit. -/
  | jsonType (value : Bytes)
  /-- The `*json.MarshalerError` for a `json.RawMessage` that is not valid JSON. -/
  | jsonMarshaler
deriving DecidableEq

/-- The tables of package `unicode` behind `unicode.SimpleFold` and `unicode.ToUpper`;
they are not modelled, every statement holds for all tables. -/
structure UnicodeTables where
  /-- The smallest rune of the rune's orbit under `unicode.SimpleFold` (`foldRune`). -/
  foldRune : Nat → Nat
  /-- The function `unicode.ToUpper`. -/
  ToUpper : Nat → Nat

/-- The JSON object `json.Marshal` writes for an `Account`. -/
def accountJSON (a : Account) : JValue :=
  .obj [(ascii "clientId", .str (encodeString a.ClientID)),
        (ascii "clientSecret", .str (encodeString a.ClientSecret))]

/-- The JSON object `json.Marshal` writes for a map that is not nil: the keys ascending. -/
def mapJSON (m : AccountMap) : JValue :=
  .obj ((sortedKeys m).map (fun k => (encodeString k, accountJSON (mapGet (some m) k).1)))

/-- The JSON object `json.Marshal` writes for a `Config`; a nil map is `null`. -/
def configJSON (c : Config) : JValue :=
  .obj [(ascii "defaultAccount", .str (encodeString c.DefaultAccount)),
        (ascii "accountMap",
          match c.AccountMap with
          | none => .null
          | some m => mapJSON m)]

/-- The call `json.MarshalIndent(config, "", "  ")`. -/
def MarshalIndent (c : Config) : Except GoError Bytes := .ok (indent 0 (configJSON c))

/-- Whether the input starts with the UTF-8 encoding of U+2028 or U+2029. -/
def startsLineSep : Bytes → Bool
  | c :: b1 :: b2 :: _ => c.val = 0xE2 && b1.val = 0x80 && (b2.val = 0xA8 || b2.val = 0xA9)
  | _ => false

/-- What `compact` with `escape` set makes of the text of a string, with the number of
bytes left as fuel: the three HTML characters and U+2028, U+2029 become `\u` escapes. -/
def compactStringAux : Nat → Bytes → Bytes
  | _, [] => []
  | 0, _ :: _ => []
  | n + 1, c :: rest =>
    if c.val = 0x3C ∨ c.val = 0x3E ∨ c.val = 0x26 then
      0x5C :: 0x75 :: 0x30 :: 0x30 :: hexDigit (c.val / 16) :: hexDigit (c.val % 16)
        :: compactStringAux n rest
    else if startsLineSep (c :: rest) then
      0x5C :: 0x75 :: 0x32 :: 0x30 :: 0x32 :: hexDigit ((rest.drop 1).headD 0 % 16)
        :: compactStringAux n (rest.drop 2)
    else c :: compactStringAux n rest

/-- What `compact` with `escape` set makes of the text of a string. -/
def compactString (s : Bytes) : Bytes := compactStringAux s.length s

mutual
/-- The function `compact` with `escape` set, on the tokens of a valid text: white space
is already gone, the strings are escaped. -/
def compactValue : JValue → JValue
  | .null => .null
  | .bool b => .bool b
  | .num raw => .num raw
  | .str raw => .str (compactString raw)
  | .arr es => .arr (compactElems es)
  | .obj ms => .obj (compactMembers ms)
def compactElems : List JValue → List JValue
  | [] => []
  | e :: es => compactValue e :: compactElems es
def compactMembers : List (Bytes × JValue) → List (Bytes × JValue)
  | [] => []
  | (k, v) :: ms => (compactString k, compactValue v) :: compactMembers ms
end

/-- The call `json.MarshalIndent(jsonResponse, "", "  ")` for a `json.RawMessage`
(`none` is the nil slice, which `RawMessage.MarshalJSON` turns into `null`): the encoder
compacts the message, which fails on invalid JSON, and then indents it. -/
def MarshalIndentRaw (m : Option Bytes) : Except GoError Bytes :=
  match parseJSON (m.getD [0x6E, 0x75, 0x6C, 0x6C]) with
  | none => .error .jsonMarshaler
  | some v => .ok (indent 0 (compactValue v))

/-- The loop of `foldName`: ASCII letters to upper case, other runes to `foldRune`. -/
def foldNameAux (U : UnicodeTables) : Nat → Bytes → Bytes
  | _, [] => []
  | 0, _ :: _ => []
  | n + 1, c :: rest =>
    if c.val < 0x80 then
      (if 0x61 ≤ c.val ∧ c.val ≤ 0x7A then byte (c.val - 0x20) else c) :: foldNameAux U n rest
    else
      EncodeRune (U.foldRune (DecodeRune (c :: rest)).1)
        ++ foldNameAux U n (rest.drop ((DecodeRune (c :: rest)).2 - 1))

/-- The function `foldName` of the decoder. -/
def foldName (U : UnicodeTables) (s : Bytes) : Bytes := foldNameAux U s.length s

/-- The struct field a JSON key selects: the field with exactly that name, else the first
field whose name matches under case folding. -/
def findField (U : UnicodeTables) (names : List Bytes) (key : Bytes) : Option Nat :=
  match names.indexOf? key with
  | some i => some i
  | none => (names.map (foldName U)).indexOf? (foldName U key)

/-- The `Value` of the `UnmarshalTypeError` for a JSON value of the wrong kind. -/
def JValue.kind : JValue → Bytes
  | .null => ascii "null"
  | .bool _ => ascii "bool"
  | .num _ => ascii "number"
  | .str _ => ascii "string"
  | .arr _ => ascii "array"
  | .obj _ => ascii "object"

/-- The Go string of a JSON string token or key.  `unquoteBytes` does not fail on a text
the scanner accepted; the empty string stands for that unreachable case. -/
def goString (raw : Bytes) : Bytes := (unquote raw).getD []

/-- Decode a JSON value into a Go `string`: a string is stored, `null` changes nothing,
anything else is a type error that leaves the field as it is. -/
def storeString (v : JValue) (cur : Bytes) : Bytes × Option GoError :=
  match v with
  | .str raw => (goString raw, none)
  | .null => (cur, none)
  | other => (cur, some (.jsonType other.kind))

/-- The field names of `Account` in declaration order. -/
def accountFields : List Bytes := [ascii "clientId", ascii "clientSecret"]

/-- The field names of `Config` in declaration order. -/
def configFields : List Bytes := [ascii "defaultAccount", ascii "accountMap"]

/-- Decode the members of a JSON object into an `Account`, in order (a later duplicate
overwrites); unknown keys are skipped; the first type error is kept. -/
def decodeAccountMembers (U : UnicodeTables) :
    List (Bytes × JValue) → Account → Account × Option GoError
  | [], a => (a, none)
  | (k, v) :: ms, a =>
    let step : Account × Option GoError :=
      match findField U accountFields (goString k) with
      | some 0 => ({ a with ClientID := (storeString v a.ClientID).1 },
                    (storeString v a.ClientID).2)
      | some _ => ({ a with ClientSecret := (storeString v a.ClientSecret).1 },
                    (storeString v a.ClientSecret).2)
      | none => (a, none)
    let r := decodeAccountMembers U ms step.1
    (r.1, step.2 <|> r.2)

/-- Decode a JSON value into an `Account`. -/
def decodeAccount (U : UnicodeTables) (v : JValue) (cur : Account) :
    Account × Option GoError :=
  match v with
  | .obj ms => decodeAccountMembers U ms cur
  | .null => (cur, none)
  | other => (cur, some (.jsonType other.kind))

/-- Decode the members of a JSON object into a map: every member is decoded into a fresh
zero `Account` and stored under its key. -/
def decodeMapMembers (U : UnicodeTables) :
    List (Bytes × JValue) → AccountMap → AccountMap × Option GoError
  | [], m => (m, none)
  | (k, v) :: ms, m =>
    let elem := decodeAccount U v Account.zero
    let r := decodeMapMembers U ms (m.insert (goString k) elem.1)
    (r.1, elem.2 <|> r.2)

/-- Decode a JSON value into a `map[string]Account`: an object is merged into the map (a
nil map is made first), `null` makes the map nil. -/
def decodeMap (U : UnicodeTables) (v : JValue) (cur : Option AccountMap) :
    Option AccountMap × Option GoError :=
  match v with
  | .obj ms =>
    (some (decodeMapMembers U ms (cur.getD ∅)).1, (decodeMapMembers U ms (cur.getD ∅)).2)
  | .null => (none, none)
  | other => (cur, some (.jsonType other.kind))

/-- Decode the members of a JSON object into a `Config`. -/
def decodeConfigMembers (U : UnicodeTables) :
    List (Bytes × JValue) → Config → Config × Option GoError
  | [], c => (c, none)
  | (k, v) :: ms, c =>
    let step : Config × Option GoError :=
      match findField U configFields (goString k) with
      | some 0 => ({ c with DefaultAccount := (storeString v c.DefaultAccount).1 },
                    (storeString v c.DefaultAccount).2)
      | some _ => ({ c with AccountMap := (decodeMap U v c.AccountMap).1 },
                    (decodeMap U v c.AccountMap).2)
      | none => (c, none)
    let r := decodeConfigMembers U ms step.1
    (r.1, step.2 <|> r.2)

/-- Decode a JSON value into a `Config`. -/
def decodeConfig (U : UnicodeTables) (v : JValue) (cur : Config) : Config × Option GoError :=
  match v with
  | .obj ms => decodeConfigMembers U ms cur
  | .null => (cur, none)
  | other => (cur, some (.jsonType other.kind))

/-- The call `json.Unmarshal(contents, &config)`: the new value of `config` and the error
returned.  A text `checkValid` rejects leaves `config` untouched. -/
def Unmarshal (U : UnicodeTables) (contents : Bytes) (config : Config) :
    Config × Option GoError :=
  match parseJSON contents with
  | none => (config, some .jsonInvalid)
  | some v => decodeConfig U v config

/-! ## strings.ToUpper -/

/-- The loop of `strings.Map`: every rune of the string (an invalid byte reads as
U+FFFD) is mapped and encoded again. -/
def mapRunesAux (f : Nat → Nat) : Nat → Bytes → Bytes
  | _, [] => []
  | 0, _ :: _ => []
  | n + 1, c :: rest =>
    EncodeRune (f (DecodeRune (c :: rest)).1)
      ++ mapRunesAux f n (rest.drop ((DecodeRune (c :: rest)).2 - 1))

/-- The upper-case form of an ASCII byte. -/
def asciiUpper (c : Byte) : Byte :=
  if 0x61 ≤ c.val ∧ c.val ≤ 0x7A then byte (c.val - 0x20) else c

/-- The function `strings.ToUpper`: bytewise on an ASCII string, rune by rune through
`unicode.ToUpper` otherwise. -/
def ToUpper (U : UnicodeTables) (s : Bytes) : Bytes :=
  if s.all (fun c => c.val < 0x80) then s.map asciiUpper
  else mapRunesAux U.ToUpper s.length s

/-! ## The command line (`Args`) -/

/-- The struct `ConfigActivateCommand`. -/
structure ConfigActivateCommand where
  Name : Bytes
deriving DecidableEq

/-- The struct `ConfigConfigureCommand`. -/
structure ConfigConfigureCommand where
  Name : Bytes
  ClientID : Bytes
  ClientSecret : Bytes
deriving DecidableEq

/-- The struct `ConfigListCommand`. -/
structure ConfigListCommand where
deriving DecidableEq

/-- The struct `ConfigCommand`: a nil pointer is `none`. -/
structure ConfigCommand where
  Activate : Option ConfigActivateCommand
  Configure : Option ConfigConfigureCommand
  List : Option ConfigListCommand
deriving DecidableEq

/-- The struct `APICommand`, after the argument parser has filled it in. -/
structure APICommand where
  Endpoint : Bytes
  Method : Bytes
  Body : Bytes
deriving DecidableEq

/-- The struct `Args`: a nil pointer is `none`. -/
structure Args where
  Debug : Bool
  Config : Option ConfigCommand
  API : Option APICommand
deriving DecidableEq

/-- What the argument parser makes of the flags of `api`, by the struct tags of
`APICommand`: `--method` has the default `GET`, an absent `--body` leaves the zero value. -/
def APICommand.ofFlags (endpoint : Bytes) (method body : Option Bytes) : APICommand :=
  ⟨endpoint, method.getD (ascii "GET"), body.getD []⟩

/-! ## The external client (`pax8`, `restapiclient`) -/

/-- The struct `pax8.ClientConfig`, as far as the program fills it in. -/
structure ClientConfig where
  ClientID : Bytes
  ClientSecret : Bytes
  BaseURL : Bytes
deriving DecidableEq

/-- The audiences of package `pax8`; the program names `pax8.AudienceProvisioning` only. -/
inductive Audience where
  | AudienceProvisioning
  | other (name : Bytes)
deriving DecidableEq

/-- The struct `pax8.ClientRequest` without its `Output` pointer; a nil `Input` is
`none`. -/
structure ClientRequest where
  Endpoint : Bytes
  Method : Bytes
  Audience : Audience
  Input : Option Bytes
deriving DecidableEq

/-! ## The environment and the observable behaviour -/

/-- The result of `os.ReadFile` on the config file. -/
inductive ReadResult where
  | contents (data : Bytes)
  | notExist (err : GoError)
  | failed (err : GoError)
deriving DecidableEq

/-- What the program is run in: the file system, the HTTP client and the Unicode tables. -/
structure Env where
  /-- The result of `configdir.MakePath`. -/
  makePath : Option GoError
  /-- The result of `os.ReadFile(configFilePath)`. -/
  readFile : ReadResult
  /-- The result of `os.WriteFile(configFilePath, contents, 0600)`. -/
  writeFile : Bytes → Option GoError
  /-- The result of `pax8.NewClient`. -/
  newClient : ClientConfig → Option GoError
  /-- The result of `client.DoRequest`: an error, or what it stored in `jsonResponse`
  (`none` when it left the nil slice there). -/
  doRequest : ClientConfig → ClientRequest → Except GoError (Option Bytes)
  /-- The tables of package `unicode`. -/
  unicode : UnicodeTables

/-- One piece of standard output: literal text, an error value printed with `%v`, or the
help text of the argument parser. -/
inductive Printed where
  | text (s : Bytes)
  | error (e : GoError)
  | help
deriving DecidableEq

/-- A call of `os.WriteFile` on the config file. -/
structure WriteCall where
  contents : Bytes
  perm : Nat
deriving DecidableEq

/-- What one run of the program does. -/
structure Outcome where
  /-- Standard output, in order. -/
  stdout : List Printed
  /-- The exit code of the process. -/
  exitCode : Nat
  /-- The variable `config` when the process ends. -/
  config : Config
  /-- The call of `os.WriteFile`, if one was made. -/
  written : Option WriteCall
  /-- The argument of `pax8.NewClient`, if it was called. -/
  clientConfig : Option ClientConfig
  /-- The argument of `client.DoRequest`, if it was called. -/
  request : Option ClientRequest
deriving DecidableEq

/-- The result of the block that loads the config file (lines 88 to 107). -/
structure Loaded where
  /-- What the block printed. -/
  stdout : List Printed
  /-- The exit code, when the block ended the process. -/
  exit : Option Nat
  /-- The variable `config` after the block. -/
  config : Config
deriving DecidableEq

/-- The statement `if config.AccountMap == nil { config.AccountMap = make(...) }`. -/
def ensureMap (config : Config) : Config :=
  match config.AccountMap with
  | none => { config with AccountMap := some ∅ }
  | some _ => config

/-- The block that loads the config file: a missing file is no error, another read error
ends the process, a parse error is printed and the run goes on. -/
def loadConfig (U : UnicodeTables) (read : ReadResult) : Loaded :=
  match read with
  | .failed err =>
    ⟨[.text (ascii "error reading config file: "), .error err, .text [0x0A]], some 1,
      Config.zero⟩
  | .notExist _ => ⟨[], none, ensureMap Config.zero⟩
  | .contents data =>
    match Unmarshal U data Config.zero with
    | (config, some err) =>
      ⟨[.text (ascii "error parsing config file: "), .error err, .text [0x0A]], none,
        ensureMap config⟩
    | (config, none) => ⟨[], none, ensureMap config⟩

/-- The tail shared by `activate` and `configure`: serialize `config`, write the file. -/
def saveConfig (env : Env) (config : Config) : Outcome :=
  match MarshalIndent config with
  | .error err =>
    ⟨[.text (ascii "error serializing config file: "), .error err, .text [0x0A]], 1, config,
      none, none, none⟩
  | .ok contents =>
    match env.writeFile contents with
    | some err =>
      ⟨[.text (ascii "error writing config file: "), .error err, .text [0x0A]], 1, config,
        some ⟨contents, 0o600⟩, none, none⟩
    | none => ⟨[], 0, config, some ⟨contents, 0o600⟩, none, none⟩

/-- The branch `args.Config.Activate != nil`. -/
def configActivate (env : Env) (cmd : ConfigActivateCommand) (config : Config) : Outcome :=
  if (mapGet config.AccountMap cmd.Name).2 then
    saveConfig env { config with DefaultAccount := cmd.Name }
  else
    ⟨[.text (ascii "configuration '" ++ cmd.Name ++ ascii "' does not exist\n")], 1, config,
      none, none, none⟩

/-- The assignment `m[key] = value`; on a nil map Go panics (`none`). -/
def mapSet (m : Option AccountMap) (key : Bytes) (value : Account) : Option AccountMap :=
  m.map (fun fm => fm.insert key value)

/-- The branch `args.Config.Configure != nil`.  Exit code 2 is the panic of an assignment
to a nil map, which the load block rules out. -/
def configConfigure (env : Env) (cmd : ConfigConfigureCommand) (config : Config) : Outcome :=
  match mapSet config.AccountMap cmd.Name ⟨cmd.ClientID, cmd.ClientSecret⟩ with
  | none => ⟨[], 2, config, none, none, none⟩
  | some m => saveConfig env { config with AccountMap := some m }

/-- The keys `for name := range config.AccountMap` visits, here in ascending order. -/
def rangeKeys (m : Option AccountMap) : List Bytes :=
  match m with
  | none => []
  | some fm => sortedKeys fm

/-- The branch `args.Config.List != nil`: one `fmt.Println(name)` for every key. -/
def configList (config : Config) : Outcome :=
  ⟨(rangeKeys config.AccountMap).map (fun name => .text (name ++ [0x0A])), 0, config,
    none, none, none⟩

/-- The branch `args.API != nil`. -/
def apiCommand (env : Env) (cmd : APICommand) (config : Config) : Outcome :=
  let clientConfig : ClientConfig :=
    { ClientID := (mapGet config.AccountMap config.DefaultAccount).1.ClientID
      ClientSecret := (mapGet config.AccountMap config.DefaultAccount).1.ClientSecret
      BaseURL := ascii "https://api.pax8.com" }
  match env.newClient clientConfig with
  | some err =>
    ⟨[.text (ascii "error creating pax8 client: "), .error err, .text [0x0A]], 1, config,
      none, some clientConfig, none⟩
  | none =>
    let jsonRequest : Option Bytes := if cmd.Body ≠ [] then some cmd.Body else none
    let clientRequest : ClientRequest :=
      { Endpoint := cmd.Endpoint
        Method := ToUpper env.unicode cmd.Method
        Audience := .AudienceProvisioning
        Input := jsonRequest }
    match env.doRequest clientConfig clientRequest with
    | .error err =>
      ⟨[.text (ascii "error making API request: "), .error err, .text [0x0A]], 1, config,
        none, some clientConfig, some clientRequest⟩
    | .ok jsonResponse =>
      match MarshalIndentRaw jsonResponse with
      | .error err =>
        ⟨[.text (ascii "error formatting JSON response: "), .error err, .text [0x0A]], 1,
          config, none, some clientConfig, some clientRequest⟩
      | .ok prettyJSON =>
        ⟨[.text (prettyJSON ++ [0x0A])], 0, config, none, some clientConfig,
          some clientRequest⟩

/-- The outer `switch` of `main` (lines 109 to 195), on the loaded `config`. -/
def runCommand (env : Env) (args : Args) (config : Config) : Outcome :=
  match args.Config with
  | some c =>
    match c.Activate with
    | some cmd => configActivate env cmd config
    | none =>
      match c.Configure with
      | some cmd => configConfigure env cmd config
      | none =>
        match c.List with
        | some _ => configList config
        | none => ⟨[.help], 1, config, none, none, none⟩
  | none =>
    match args.API with
    | some cmd => apiCommand env cmd config
    | none => ⟨[.help], 1, config, none, none, none⟩

/-- The function `main` from the parsed arguments on (line 82): make the config
directory, load the config file, run the command.  Debug logging goes to standard error
and is left out. -/
def main (env : Env) (args : Args) : Outcome :=
  match env.makePath with
  | some err =>
    ⟨[.text (ascii "error creating config directory: "), .error err, .text [0x0A]], 1,
      Config.zero, none, none, none⟩
  | none =>
    let loaded := loadConfig env.unicode env.readFile
    match loaded.exit with
    | some code => ⟨loaded.stdout, code, loaded.config, none, none, none⟩
    | none =>
      let out := runCommand env args loaded.config
      { out with stdout := loaded.stdout ++ out.stdout }

/-! ## Command lines and an environment for the examples -/

/-- The command line `config activate <name>`. -/
def activateArgs (name : Bytes) : Args := ⟨false, some ⟨some ⟨name⟩, none, none⟩, none⟩

/-- The command line `config configure <name> --client-id .. --client-secret ..`. -/
def configureArgs (name clientID clientSecret : Bytes) : Args :=
  ⟨false, some ⟨none, some ⟨name, clientID, clientSecret⟩, none⟩, none⟩

/-- The command line `config list`. -/
def listArgs : Args := ⟨false, some ⟨none, none, some ⟨⟩⟩, none⟩

/-- The command line `api --endpoint .. [--method ..] [--body ..]`. -/
def apiArgs (endpoint : Bytes) (method body : Option Bytes) : Args :=
  ⟨false, none, some (APICommand.ofFlags endpoint method body)⟩

/-- An environment with no config file, a file system that takes every write, and an HTTP
client that answers every request with the given bytes. -/
def Env.answering (response : Bytes) : Env :=
  { makePath := none
    readFile := .notExist (.external [])
    writeFile := fun _ => none
    newClient := fun _ => none
    doRequest := fun _ _ => .ok (some response)
    unicode := ⟨fun r => r, fun r => r⟩ }

/-! ## The map -/

theorem mapGet_some_of_lookup {m : AccountMap} {key : Bytes} {a : Account}
    (h : m.lookup key = some a) : mapGet (some m) key = (a, true) := by
  simp [mapGet, h]

theorem mapGet_some_of_not_mem {m : AccountMap} {key : Bytes} (h : key ∉ m) :
    mapGet (some m) key = (Account.zero, false) := by
  have : m.lookup key = none := Finmap.lookup_eq_none.mpr h
  simp [mapGet, this]

theorem mapGet_snd_iff (m : AccountMap) (key : Bytes) :
    (mapGet (some m) key).2 = true ↔ key ∈ m := by
  by_cases h : key ∈ m
  · obtain ⟨a, ha⟩ := Option.isSome_iff_exists.mp (Finmap.lookup_isSome.mpr h)
    simp [mapGet_some_of_lookup ha, h]
  · simp [mapGet_some_of_not_mem h, h]

theorem sortedKeys_perm (m : AccountMap) : ∃ l : List Bytes,
    m.keys.val = (l : Multiset Bytes) ∧ (sortedKeys m).Perm l := by
  obtain ⟨l, hl⟩ := Quot.exists_rep m.keys.val
  refine ⟨l, hl.symm, ?_⟩
  unfold sortedKeys
  rw [← hl]
  exact List.perm_insertionSort KeyLE l

theorem mem_sortedKeys (m : AccountMap) (k : Bytes) : k ∈ sortedKeys m ↔ k ∈ m := by
  obtain ⟨l, hl, hp⟩ := sortedKeys_perm m
  rw [hp.mem_iff, ← Finmap.mem_keys, ← Finset.mem_val, hl]
  rfl

theorem nodup_sortedKeys (m : AccountMap) : (sortedKeys m).Nodup := by
  obtain ⟨l, hl, hp⟩ := sortedKeys_perm m
  rw [hp.nodup_iff]
  have := m.keys.nodup
  rw [hl] at this
  exact this

/-! ## C1, C2: activate -/

/-- C1: for every store and every name that is not a key of `accountMap` (a nil map has no
keys), `config activate <name>` prints `configuration '<name>' does not exist`, exits with
code 1, leaves `config` as loaded and writes no file. -/
theorem activate_unknown_fails (env : Env) (config : Config) (name : Bytes)
    (h : ∀ m, config.AccountMap = some m → name ∉ m) :
    runCommand env (activateArgs name) config =
      { stdout := [.text (ascii "configuration '" ++ name ++ ascii "' does not exist\n")]
        exitCode := 1
        config := config
        written := none
        clientConfig := none
        request := none } := by
  have hget : (mapGet config.AccountMap name).2 = false := by
    cases hm : config.AccountMap with
    | none => simp [mapGet]
    | some m => rw [mapGet_some_of_not_mem (h m hm)]
  simp [runCommand, activateArgs, configActivate, hget]

theorem activate_unknown_fails_witness :
    (∀ m, (⟨ascii "acme", some ∅⟩ : Config).AccountMap = some m → ascii "beta" ∉ m) ∧
    runCommand (Env.answering []) (activateArgs (ascii "beta")) ⟨ascii "acme", some ∅⟩ =
      { stdout := [.text (ascii "configuration 'beta' does not exist\n")]
        exitCode := 1
        config := ⟨ascii "acme", some ∅⟩
        written := none
        clientConfig := none
        request := none } :=
  ⟨by intro m hm; cases hm; exact Finmap.not_mem_empty,
   activate_unknown_fails (Env.answering []) ⟨ascii "acme", some ∅⟩ (ascii "beta")
    (by intro m hm; cases hm; exact Finmap.not_mem_empty)⟩

/-- C2: for every store whose `accountMap` has the key `name`, `config activate <name>`
serializes and writes the store with `defaultAccount = name` and the loaded `accountMap`
unchanged (the one call of `os.WriteFile`, with permission 0600); the serialization
cannot fail, and when the write succeeds the command prints nothing and exits with 0. -/
theorem activate_known_writes (env : Env) (d : Bytes) (m : AccountMap) (name : Bytes)
    (h : name ∈ m) :
    ∃ contents, MarshalIndent ⟨name, some m⟩ = .ok contents ∧
      (runCommand env (activateArgs name) ⟨d, some m⟩).written = some ⟨contents, 0o600⟩ ∧
      (runCommand env (activateArgs name) ⟨d, some m⟩).config = ⟨name, some m⟩ ∧
      (env.writeFile contents = none →
        runCommand env (activateArgs name) ⟨d, some m⟩ =
          ⟨[], 0, ⟨name, some m⟩, some ⟨contents, 0o600⟩, none, none⟩) := by
  have hget : (mapGet (some m) name).2 = true := (mapGet_snd_iff m name).mpr h
  refine ⟨indent 0 (configJSON ⟨name, some m⟩), rfl, ?_, ?_, ?_⟩
  · simp only [runCommand, activateArgs, configActivate, hget, saveConfig, MarshalIndent]
    cases env.writeFile (indent 0 (configJSON ⟨name, some m⟩)) <;> simp
  · simp only [runCommand, activateArgs, configActivate, hget, saveConfig, MarshalIndent]
    cases env.writeFile (indent 0 (configJSON ⟨name, some m⟩)) <;> simp
  · intro hw
    simp [runCommand, activateArgs, configActivate, hget, saveConfig, MarshalIndent, hw]

theorem activate_known_writes_witness :
    ascii "acme" ∈ (Finmap.singleton (ascii "acme") ⟨ascii "abc", ascii "xyz"⟩ : AccountMap) ∧
    ∃ contents,
      MarshalIndent ⟨ascii "acme", some (Finmap.singleton (ascii "acme") ⟨ascii "abc", ascii "xyz"⟩)⟩
        = .ok contents ∧
      (runCommand (Env.answering []) (activateArgs (ascii "acme"))
        ⟨[], some (Finmap.singleton (ascii "acme") ⟨ascii "abc", ascii "xyz"⟩)⟩).written
        = some ⟨contents, 0o600⟩ ∧
      (runCommand (Env.answering []) (activateArgs (ascii "acme"))
        ⟨[], some (Finmap.singleton (ascii "acme") ⟨ascii "abc", ascii "xyz"⟩)⟩).config
        = ⟨ascii "acme", some (Finmap.singleton (ascii "acme") ⟨ascii "abc", ascii "xyz"⟩)⟩ ∧
      ((Env.answering []).writeFile contents = none →
        runCommand (Env.answering []) (activateArgs (ascii "acme"))
          ⟨[], some (Finmap.singleton (ascii "acme") ⟨ascii "abc", ascii "xyz"⟩)⟩ =
          ⟨[], 0, ⟨ascii "acme", some (Finmap.singleton (ascii "acme") ⟨ascii "abc", ascii "xyz"⟩)⟩,
            some ⟨contents, 0o600⟩, none, none⟩) :=
  ⟨by simp,
   activate_known_writes (Env.answering []) [] _ (ascii "acme") (by simp)⟩

/-! ## C3: configure -/

/-- C3: for every store (with the map load leaves, never nil), name, client id and client
secret, `config configure` cannot fail before the write of the file: it serializes and
writes a store whose `accountMap[name]` is exactly the given pair, whose other entries are
those loaded and whose `defaultAccount` is the loaded one; when the write succeeds the
command prints nothing and exits with 0, whether or not the name was there before. -/
theorem configure_upserts (env : Env) (d : Bytes) (m : AccountMap)
    (name clientID clientSecret : Bytes) :
    ∃ m' contents,
      (runCommand env (configureArgs name clientID clientSecret) ⟨d, some m⟩).config
        = ⟨d, some m'⟩ ∧
      m'.lookup name = some ⟨clientID, clientSecret⟩ ∧
      (∀ k, k ≠ name → m'.lookup k = m.lookup k) ∧
      MarshalIndent ⟨d, some m'⟩ = .ok contents ∧
      (runCommand env (configureArgs name clientID clientSecret) ⟨d, some m⟩).written
        = some ⟨contents, 0o600⟩ ∧
      (env.writeFile contents = none →
        runCommand env (configureArgs name clientID clientSecret) ⟨d, some m⟩ =
          ⟨[], 0, ⟨d, some m'⟩, some ⟨contents, 0o600⟩, none, none⟩) := by
  refine ⟨m.insert name ⟨clientID, clientSecret⟩,
    indent 0 (configJSON ⟨d, some (m.insert name ⟨clientID, clientSecret⟩)⟩), ?_, ?_, ?_, rfl,
    ?_, ?_⟩
  · simp only [runCommand, configureArgs, configConfigure, mapSet, Option.map, saveConfig,
      MarshalIndent]
    cases env.writeFile (indent 0 (configJSON ⟨d, some (m.insert name ⟨clientID, clientSecret⟩)⟩))
      <;> simp
  · exact Finmap.lookup_insert m
  · intro k hk
    exact Finmap.lookup_insert_of_ne m hk
  · simp only [runCommand, configureArgs, configConfigure, mapSet, Option.map, saveConfig,
      MarshalIndent]
    cases env.writeFile (indent 0 (configJSON ⟨d, some (m.insert name ⟨clientID, clientSecret⟩)⟩))
      <;> simp
  · intro hw
    simp [runCommand, configureArgs, configConfigure, mapSet, saveConfig, MarshalIndent, hw]

/-! ## C8: the request of the api command -/

/-- The base URL the program gives the client. -/
def baseURL : Bytes := ascii "https://api.pax8.com"

theorem apiCommand_clientConfig (env : Env) (cmd : APICommand) (config : Config) :
    (apiCommand env cmd config).clientConfig =
      some ⟨(mapGet config.AccountMap config.DefaultAccount).1.ClientID,
        (mapGet config.AccountMap config.DefaultAccount).1.ClientSecret, baseURL⟩ := by
  simp only [apiCommand, baseURL]
  split
  · rfl
  · split
    · rfl
    · split <;> rfl

theorem apiCommand_request (env : Env) (cmd : APICommand) (config : Config)
    (h : env.newClient ⟨(mapGet config.AccountMap config.DefaultAccount).1.ClientID,
      (mapGet config.AccountMap config.DefaultAccount).1.ClientSecret, baseURL⟩ = none) :
    (apiCommand env cmd config).request =
      some ⟨cmd.Endpoint, ToUpper env.unicode cmd.Method, .AudienceProvisioning,
        if cmd.Body ≠ [] then some cmd.Body else none⟩ := by
  simp only [baseURL] at h
  simp only [apiCommand, h]
  split
  · rfl
  · split <;> rfl

/-- What `strings.ToUpper` makes of an ASCII string: every byte from `a` to `z` is moved to
the letter 0x20 below it, every other byte stays. -/
theorem ToUpper_ascii (U : UnicodeTables) (s : Bytes) (hs : ∀ c ∈ s, c.val < 0x80) :
    ToUpper U s = s.map (fun c => if 0x61 ≤ c.val ∧ c.val ≤ 0x7A then byte (c.val - 0x20) else c) := by
  have : s.all (fun c => decide (c.val < 0x80)) = true := by
    rw [List.all_eq_true]
    intro c hc
    simpa using hs c hc
  unfold ToUpper
  rw [if_pos this]
  rfl

/-- C8: for every `api` command line, when the client was created, the request handed to
`DoRequest` has the endpoint as given, the audience `pax8.AudienceProvisioning`, as input
nothing when the body is empty or absent and the bytes of the body otherwise, whatever they
are, and as method `strings.ToUpper` of the `--method` argument, whatever the body: `GET`
when the flag is absent, and for an ASCII argument the argument with every letter `a` to `z`
replaced by its capital (so `get` and `Post` are sent as `GET` and `POST`) and every other
byte as it is.  A body given without `--method` goes out with `GET`, though the help text
of `--body` speaks of POST and PUT. -/
theorem api_request_passthrough (env : Env) (endpoint : Bytes) (method body : Option Bytes)
    (config : Config)
    (h : env.newClient ⟨(mapGet config.AccountMap config.DefaultAccount).1.ClientID,
      (mapGet config.AccountMap config.DefaultAccount).1.ClientSecret, baseURL⟩ = none) :
    ∃ sent,
      (runCommand env (apiArgs endpoint method body) config).request =
        some ⟨endpoint, sent, .AudienceProvisioning,
          match body with
          | none => none
          | some b => if b = [] then none else some b⟩ ∧
      sent = ToUpper env.unicode (method.getD (ascii "GET")) ∧
      (method = none → sent = ascii "GET") ∧
      (∀ s, method = some s → (∀ c ∈ s, c.val < 0x80) →
        sent.length = s.length ∧
        ∀ i (hi : i < s.length) (hj : i < sent.length),
          (sent.get ⟨i, hj⟩).val =
            if 0x61 ≤ (s.get ⟨i, hi⟩).val ∧ (s.get ⟨i, hi⟩).val ≤ 0x7A
            then (s.get ⟨i, hi⟩).val - 0x20 else (s.get ⟨i, hi⟩).val) ∧
      (method = some (ascii "get") → sent = ascii "GET") ∧
      (method = some (ascii "Post") → sent = ascii "POST") := by
  refine ⟨ToUpper env.unicode (method.getD (ascii "GET")), ?_, rfl, ?_, ?_, ?_, ?_⟩
  · simp only [runCommand, apiArgs]
    rw [apiCommand_request env _ config h]
    cases body with
    | none => simp [APICommand.ofFlags]
    | some b => by_cases hb : b = [] <;> simp [APICommand.ofFlags, hb]
  · intro hm
    subst hm
    rw [Option.getD_none]
    unfold ToUpper
    rw [if_pos (by decide)]
    decide
  · intro s hm hs
    subst hm
    rw [Option.getD_some, ToUpper_ascii _ _ hs]
    refine ⟨List.length_map _ _, fun i hi hj => ?_⟩
    rw [List.get_eq_getElem, List.get_eq_getElem, List.getElem_map]
    have hlt := hs s[i] (List.getElem_mem _)
    split_ifs with hc
    · show (s[i].val - 0x20) % 256 = s[i].val - 0x20
      omega
    · rfl
  · intro hm
    subst hm
    rw [Option.getD_some]
    unfold ToUpper
    rw [if_pos (by decide)]
    decide
  · intro hm
    subst hm
    rw [Option.getD_some]
    unfold ToUpper
    rw [if_pos (by decide)]
    decide

theorem api_request_passthrough_witness :
    (Env.answering (ascii "null")).newClient
      ⟨(mapGet (⟨[], some ∅⟩ : Config).AccountMap (⟨[], some ∅⟩ : Config).DefaultAccount).1.ClientID,
        (mapGet (⟨[], some ∅⟩ : Config).AccountMap (⟨[], some ∅⟩ : Config).DefaultAccount).1.ClientSecret,
        baseURL⟩ = none ∧
    (runCommand (Env.answering (ascii "null"))
      (apiArgs (ascii "/v1/orgs") (some (ascii "get")) none) ⟨[], some ∅⟩).request =
      some ⟨ascii "/v1/orgs", ascii "GET", .AudienceProvisioning, none⟩ ∧
    (runCommand (Env.answering (ascii "null"))
      (apiArgs (ascii "/v1/orgs") none (some (ascii "\x7b\"name\":\"x\"\x7d"))) ⟨[], some ∅⟩).request =
      some ⟨ascii "/v1/orgs", ascii "GET", .AudienceProvisioning,
        some (ascii "\x7b\"name\":\"x\"\x7d")⟩ :=
  ⟨rfl, by
    obtain ⟨sent, h1, _, _, _, h5, _⟩ := api_request_passthrough (Env.answering (ascii "null"))
      (ascii "/v1/orgs") (some (ascii "get")) none ⟨[], some ∅⟩ rfl
    rw [h1, h5 rfl], by
    obtain ⟨sent, h1, _, h3, _, _, _⟩ := api_request_passthrough (Env.answering (ascii "null"))
      (ascii "/v1/orgs") none (some (ascii "\x7b\"name\":\"x\"\x7d")) ⟨[], some ∅⟩ rfl
    rw [h1, h3 rfl]
    decide⟩

/-! ## C5, C10: loading the config file -/

theorem ensureMap_ne_none (config : Config) : (ensureMap config).AccountMap ≠ none := by
  unfold ensureMap
  cases h : config.AccountMap with
  | none => simp
  | some m => simp [h]

theorem loadConfig_contents_config (U : UnicodeTables) (data : Bytes) :
    (loadConfig U (.contents data)).config = ensureMap (Unmarshal U data Config.zero).1 := by
  unfold loadConfig
  rcases h : Unmarshal U data Config.zero with ⟨config, _ | err⟩ <;> simp [h]

/-- C5: when the config file does not exist, load reports nothing, does not end the
process, and yields the store with an empty `defaultAccount` and an empty map that is not
nil; and for every content of the file, accepted by the parser or not, the map of the
loaded store is not nil: a document without `accountMap`, and one with `accountMap` set to
`null`, load without an error to the empty map. -/
theorem load_map_never_nil (U : UnicodeTables) :
    (∀ err, loadConfig U (.notExist err) = ⟨[], none, ⟨[], some ∅⟩⟩) ∧
    (∀ data, (loadConfig U (.contents data)).config.AccountMap ≠ none) ∧
    loadConfig U (.contents (ascii "\x7b\"defaultAccount\":\"a\"\x7d"))
      = ⟨[], none, ⟨ascii "a", some ∅⟩⟩ ∧
    loadConfig U (.contents (ascii "\x7b\"accountMap\":null\x7d")) = ⟨[], none, ⟨[], some ∅⟩⟩ := by
  refine ⟨fun err => rfl, fun data => ?_, ?_, ?_⟩
  · rw [loadConfig_contents_config]
    exact ensureMap_ne_none _
  · rfl
  · rfl

/-- The store load yields when it could not read a store from the file. -/
def emptyStore : Config := ⟨[], some ∅⟩

/-- C10: for every content of the config file that is not valid JSON, load prints
`error parsing config file: ` with the error and does not end the process, the store is
the empty one (empty `defaultAccount`, empty map that is not nil), and `main` goes on to
run the selected command on that store. -/
theorem load_malformed_is_empty (env : Env) (args : Args) (data : Bytes)
    (hbad : parseJSON data = none) :
    loadConfig env.unicode (.contents data) =
      ⟨[.text (ascii "error parsing config file: "), .error .jsonInvalid, .text [0x0A]], none,
        emptyStore⟩ ∧
    (env.makePath = none → env.readFile = .contents data →
      main env args =
        { runCommand env args emptyStore with
          stdout := [.text (ascii "error parsing config file: "), .error .jsonInvalid,
            .text [0x0A]] ++ (runCommand env args emptyStore).stdout }) := by
  have h1 : loadConfig env.unicode (.contents data) =
      ⟨[.text (ascii "error parsing config file: "), .error .jsonInvalid, .text [0x0A]], none,
        emptyStore⟩ := by
    simp [loadConfig, Unmarshal, hbad, ensureMap, Config.zero, emptyStore]
  refine ⟨h1, fun hmk hrd => ?_⟩
  simp [main, hmk, hrd, h1]

/-- An environment whose config file holds the given bytes. -/
def Env.withFile (data : Bytes) : Env :=
  { Env.answering [] with readFile := .contents data }

theorem load_malformed_is_empty_witness :
    parseJSON (ascii "\x7b\"defaultAccount\": \"acme\", ") = none ∧
    (main (Env.withFile (ascii "\x7b\"defaultAccount\": \"acme\", ")) listArgs).stdout
      = [.text (ascii "error parsing config file: "), .error .jsonInvalid, .text [0x0A]] ∧
    (main (Env.withFile (ascii "\x7b\"defaultAccount\": \"acme\", ")) listArgs).exitCode = 0 :=
  have h := (load_malformed_is_empty (Env.withFile (ascii "\x7b\"defaultAccount\": \"acme\", "))
    listArgs (ascii "\x7b\"defaultAccount\": \"acme\", ") rfl).2 rfl rfl
  ⟨rfl, by rw [h]; decide, by rw [h]; decide⟩

/-! ## unicode/utf8: decoding and encoding agree -/

theorem byte_val (n : Nat) : (byte n).val = n % 256 := rfl

theorem byte_eq_of_val {c : Byte} {n : Nat} (h : n = c.val) : byte n = c := by
  apply Fin.ext
  rw [byte_val, h]
  exact Nat.mod_eq_of_lt c.isLt

/-- The results of `DecodeRune` on input that starts with a byte of 0x80 or more: an
error of width 1, or the rune of a well-formed encoding of two, three or four bytes. -/
inductive RuneShape : Bytes → Nat × Nat → Prop where
  | bad (p : Bytes) : RuneShape p (RuneError, 1)
  | two (p0 b1 : Byte) (t : Bytes) (h0 : 0xC2 ≤ p0.val ∧ p0.val ≤ 0xDF)
      (h1 : 0x80 ≤ b1.val ∧ b1.val ≤ 0xBF) :
      RuneShape (p0 :: b1 :: t) ((p0.val % 32) * 64 + b1.val % 64, 2)
  | three (p0 b1 b2 : Byte) (t : Bytes) (h0 : 0xE0 ≤ p0.val ∧ p0.val ≤ 0xEF)
      (h1 : 0x80 ≤ b1.val ∧ b1.val ≤ 0xBF) (hlo : p0.val = 0xE0 → 0xA0 ≤ b1.val)
      (hhi : p0.val = 0xED → b1.val ≤ 0x9F) (h2 : 0x80 ≤ b2.val ∧ b2.val ≤ 0xBF) :
      RuneShape (p0 :: b1 :: b2 :: t)
        ((p0.val % 16) * 4096 + (b1.val % 64) * 64 + b2.val % 64, 3)
  | four (p0 b1 b2 b3 : Byte) (t : Bytes) (h0 : 0xF0 ≤ p0.val ∧ p0.val ≤ 0xF4)
      (h1 : 0x80 ≤ b1.val ∧ b1.val ≤ 0xBF) (hlo : p0.val = 0xF0 → 0x90 ≤ b1.val)
      (hhi : p0.val = 0xF4 → b1.val ≤ 0x8F) (h2 : 0x80 ≤ b2.val ∧ b2.val ≤ 0xBF)
      (h3 : 0x80 ≤ b3.val ∧ b3.val ≤ 0xBF) :
      RuneShape (p0 :: b1 :: b2 :: b3 :: t)
        ((p0.val % 8) * 262144 + (b1.val % 64) * 4096 + (b2.val % 64) * 64 + b3.val % 64, 4)

theorem acceptLo_bounds (p0 : Byte) :
    0x80 ≤ acceptLo p0 ∧ (p0.val = 0xE0 → acceptLo p0 = 0xA0) ∧
      (p0.val = 0xF0 → acceptLo p0 = 0x90) := by
  unfold acceptLo
  split_ifs <;> omega

theorem acceptHi_bounds (p0 : Byte) :
    acceptHi p0 ≤ 0xBF ∧ (p0.val = 0xED → acceptHi p0 = 0x9F) ∧
      (p0.val = 0xF4 → acceptHi p0 = 0x8F) := by
  unfold acceptHi
  split_ifs <;> omega

theorem DecodeRune_shape (b : Byte) (rest : Bytes) (hb : 0x80 ≤ b.val) :
    RuneShape (b :: rest) (DecodeRune (b :: rest)) := by
  have hb256 := b.isLt
  obtain ⟨l1, l2, l3⟩ := acceptLo_bounds b
  obtain ⟨u1, u2, u3⟩ := acceptHi_bounds b
  rcases rest with _ | ⟨b1, _ | ⟨b2, _ | ⟨b3, rest3⟩⟩⟩ <;> simp only [DecodeRune] <;>
    split_ifs <;>
    first
    | exact .bad _
    | (exfalso; omega)
    | (show RuneShape _ (_, 2); exact .two _ _ _ (by omega) (by omega))
    | (show RuneShape _ (_, 3)
       exact .three _ _ _ _ (by omega) (by omega) (fun h => by have := l2 h; omega)
        (fun h => by have := u2 h; omega) (by omega))
    | (show RuneShape _ (_, 4)
       exact .four _ _ _ _ _ (by omega) (by omega) (fun h => by have := l3 h; omega)
        (fun h => by have := u3 h; omega) (by omega) (by omega))

/-- What a well-formed encoding gives: its width is within the input, encoding the rune
gives the bytes back, and no byte of it is ASCII. -/
theorem RuneShape.ok {p : Bytes} {d : Nat × Nat} (h : RuneShape p d)
    (hv : ¬ (d.1 = RuneError ∧ d.2 = 1)) :
    2 ≤ d.2 ∧ d.2 ≤ p.length ∧ EncodeRune d.1 = p.take d.2 ∧
      (∀ c ∈ p.take d.2, 0x80 ≤ c.val) ∧ 0x80 ≤ d.1 := by
  cases h with
  | bad p => exact absurd ⟨rfl, rfl⟩ hv
  | two p0 b1 t h0 h1 =>
    have := p0.isLt
    have := b1.isLt
    refine ⟨by simp, by simp, ?_, ?_, by simp only; omega⟩
    · have e1 : ¬ (p0.val % 32 * 64 + b1.val % 64 ≤ 0x7F) := by omega
      have e2 : p0.val % 32 * 64 + b1.val % 64 ≤ 0x7FF := by omega
      simp only [EncodeRune, e1, e2, if_true, if_false, List.take_succ_cons, List.take_zero]
      rw [byte_eq_of_val (c := p0) (by omega), byte_eq_of_val (c := b1) (by omega)]
    · intro c hc
      simp only [List.take_succ_cons, List.take_zero, List.mem_cons, List.mem_nil_iff,
        or_false] at hc
      rcases hc with rfl | rfl <;> omega
  | three p0 b1 b2 t h0 h1 hlo hhi h2 =>
    have := p0.isLt
    have := b1.isLt
    have := b2.isLt
    refine ⟨by simp, by simp, ?_, ?_, by simp only; omega⟩
    · have e1 : ¬ (p0.val % 16 * 4096 + b1.val % 64 * 64 + b2.val % 64 ≤ 0x7F) := by omega
      have e2 : ¬ (p0.val % 16 * 4096 + b1.val % 64 * 64 + b2.val % 64 ≤ 0x7FF) := by
        by_cases hp : p0.val = 0xE0
        · have := hlo hp; omega
        · omega
      have e3 : ¬ (0x10FFFF < p0.val % 16 * 4096 + b1.val % 64 * 64 + b2.val % 64 ∨
          (0xD800 ≤ p0.val % 16 * 4096 + b1.val % 64 * 64 + b2.val % 64 ∧
            p0.val % 16 * 4096 + b1.val % 64 * 64 + b2.val % 64 ≤ 0xDFFF)) := by
        by_cases hp : p0.val = 0xED
        · have := hhi hp; omega
        · omega
      have e4 : p0.val % 16 * 4096 + b1.val % 64 * 64 + b2.val % 64 ≤ 0xFFFF := by omega
      simp only [EncodeRune, e1, e2, e3, e4, if_true, if_false, List.take_succ_cons,
        List.take_zero]
      rw [byte_eq_of_val (c := p0) (by omega), byte_eq_of_val (c := b1) (by omega),
        byte_eq_of_val (c := b2) (by omega)]
    · intro c hc
      simp only [List.take_succ_cons, List.take_zero, List.mem_cons, List.mem_nil_iff,
        or_false] at hc
      rcases hc with rfl | rfl | rfl <;> omega
  | four p0 b1 b2 b3 t h0 h1 hlo hhi h2 h3 =>
    have := p0.isLt
    have := b1.isLt
    have := b2.isLt
    have := b3.isLt
    refine ⟨by simp, by simp, ?_, ?_, by simp only; omega⟩
    · have e1 : ¬ (p0.val % 8 * 262144 + b1.val % 64 * 4096 + b2.val % 64 * 64
          + b3.val % 64 ≤ 0x7F) := by omega
      have e2 : ¬ (p0.val % 8 * 262144 + b1.val % 64 * 4096 + b2.val % 64 * 64
          + b3.val % 64 ≤ 0x7FF) := by omega
      have e3 : ¬ (0x10FFFF < p0.val % 8 * 262144 + b1.val % 64 * 4096 + b2.val % 64 * 64
          + b3.val % 64 ∨
          (0xD800 ≤ p0.val % 8 * 262144 + b1.val % 64 * 4096 + b2.val % 64 * 64
            + b3.val % 64 ∧
            p0.val % 8 * 262144 + b1.val % 64 * 4096 + b2.val % 64 * 64 + b3.val % 64
              ≤ 0xDFFF)) := by
        by_cases hp : p0.val = 0xF4
        · have := hhi hp; omega
        · by_cases hp0 : p0.val = 0xF0
          · have := hlo hp0; omega
          · omega
      have e4 : ¬ (p0.val % 8 * 262144 + b1.val % 64 * 4096 + b2.val % 64 * 64
          + b3.val % 64 ≤ 0xFFFF) := by
        by_cases hp0 : p0.val = 0xF0
        · have := hlo hp0; omega
        · omega
      simp only [EncodeRune, e1, e2, e3, e4, if_true, if_false, List.take_succ_cons,
        List.take_zero]
      rw [byte_eq_of_val (c := p0) (by omega), byte_eq_of_val (c := b1) (by omega),
        byte_eq_of_val (c := b2) (by omega), byte_eq_of_val (c := b3) (by omega)]
    · intro c hc
      simp only [List.take_succ_cons, List.take_zero, List.mem_cons, List.mem_nil_iff,
        or_false] at hc
      rcases hc with rfl | rfl | rfl | rfl <;> omega

/-! ## encoding/json: the text of a string -/

/-- The escapes of one character after a backslash that the scanner accepts. -/
def isSimpleEscape (e : Byte) : Bool :=
  e.val = 0x62 || e.val = 0x66 || e.val = 0x6E || e.val = 0x72 || e.val = 0x74
    || e.val = 0x5C || e.val = 0x2F || e.val = 0x22

/-- The texts the scanner accepts between the quotes of a string: plain characters (no
quote, no backslash, no control character), and after a backslash one of the escapes. -/
inductive Body : Bytes → Prop where
  | nil : Body []
  | plain (b : Byte) (rest : Bytes) (h1 : b.val ≠ 0x22) (h2 : b.val ≠ 0x5C)
      (h3 : 0x20 ≤ b.val) (hr : Body rest) : Body (b :: rest)
  | esc (b e : Byte) (rest : Bytes) (hb : b.val = 0x5C) (he : isSimpleEscape e = true)
      (hr : Body rest) : Body (b :: e :: rest)
  | uni (b u h1 h2 h3 h4 : Byte) (rest : Bytes) (hb : b.val = 0x5C) (hu : u.val = 0x75)
      (hh : isHex h1 = true ∧ isHex h2 = true ∧ isHex h3 = true ∧ isHex h4 = true)
      (hr : Body rest) : Body (b :: u :: h1 :: h2 :: h3 :: h4 :: rest)

theorem isSimpleEscape_iff (e : Byte) :
    isSimpleEscape e = true ↔
      (e.val = 0x62 ∨ e.val = 0x66 ∨ e.val = 0x6E ∨ e.val = 0x72 ∨ e.val = 0x74
        ∨ e.val = 0x5C ∨ e.val = 0x2F ∨ e.val = 0x22) := by
  simp [isSimpleEscape, or_assoc]

theorem isSimpleEscape_ne_u {e : Byte} (h : isSimpleEscape e = true) : e.val ≠ 0x75 := by
  rw [isSimpleEscape_iff] at h
  omega

theorem Body.append {a b : Bytes} (ha : Body a) (hb : Body b) : Body (a ++ b) := by
  induction ha with
  | nil => exact hb
  | plain c rest h1 h2 h3 _ ih => exact .plain c _ h1 h2 h3 ih
  | esc c e rest hc he _ ih => exact .esc c e _ hc he ih
  | uni c u h1 h2 h3 h4 rest hc hu hh _ ih => exact .uni c u h1 h2 h3 h4 _ hc hu hh ih

theorem Body.of_high {l : Bytes} (h : ∀ c ∈ l, 0x80 ≤ c.val) : Body l := by
  induction l with
  | nil => exact .nil
  | cons c cs ih =>
    have hc := h c (List.mem_cons_self _ _)
    exact .plain c cs (by omega) (by omega) (by omega)
      (ih (fun x hx => h x (List.mem_cons_of_mem _ hx)))

/-- On an accepted text followed by a quote, `scanString` returns the text and what
follows the quote. -/
theorem scanString_of_body {raw : Bytes} (h : Body raw) (q : Byte) (hq : q.val = 0x22)
    (rest : Bytes) : scanString (raw ++ q :: rest) = some (raw, rest) := by
  induction h with
  | nil =>
    show scanString (q :: rest) = some ([], rest)
    unfold scanString
    simp [hq]
  | plain c t h1 h2 h3 _ ih =>
    have h4 : ¬ c.val < 0x20 := by omega
    show scanString (c :: (t ++ q :: rest)) = some (c :: t, rest)
    unfold scanString
    simp [h1, h2, h4, ih]
  | esc c e t hc he _ ih =>
    have h1 : c.val ≠ 0x22 := by omega
    rw [isSimpleEscape_iff] at he
    show scanString (c :: e :: (t ++ q :: rest)) = some (c :: e :: t, rest)
    unfold scanString
    simp [h1, hc, he, ih]
  | uni c u h1 h2 h3 h4 t hc hu hh _ ih =>
    have hc1 : c.val ≠ 0x22 := by omega
    have hu1 : ¬ (u.val = 0x62 ∨ u.val = 0x66 ∨ u.val = 0x6E ∨ u.val = 0x72 ∨ u.val = 0x74
        ∨ u.val = 0x5C ∨ u.val = 0x2F ∨ u.val = 0x22) := by omega
    show scanString (c :: u :: h1 :: h2 :: h3 :: h4 :: (t ++ q :: rest))
      = some (c :: u :: h1 :: h2 :: h3 :: h4 :: t, rest)
    unfold scanString
    simp [hc1, hc, hu1, hu, hh.1, hh.2.1, hh.2.2.1, hh.2.2.2, ih]

theorem hexDigit_val {k : Nat} (hk : k < 16) :
    (hexDigit k).val = if k < 10 then 0x30 + k else 0x57 + k := by
  unfold hexDigit
  split_ifs <;> rw [byte_val] <;> omega

theorem hexVal_hexDigit {k : Nat} (hk : k < 16) : hexVal (hexDigit k) = some k := by
  have hv := hexDigit_val hk
  unfold hexVal
  by_cases h10 : k < 10
  · rw [if_pos h10] at hv
    rw [if_pos (by omega)]
    congr 1
    omega
  · rw [if_neg h10] at hv
    rw [if_neg (by omega), if_pos (by omega)]
    congr 1
    omega

theorem isHex_hexDigit {k : Nat} (hk : k < 16) : isHex (hexDigit k) = true := by
  have hv := hexDigit_val hk
  unfold isHex
  by_cases h10 : k < 10
  · rw [if_pos h10] at hv
    simp only [Bool.or_eq_true, Bool.and_eq_true, decide_eq_true_eq]
    left; left; omega
  · rw [if_neg h10] at hv
    simp only [Bool.or_eq_true, Bool.and_eq_true, decide_eq_true_eq]
    left; right; omega

theorem accept_ok (p0 : Byte) {b1 : Byte} (h1 : 0x80 ≤ b1.val ∧ b1.val ≤ 0xBF)
    (hE0 : p0.val = 0xE0 → 0xA0 ≤ b1.val) (hF0 : p0.val = 0xF0 → 0x90 ≤ b1.val)
    (hED : p0.val = 0xED → b1.val ≤ 0x9F) (hF4 : p0.val = 0xF4 → b1.val ≤ 0x8F) :
    ¬ (b1.val < acceptLo p0 ∨ acceptHi p0 < b1.val) := by
  unfold acceptLo acceptHi
  split_ifs <;> omega

/-- The result of `DecodeRune` on a well-formed encoding does not depend on what follows
it. -/
theorem RuneShape.decode_prefix {p : Bytes} {d : Nat × Nat} (h : RuneShape p d)
    (hv : ¬ (d.1 = RuneError ∧ d.2 = 1)) (X : Bytes) : DecodeRune (p.take d.2 ++ X) = d := by
  cases h with
  | bad p => exact absurd ⟨rfl, rfl⟩ hv
  | two p0 b1 t h0 h1 =>
    have hacc := accept_ok p0 h1 (by omega) (by omega) (by omega) (by omega)
    show DecodeRune (p0 :: b1 :: X) = _
    unfold DecodeRune
    dsimp only
    rw [if_neg (by omega), if_neg (by omega), if_neg hacc, if_pos (by omega)]
  | three p0 b1 b2 t h0 h1 hlo hhi h2 =>
    have hacc := accept_ok p0 h1 hlo (by omega) hhi (by omega)
    show DecodeRune (p0 :: b1 :: b2 :: X) = _
    unfold DecodeRune
    dsimp only
    rw [if_neg (by omega), if_neg (by omega), if_neg hacc, if_neg (by omega),
      if_neg (by omega), if_pos (by omega)]
  | four p0 b1 b2 b3 t h0 h1 hlo hhi h2 h3 =>
    have hacc := accept_ok p0 h1 (by omega) hlo (by omega) hhi
    show DecodeRune (p0 :: b1 :: b2 :: b3 :: X) = _
    unfold DecodeRune
    dsimp only
    rw [if_neg (by omega), if_neg (by omega), if_neg hacc, if_neg (by omega),
      if_neg (by omega), if_neg (by omega), if_neg (by omega)]

theorem unquoteAux_nil (m : Nat) : unquoteAux m [] = some [] := by
  cases m <;> rfl

theorem unquoteAux_step (m : Nat) (c : Byte) (rest out : Bytes) (k : Nat)
    (h : unquoteStep c rest = some (out, k)) :
    unquoteAux (m + 1) (c :: rest) = (unquoteAux m (rest.drop k)).map (fun t => out ++ t) := by
  rw [unquoteAux, h]

theorem unquoteStep_plain (c : Byte) (X : Bytes) (h1 : c.val ≠ 0x5C)
    (h2 : c.val ≠ 0x22) (h3 : 0x20 ≤ c.val) (h4 : c.val < 0x80) :
    unquoteStep c X = some ([c], 0) := by
  unfold unquoteStep
  rw [if_neg h1, if_neg (by omega), if_pos h4]

theorem unquoteStep_u4 (c u h1 h2 h3 h4 : Byte) (X : Bytes) (rr : Nat)
    (hc : c.val = 0x5C) (hu : u.val = 0x75)
    (hg : getu4 (c :: u :: h1 :: h2 :: h3 :: h4 :: X) = some rr)
    (hns : ¬ (0xD800 ≤ rr ∧ rr < 0xE000)) :
    unquoteStep c (u :: h1 :: h2 :: h3 :: h4 :: X) = some (EncodeRune rr, 5) := by
  unfold unquoteStep
  simp only [hc, if_true]
  rw [if_neg (by omega), if_neg (by omega), if_neg (by omega), if_neg (by omega),
    if_neg (by omega), if_neg (by omega), if_pos hu]
  simp only [hg, if_neg hns]

theorem htmlSafe_iff (b : Byte) :
    htmlSafe b = true ↔ (0x20 ≤ b.val ∧ b.val < 0x80 ∧ b.val ≠ 0x22 ∧ b.val ≠ 0x5C
      ∧ b.val ≠ 0x3C ∧ b.val ≠ 0x3E ∧ b.val ≠ 0x26) := by
  simp [htmlSafe, and_assoc]

theorem getu4_cons (c u h1 h2 h3 h4 : Byte) (X : Bytes) (a1 a2 a3 a4 : Nat)
    (hc : c.val = 0x5C) (hu : u.val = 0x75) (e1 : hexVal h1 = some a1)
    (e2 : hexVal h2 = some a2) (e3 : hexVal h3 = some a3) (e4 : hexVal h4 = some a4) :
    getu4 (c :: u :: h1 :: h2 :: h3 :: h4 :: X) = some (a1 * 4096 + a2 * 256 + a3 * 16 + a4) := by
  unfold getu4
  simp [hc, hu, e1, e2, e3, e4]

theorem EncodeRune_ascii (b : Byte) (hb : b.val < 0x80) : EncodeRune b.val = [b] := by
  unfold EncodeRune
  rw [if_pos (by omega), byte_eq_of_val rfl]

/-- One round of `unquoteBytes` reads back what `appendString` wrote for an ASCII byte. -/
theorem unquoteAux_escapeASCII (m : Nat) (b : Byte) (hb : b.val < 0x80) (X : Bytes) :
    unquoteAux (m + 1) (escapeASCII b ++ X) = (unquoteAux m X).map (fun t => b :: t) := by
  unfold escapeASCII
  split_ifs with h1 h2 h3 h4 h5 h6 h7
  · rw [htmlSafe_iff] at h1
    show unquoteAux (m + 1) (b :: X) = _
    rw [unquoteAux_step m b X [b] 0 (unquoteStep_plain b X (by omega) (by omega) (by omega) hb)]
    rfl
  · show unquoteAux (m + 1) (0x5C :: b :: X) = _
    rw [unquoteAux_step m _ _ [b] 1 (by
      unfold unquoteStep
      rw [if_pos (by decide)]
      dsimp only
      rw [if_pos (by omega)])]
    rfl
  · have hb8 : b = 0x08 := Fin.ext h3
    show unquoteAux (m + 1) (0x5C :: 0x62 :: X) = _
    rw [unquoteAux_step m 0x5C (0x62 :: X) [0x08] 1 rfl, hb8]
    rfl
  · have hb8 : b = 0x0C := Fin.ext h4
    show unquoteAux (m + 1) (0x5C :: 0x66 :: X) = _
    rw [unquoteAux_step m 0x5C (0x66 :: X) [0x0C] 1 rfl, hb8]
    rfl
  · have hb8 : b = 0x0A := Fin.ext h5
    show unquoteAux (m + 1) (0x5C :: 0x6E :: X) = _
    rw [unquoteAux_step m 0x5C (0x6E :: X) [0x0A] 1 rfl, hb8]
    rfl
  · have hb8 : b = 0x0D := Fin.ext h6
    show unquoteAux (m + 1) (0x5C :: 0x72 :: X) = _
    rw [unquoteAux_step m 0x5C (0x72 :: X) [0x0D] 1 rfl, hb8]
    rfl
  · have hb8 : b = 0x09 := Fin.ext h7
    show unquoteAux (m + 1) (0x5C :: 0x74 :: X) = _
    rw [unquoteAux_step m 0x5C (0x74 :: X) [0x09] 1 rfl, hb8]
    rfl
  · show unquoteAux (m + 1)
      (0x5C :: 0x75 :: 0x30 :: 0x30 :: hexDigit (b.val / 16) :: hexDigit (b.val % 16) :: X) = _
    have hg := getu4_cons 0x5C 0x75 0x30 0x30 (hexDigit (b.val / 16)) (hexDigit (b.val % 16)) X
      0 0 (b.val / 16) (b.val % 16) rfl rfl (by decide) (by decide)
      (hexVal_hexDigit (by omega)) (hexVal_hexDigit (by omega))
    have hr : 0 * 4096 + 0 * 256 + b.val / 16 * 16 + b.val % 16 = b.val := by omega
    rw [hr] at hg
    rw [unquoteAux_step m _ _ _ 5 (unquoteStep_u4 _ _ _ _ _ _ X b.val rfl rfl hg (by omega)),
      EncodeRune_ascii b hb]
    rfl

theorem unquoteStep_high (b : Byte) (rest : Bytes) (hb : 0x80 ≤ b.val) :
    unquoteStep b rest
      = some (EncodeRune (DecodeRune (b :: rest)).1, (DecodeRune (b :: rest)).2 - 1) := by
  unfold unquoteStep
  rw [if_neg (by omega), if_neg (by omega), if_neg (by omega)]

/-- One round of `unquoteBytes` reads back a well-formed encoding of two to four bytes. -/
theorem unquoteAux_high (m : Nat) (b : Byte) (rest : Bytes) (hb : 0x80 ≤ b.val)
    (hv : ¬ ((DecodeRune (b :: rest)).1 = RuneError ∧ (DecodeRune (b :: rest)).2 = 1))
    (X : Bytes) :
    unquoteAux (m + 1) ((b :: rest).take (DecodeRune (b :: rest)).2 ++ X)
      = (unquoteAux m X).map (fun t => (b :: rest).take (DecodeRune (b :: rest)).2 ++ t) := by
  have hs := DecodeRune_shape b rest hb
  obtain ⟨h2, hlen, henc, _, _⟩ := hs.ok hv
  have hpre := hs.decode_prefix hv X
  obtain ⟨k, hk⟩ : ∃ k, (DecodeRune (b :: rest)).2 = k + 1 := ⟨_, (Nat.sub_add_cancel (by omega)).symm⟩
  rw [hk] at hpre hlen henc ⊢
  simp only [List.take_succ_cons, List.cons_append, List.length_cons] at hpre hlen henc ⊢
  rw [unquoteAux_step m b _ _ _ (unquoteStep_high b _ hb), hpre, henc, hk]
  simp only [Nat.add_sub_cancel]
  rw [List.drop_append_of_le_length (by simp; omega), List.drop_of_length_le (by simp)]
  rfl

theorem escapeASCII_body (b : Byte) (hb : b.val < 0x80) : Body (escapeASCII b) := by
  unfold escapeASCII
  split_ifs with h1 h2 h3 h4 h5 h6 h7
  · rw [htmlSafe_iff] at h1
    exact .plain b [] (by omega) (by omega) (by omega) .nil
  · exact .esc 0x5C b [] rfl (by rw [isSimpleEscape_iff]; omega) .nil
  · exact .esc 0x5C 0x62 [] rfl rfl .nil
  · exact .esc 0x5C 0x66 [] rfl rfl .nil
  · exact .esc 0x5C 0x6E [] rfl rfl .nil
  · exact .esc 0x5C 0x72 [] rfl rfl .nil
  · exact .esc 0x5C 0x74 [] rfl rfl .nil
  · exact .uni 0x5C 0x75 0x30 0x30 _ _ [] rfl rfl
      ⟨rfl, rfl, isHex_hexDigit (by omega), isHex_hexDigit (by omega)⟩ .nil

theorem escapeASCII_length_pos (b : Byte) : 0 < (escapeASCII b).length := by
  unfold escapeASCII
  split_ifs <;> simp

/-- Whatever the Go string, `appendString` writes a text the scanner accepts. -/
theorem appendStringAux_body (n : Nat) : ∀ s : Bytes, Body (appendStringAux n s) := by
  induction n with
  | zero =>
    intro s
    cases s <;> exact .nil
  | succ n ih =>
    intro s
    cases s with
    | nil => exact .nil
    | cons b rest =>
      rw [appendStringAux]
      split_ifs with h1 h2 h3
      · exact (escapeASCII_body b h1).append (ih rest)
      · exact Body.append (.uni 0x5C 0x75 0x66 0x66 0x66 0x64 [] rfl rfl ⟨rfl, rfl, rfl, rfl⟩ .nil)
          (ih rest)
      · exact Body.append (.uni 0x5C 0x75 0x32 0x30 0x32 _ [] rfl rfl
          ⟨rfl, rfl, rfl, isHex_hexDigit (Nat.mod_lt _ (by omega))⟩ .nil) (ih _)
      · have hs := DecodeRune_shape b rest (by omega)
        obtain ⟨_, _, _, hhigh, _⟩ := hs.ok h2
        exact (Body.of_high hhigh).append (ih _)

theorem encodeString_body (s : Bytes) : Body (encodeString s) := appendStringAux_body _ s

/-- On valid UTF-8, `unquoteBytes` gives back the string `appendString` was given. -/
theorem unquoteAux_appendStringAux (n : Nat) :
    ∀ s : Bytes, ValidAux n s = true → ∀ m, (appendStringAux n s).length ≤ m →
      unquoteAux m (appendStringAux n s) = some s := by
  induction n with
  | zero =>
    intro s hv m _
    cases s with
    | nil => exact unquoteAux_nil m
    | cons b rest => simp [ValidAux] at hv
  | succ n ih =>
    intro s hv m hm
    cases s with
    | nil => exact unquoteAux_nil m
    | cons b rest =>
      rw [ValidAux] at hv
      rw [appendStringAux] at hm ⊢
      by_cases h1 : b.val < 0x80
      · rw [if_pos h1] at hv hm ⊢
        have hpos := escapeASCII_length_pos b
        rw [List.length_append] at hm
        obtain ⟨m', rfl⟩ : ∃ m', m = m' + 1 := ⟨m - 1, by omega⟩
        rw [unquoteAux_escapeASCII m' b h1, ih rest hv m' (by omega)]
        rfl
      · rw [if_neg h1] at hv hm ⊢
        by_cases h2 : (DecodeRune (b :: rest)).1 = RuneError ∧ (DecodeRune (b :: rest)).2 = 1
        · simp [h2] at hv
        · simp only [h2, if_false] at hv hm ⊢
          have hs := DecodeRune_shape b rest (by omega)
          obtain ⟨h2le, hlen, henc, _, _⟩ := hs.ok h2
          have hsplit : (b :: rest).take (DecodeRune (b :: rest)).2
              ++ rest.drop ((DecodeRune (b :: rest)).2 - 1) = b :: rest := by
            obtain ⟨k, hk⟩ : ∃ k, (DecodeRune (b :: rest)).2 = k + 1 :=
              ⟨_, (Nat.sub_add_cancel (by omega)).symm⟩
            rw [hk]
            simp
          by_cases h3 : (DecodeRune (b :: rest)).1 = 0x2028 ∨ (DecodeRune (b :: rest)).1 = 0x2029
          · rw [if_pos h3] at hm ⊢
            rw [List.length_append] at hm
            obtain ⟨m', rfl⟩ : ∃ m', m = m' + 1 := ⟨m - 1, by simp at hm; omega⟩
            have hg : getu4 (0x5C :: 0x75 :: 0x32 :: 0x30 :: 0x32
                :: hexDigit ((DecodeRune (b :: rest)).1 % 16)
                :: appendStringAux n (rest.drop ((DecodeRune (b :: rest)).2 - 1)))
                = some (DecodeRune (b :: rest)).1 := by
              rcases h3 with h3 | h3 <;> rw [h3] <;> rfl
            show unquoteAux (m' + 1) (0x5C :: 0x75 :: 0x32 :: 0x30 :: 0x32
                :: hexDigit ((DecodeRune (b :: rest)).1 % 16)
                :: appendStringAux n (rest.drop ((DecodeRune (b :: rest)).2 - 1))) = _
            rw [unquoteAux_step m' _ _ _ 5 (unquoteStep_u4 _ _ _ _ _ _ _ _ rfl rfl hg (by omega))]
            simp only [List.drop_succ_cons, List.drop_zero]
            rw [ih _ hv m' (by simp at hm; omega), henc]
            simp only [Option.map_some']
            rw [hsplit]
          · rw [if_neg h3] at hm ⊢
            rw [List.length_append] at hm
            obtain ⟨m', rfl⟩ : ∃ m', m = m' + 1 :=
              ⟨m - 1, by rw [List.length_take] at hm; simp at hm; omega⟩
            rw [unquoteAux_high m' b rest (by omega) h2, ih _ hv m' (by
              rw [List.length_take] at hm; simp at hm; omega)]
            simp only [Option.map_some']
            rw [hsplit]

/-- On valid UTF-8, the Go string of what `appendString` wrote is the string itself. -/
theorem goString_encodeString (s : Bytes) (hv : Valid s = true) :
    goString (encodeString s) = s := by
  unfold goString unquote encodeString
  rw [unquoteAux_appendStringAux s.length s hv _ (Nat.le_refl _)]
  rfl

/-! ## encoding/json: the scanner reads back what `Indent` wrote -/

/-- What may follow a number literal without being read as part of it. -/
def Delim (rest : Bytes) : Prop :=
  ∀ b t, rest = b :: t →
    ¬ (isDigit b = true ∨ b.val = 0x2E ∨ b.val = 0x65 ∨ b.val = 0x45)

/-- The texts of number literals: they start with a minus sign or a digit, and the
scanner reads exactly them off the front of any input in which a delimiter follows. -/
def NumOK (raw : Bytes) : Prop :=
  (∃ b t, raw = b :: t ∧ (b.val = 0x2D ∨ isDigit b = true)) ∧
    ∀ rest, Delim rest → scanNumber (raw ++ rest) = some (raw, rest)

mutual
/-- The values whose tokens the scanner accepts, within `d` levels of nesting. -/
def WF : Nat → JValue → Prop
  | _, .null => True
  | _, .bool _ => True
  | _, .num raw => NumOK raw
  | _, .str raw => Body raw
  | 0, .arr _ => False
  | d + 1, .arr es => WFElems d es
  | 0, .obj _ => False
  | d + 1, .obj ms => WFMembers d ms
def WFElems : Nat → List JValue → Prop
  | _, [] => True
  | d, e :: es => WF d e ∧ WFElems d es
def WFMembers : Nat → List (Bytes × JValue) → Prop
  | _, [] => True
  | d, (k, v) :: ms => Body k ∧ WF d v ∧ WFMembers d ms
end

mutual
/-- The fuel `parseValue` needs for a value: one unit for every value and every element
or member on the way. -/
def cost : JValue → Nat
  | .null => 1
  | .bool _ => 1
  | .num _ => 1
  | .str _ => 1
  | .arr es => 1 + costElems es
  | .obj ms => 1 + costMembers ms
def costElems : List JValue → Nat
  | [] => 0
  | e :: es => 1 + cost e + costElems es
def costMembers : List (Bytes × JValue) → Nat
  | [] => 0
  | (_, v) :: ms => 1 + cost v + costMembers ms
end

theorem skipSpace_cons_of_not_space (b : Byte) (t : Bytes) (h : isSpace b = false) :
    skipSpace (b :: t) = b :: t := by
  simp [skipSpace, h]

theorem skipSpace_replicate (k : Nat) (bs : Bytes) :
    skipSpace (List.replicate k 0x20 ++ bs) = skipSpace bs := by
  induction k with
  | zero => rfl
  | succ k ih =>
    show skipSpace (0x20 :: (List.replicate k 0x20 ++ bs)) = _
    rw [skipSpace, if_pos (by decide), ih]

theorem skipSpace_newline (d : Nat) (bs : Bytes) :
    skipSpace (newline d ++ bs) = skipSpace bs := by
  show skipSpace (0x0A :: (List.replicate (2 * d) 0x20 ++ bs)) = _
  rw [skipSpace, if_pos (by decide), skipSpace_replicate]

/-- The first byte of a value: what `stateBeginValue` accepts other than white space. -/
def ValueStart (b : Byte) : Prop :=
  b.val = 0x7B ∨ b.val = 0x5B ∨ b.val = 0x22 ∨ b.val = 0x74 ∨ b.val = 0x66 ∨ b.val = 0x6E
    ∨ b.val = 0x2D ∨ isDigit b = true

theorem ValueStart.not_space {b : Byte} (h : ValueStart b) : isSpace b = false := by
  unfold ValueStart isDigit at h
  unfold isSpace
  simp only [Bool.and_eq_true, decide_eq_true_eq] at h
  simp only [Bool.or_eq_false_iff, decide_eq_false_iff_not]
  omega

theorem ValueStart.not_close {b : Byte} (h : ValueStart b) : b.val ≠ 0x5D ∧ b.val ≠ 0x7D := by
  unfold ValueStart isDigit at h
  simp only [Bool.and_eq_true, decide_eq_true_eq] at h
  omega

theorem parseValue_null (fuel depth : Nat) (rest : Bytes) :
    parseValue (fuel + 1) depth (0x6E :: 0x75 :: 0x6C :: 0x6C :: rest) = some (.null, rest) := by
  unfold parseValue
  rw [if_neg (by decide), if_neg (by decide), if_neg (by decide), if_neg (by decide),
    if_neg (by decide), if_pos (by decide)]
  rfl

theorem parseValue_true (fuel depth : Nat) (rest : Bytes) :
    parseValue (fuel + 1) depth (0x74 :: 0x72 :: 0x75 :: 0x65 :: rest)
      = some (.bool true, rest) := by
  unfold parseValue
  rw [if_neg (by decide), if_neg (by decide), if_neg (by decide), if_pos (by decide)]
  rfl

theorem parseValue_false (fuel depth : Nat) (rest : Bytes) :
    parseValue (fuel + 1) depth (0x66 :: 0x61 :: 0x6C :: 0x73 :: 0x65 :: rest)
      = some (.bool false, rest) := by
  unfold parseValue
  rw [if_neg (by decide), if_neg (by decide), if_neg (by decide), if_neg (by decide),
    if_pos (by decide)]
  rfl

theorem parseValue_str (fuel depth : Nat) {raw : Bytes} (h : Body raw) (rest : Bytes) :
    parseValue (fuel + 1) depth (0x22 :: (raw ++ 0x22 :: rest)) = some (.str raw, rest) := by
  unfold parseValue
  rw [if_neg (by decide), if_neg (by decide), if_pos (by decide),
    scanString_of_body h 0x22 rfl rest]
  rfl

theorem parseValue_num (fuel depth : Nat) {raw : Bytes} (h : NumOK raw) (rest : Bytes)
    (hd : Delim rest) : parseValue (fuel + 1) depth (raw ++ rest) = some (.num raw, rest) := by
  obtain ⟨⟨b, t, rfl, hb⟩, hscan⟩ := h
  have hs := hscan rest hd
  have hne : b.val ≠ 0x7B ∧ b.val ≠ 0x5B ∧ b.val ≠ 0x22 ∧ b.val ≠ 0x74 ∧ b.val ≠ 0x66
      ∧ b.val ≠ 0x6E := by
    unfold isDigit at hb
    simp only [Bool.and_eq_true, decide_eq_true_eq] at hb
    omega
  show parseValue (fuel + 1) depth (b :: (t ++ rest)) = _
  unfold parseValue
  rw [if_neg hne.1, if_neg hne.2.1, if_neg hne.2.2.1, if_neg hne.2.2.2.1,
    if_neg hne.2.2.2.2.1, if_neg hne.2.2.2.2.2]
  show Option.map _ (scanNumber ((b :: t) ++ rest)) = _
  rw [hs]
  rfl

theorem parseValue_arr (fuel depth : Nat) (bs : Bytes) (c : Byte) (rest1 : Bytes)
    (hs : skipSpace bs = c :: rest1) (hc : c.val ≠ 0x5D) :
    parseValue (fuel + 1) (depth + 1) (0x5B :: bs)
      = (parseElems fuel depth (c :: rest1)).map (fun r => (.arr r.1, r.2)) := by
  unfold parseValue
  rw [if_neg (by decide), if_pos (by decide)]
  simp only [hs, if_neg hc]

theorem parseValue_obj (fuel depth : Nat) (bs : Bytes) (c : Byte) (rest1 : Bytes)
    (hs : skipSpace bs = c :: rest1) (hc : c.val ≠ 0x7D) :
    parseValue (fuel + 1) (depth + 1) (0x7B :: bs)
      = (parseMembers fuel depth (c :: rest1)).map (fun r => (.obj r.1, r.2)) := by
  unfold parseValue
  rw [if_pos (by decide)]
  simp only [hs, if_neg hc]

theorem parseValue_arr_nil (fuel depth : Nat) (rest : Bytes) :
    parseValue (fuel + 1) (depth + 1) (0x5B :: 0x5D :: rest) = some (.arr [], rest) := by
  unfold parseValue
  rw [if_neg (by decide), if_pos (by decide)]
  rfl

theorem parseValue_obj_nil (fuel depth : Nat) (rest : Bytes) :
    parseValue (fuel + 1) (depth + 1) (0x7B :: 0x7D :: rest) = some (.obj [], rest) := by
  unfold parseValue
  rw [if_pos (by decide)]
  rfl

/-- What follows a value in the output of `Indent`: nothing, a comma or a line break. -/
def Follows (rest : Bytes) : Prop :=
  rest = [] ∨ ∃ b t, rest = b :: t ∧ (b.val = 0x2C ∨ b.val = 0x0A)

theorem Follows.delim {rest : Bytes} (h : Follows rest) : Delim rest := by
  intro b t hbt
  rcases h with rfl | ⟨b', t', rfl, hb'⟩
  · cases hbt
  · cases hbt
    unfold isDigit
    simp only [Bool.and_eq_true, decide_eq_true_eq]
    omega

theorem follows_newline (k : Nat) (bs : Bytes) : Follows (newline k ++ bs) :=
  .inr ⟨0x0A, _, rfl, .inr rfl⟩

theorem follows_comma (bs : Bytes) : Follows (0x2C :: bs) :=
  .inr ⟨0x2C, _, rfl, .inl rfl⟩

theorem indent_arr_cons (k : Nat) (e : JValue) (es : List JValue) :
    indent k (.arr (e :: es)) =
      0x5B :: (newline (k + 1) ++ (indent (k + 1) e ++ (indentElems (k + 1) es
        ++ (newline k ++ [0x5D])))) := by
  rw [indent]

theorem indent_obj_cons (k : Nat) (key : Bytes) (v : JValue) (ms : List (Bytes × JValue)) :
    indent k (.obj ((key, v) :: ms)) =
      0x7B :: (newline (k + 1) ++ (0x22 :: (key ++ (0x22 :: 0x3A :: 0x20 :: (indent (k + 1) v
        ++ (indentMembers (k + 1) ms ++ (newline k ++ [0x7D]))))))) := by
  rw [indent]

theorem indentElems_cons (k : Nat) (e : JValue) (es : List JValue) :
    indentElems k (e :: es) = 0x2C :: (newline k ++ (indent k e ++ indentElems k es)) := by
  rw [indentElems]

theorem indentMembers_cons (k : Nat) (key : Bytes) (v : JValue) (ms : List (Bytes × JValue)) :
    indentMembers k ((key, v) :: ms) =
      0x2C :: (newline k ++ (0x22 :: (key ++ (0x22 :: 0x3A :: 0x20 :: (indent k v
        ++ indentMembers k ms))))) := by
  rw [indentMembers]

/-- The output of `Indent` for a value starts with the first byte of a value. -/
theorem indent_start (k d : Nat) (v : JValue) (h : WF d v) :
    ∃ b t, indent k v = b :: t ∧ ValueStart b := by
  cases v with
  | null => exact ⟨0x6E, _, rfl, by unfold ValueStart; decide⟩
  | bool b =>
    cases b
    · exact ⟨0x66, _, rfl, by unfold ValueStart; decide⟩
    · exact ⟨0x74, _, rfl, by unfold ValueStart; decide⟩
  | num raw =>
    rw [WF] at h
    obtain ⟨⟨b, t, rfl, hb⟩, _⟩ := h
    refine ⟨b, t, by rw [indent], ?_⟩
    unfold ValueStart
    rcases hb with hb | hb <;> simp [hb]
  | str raw => exact ⟨0x22, _, by rw [indent], by unfold ValueStart; decide⟩
  | arr es =>
    cases es with
    | nil => exact ⟨0x5B, _, by rw [indent], by unfold ValueStart; decide⟩
    | cons e es => exact ⟨0x5B, _, indent_arr_cons k e es, by unfold ValueStart; decide⟩
  | obj ms =>
    cases ms with
    | nil => exact ⟨0x7B, _, by rw [indent], by unfold ValueStart; decide⟩
    | cons m ms =>
      obtain ⟨key, v⟩ := m
      exact ⟨0x7B, _, indent_obj_cons k key v ms, by unfold ValueStart; decide⟩

theorem skipSpace_newline_indent (k k2 d : Nat) (v : JValue) (h : WF d v) (R : Bytes) :
    skipSpace (newline k2 ++ (indent k v ++ R)) = indent k v ++ R := by
  obtain ⟨b, t, hbt, hb⟩ := indent_start k d v h
  rw [skipSpace_newline, hbt]
  exact skipSpace_cons_of_not_space b _ hb.not_space

/-- The scanner reads back what `Indent` wrote: the value itself, and the input that
follows it; `fuel` is enough when it covers the cost of the value. -/
theorem parse_indent (fuel : Nat) :
    (∀ d k v rest, WF d v → cost v ≤ fuel → Follows rest →
      parseValue fuel d (indent k v ++ rest) = some (v, rest)) ∧
    (∀ d k k2 e es rest, WF d e → WFElems d es → 1 + cost e + costElems es ≤ fuel →
      parseElems fuel d (indent k e ++ (indentElems k es ++ (newline k2 ++ 0x5D :: rest)))
        = some (e :: es, rest)) ∧
    (∀ d k k2 key v ms rest, Body key → WF d v → WFMembers d ms →
      1 + cost v + costMembers ms ≤ fuel →
      parseMembers fuel d (0x22 :: (key ++ 0x22 :: 0x3A :: 0x20 :: (indent k v
        ++ (indentMembers k ms ++ (newline k2 ++ 0x7D :: rest)))))
        = some ((key, v) :: ms, rest)) := by
  induction fuel with
  | zero =>
    refine ⟨?_, ?_, ?_⟩
    · intro d k v rest _ hc _
      cases v <;> simp [cost] at hc
    · intro d k k2 e es rest _ _ hc
      omega
    · intro d k k2 key v ms rest _ _ _ hc
      omega
  | succ fuel ih =>
    obtain ⟨ihV, ihE, ihM⟩ := ih
    refine ⟨?_, ?_, ?_⟩
    · intro d k v rest hwf hc hf
      cases v with
      | null => exact parseValue_null fuel d rest
      | bool b =>
        cases b
        · exact parseValue_false fuel d rest
        · exact parseValue_true fuel d rest
      | num raw =>
        rw [WF] at hwf
        rw [indent]
        exact parseValue_num fuel d hwf rest hf.delim
      | str raw =>
        rw [WF] at hwf
        rw [indent]
        have := parseValue_str fuel d hwf rest
        simpa using this
      | arr es =>
        cases d with
        | zero => rw [WF] at hwf; exact hwf.elim
        | succ d =>
          rw [WF] at hwf
          cases es with
          | nil =>
            rw [indent]
            exact parseValue_arr_nil fuel d rest
          | cons e es =>
            rw [WFElems] at hwf
            rw [cost, costElems] at hc
            rw [indent_arr_cons]
            simp only [List.cons_append, List.append_assoc, List.nil_append]
            obtain ⟨b, t, hbt, hb⟩ := indent_start (k + 1) d e hwf.1
            have hskip := skipSpace_newline_indent (k + 1) (k + 1) d e hwf.1
              (indentElems (k + 1) es ++ (newline k ++ 0x5D :: rest))
            have hcons : indent (k + 1) e ++ (indentElems (k + 1) es ++ (newline k ++ 0x5D :: rest))
                = b :: (t ++ (indentElems (k + 1) es ++ (newline k ++ 0x5D :: rest))) := by
              rw [hbt]; rfl
            rw [parseValue_arr fuel d _ b _ (hskip.trans hcons) hb.not_close.1, ← hcons,
              ihE d (k + 1) k e es rest hwf.1 hwf.2 (by omega)]
            rfl
      | obj ms =>
        cases d with
        | zero => rw [WF] at hwf; exact hwf.elim
        | succ d =>
          rw [WF] at hwf
          cases ms with
          | nil =>
            rw [indent]
            exact parseValue_obj_nil fuel d rest
          | cons m ms =>
            obtain ⟨key, v⟩ := m
            rw [WFMembers] at hwf
            rw [cost, costMembers] at hc
            rw [indent_obj_cons]
            simp only [List.cons_append, List.append_assoc, List.nil_append]
            have hskip : skipSpace (newline (k + 1) ++ 0x22 :: (key ++ 0x22 :: 0x3A :: 0x20
                :: (indent (k + 1) v ++ (indentMembers (k + 1) ms ++ (newline k ++ 0x7D :: rest)))))
                = 0x22 :: (key ++ 0x22 :: 0x3A :: 0x20
                :: (indent (k + 1) v ++ (indentMembers (k + 1) ms ++ (newline k ++ 0x7D :: rest)))) := by
              rw [skipSpace_newline]
              exact skipSpace_cons_of_not_space _ _ rfl
            rw [parseValue_obj fuel d _ 0x22 _ hskip (by decide),
              ihM d (k + 1) k key v ms rest hwf.1 hwf.2.1 hwf.2.2 (by omega)]
            rfl
    · intro d k k2 e es rest hwe hwes hc
      unfold parseElems
      have hfol : Follows (indentElems k es ++ (newline k2 ++ 0x5D :: rest)) := by
        cases es with
        | nil => exact follows_newline k2 _
        | cons e2 es2 => rw [indentElems_cons]; exact follows_comma _
      rw [ihV d k e _ hwe (by omega) hfol]
      cases es with
      | nil =>
        have hs : skipSpace (indentElems k [] ++ (newline k2 ++ 0x5D :: rest)) = 0x5D :: rest := by
          show skipSpace (newline k2 ++ 0x5D :: rest) = _
          rw [skipSpace_newline]
          exact skipSpace_cons_of_not_space _ _ rfl
        simp only [hs]
        rw [if_neg (by decide), if_pos (by decide)]
      | cons e2 es2 =>
        rw [WFElems] at hwes
        rw [costElems] at hc
        have hs : skipSpace (indentElems k (e2 :: es2) ++ (newline k2 ++ 0x5D :: rest))
            = 0x2C :: (newline k ++ (indent k e2 ++ (indentElems k es2
              ++ (newline k2 ++ 0x5D :: rest)))) := by
          rw [indentElems_cons]
          simp only [List.cons_append, List.append_assoc]
          exact skipSpace_cons_of_not_space _ _ rfl
        simp only [hs]
        rw [if_pos (by decide), skipSpace_newline_indent k k d e2 hwes.1,
          ihE d k k2 e2 es2 rest hwes.1 hwes.2 (by omega)]
        rfl
    · intro d k k2 key v ms rest hkey hwv hwms hc
      unfold parseMembers
      rw [if_pos (by decide), scanString_of_body hkey 0x22 rfl]
      have hs1 : skipSpace (0x3A :: 0x20 :: (indent k v
          ++ (indentMembers k ms ++ (newline k2 ++ 0x7D :: rest))))
          = 0x3A :: 0x20 :: (indent k v
          ++ (indentMembers k ms ++ (newline k2 ++ 0x7D :: rest))) :=
        skipSpace_cons_of_not_space _ _ rfl
      simp only [hs1]
      rw [if_pos (by decide)]
      have hs2 : skipSpace (0x20 :: (indent k v
          ++ (indentMembers k ms ++ (newline k2 ++ 0x7D :: rest))))
          = indent k v ++ (indentMembers k ms ++ (newline k2 ++ 0x7D :: rest)) := by
        obtain ⟨b, t, hbt, hb⟩ := indent_start k d v hwv
        rw [skipSpace, if_pos (by decide), hbt]
        exact skipSpace_cons_of_not_space b _ hb.not_space
      have hfol : Follows (indentMembers k ms ++ (newline k2 ++ 0x7D :: rest)) := by
        cases ms with
        | nil => exact follows_newline k2 _
        | cons m2 ms2 =>
          obtain ⟨key2, v2⟩ := m2
          rw [indentMembers_cons]
          exact follows_comma _
      rw [hs2, ihV d k v _ hwv (by omega) hfol]
      cases ms with
      | nil =>
        have hs : skipSpace (indentMembers k [] ++ (newline k2 ++ 0x7D :: rest))
            = 0x7D :: rest := by
          show skipSpace (newline k2 ++ 0x7D :: rest) = _
          rw [skipSpace_newline]
          exact skipSpace_cons_of_not_space _ _ rfl
        simp only [hs]
        rw [if_neg (by decide), if_pos (by decide)]
      | cons m2 ms2 =>
        obtain ⟨key2, v2⟩ := m2
        rw [WFMembers] at hwms
        rw [costMembers] at hc
        have hs : skipSpace (indentMembers k ((key2, v2) :: ms2)
            ++ (newline k2 ++ 0x7D :: rest))
            = 0x2C :: (newline k ++ (0x22 :: (key2 ++ (0x22 :: 0x3A :: 0x20 :: (indent k v2
              ++ (indentMembers k ms2 ++ (newline k2 ++ 0x7D :: rest))))))) := by
          rw [indentMembers_cons]
          simp only [List.cons_append, List.append_assoc]
          exact skipSpace_cons_of_not_space _ _ rfl
        simp only [hs]
        rw [if_pos (by decide)]
        have hs3 : skipSpace (newline k ++ (0x22 :: (key2 ++ (0x22 :: 0x3A :: 0x20
            :: (indent k v2 ++ (indentMembers k ms2 ++ (newline k2 ++ 0x7D :: rest)))))))
            = 0x22 :: (key2 ++ (0x22 :: 0x3A :: 0x20
            :: (indent k v2 ++ (indentMembers k ms2 ++ (newline k2 ++ 0x7D :: rest))))) := by
          rw [skipSpace_newline]
          exact skipSpace_cons_of_not_space _ _ rfl
        rw [hs3, ihM d k k2 key2 v2 ms2 rest hwms.1 hwms.2.1 hwms.2.2 (by omega)]
        rfl

theorem newline_length_pos (k : Nat) : 0 < (newline k).length := by
  simp [newline]

mutual
theorem cost_le_length (k : Nat) : ∀ (v : JValue) (d : Nat), WF d v →
    cost v ≤ (indent k v).length
  | .null, _, _ => by rw [cost, indent]; simp
  | .bool true, _, _ => by rw [cost, indent]; simp
  | .bool false, _, _ => by rw [cost, indent]; simp
  | .num raw, _, h => by
    rw [WF] at h
    obtain ⟨⟨b, t, rfl, _⟩, _⟩ := h
    rw [cost, indent]
    simp
  | .str raw, _, _ => by rw [cost, indent]; simp
  | .arr [], _, _ => by rw [cost, costElems, indent]; simp
  | .arr (e :: es), 0, h => by rw [WF] at h; exact h.elim
  | .arr (e :: es), d + 1, h => by
    rw [WF, WFElems] at h
    have h1 := cost_le_length (k + 1) e d h.1
    have h2 := costElems_le_length (k + 1) es d h.2
    have h3 := newline_length_pos (k + 1)
    rw [cost, costElems, indent_arr_cons]
    simp only [List.length_cons, List.length_append]
    omega
  | .obj [], _, _ => by rw [cost, costMembers, indent]; simp
  | .obj ((key, v) :: ms), 0, h => by rw [WF] at h; exact h.elim
  | .obj ((key, v) :: ms), d + 1, h => by
    rw [WF, WFMembers] at h
    have h1 := cost_le_length (k + 1) v d h.2.1
    have h2 := costMembers_le_length (k + 1) ms d h.2.2
    rw [cost, costMembers, indent_obj_cons]
    simp only [List.length_cons, List.length_append]
    omega
theorem costElems_le_length (k : Nat) : ∀ (es : List JValue) (d : Nat), WFElems d es →
    costElems es ≤ (indentElems k es).length
  | [], _, _ => by rw [costElems]; omega
  | e :: es, d, h => by
    rw [WFElems] at h
    have h1 := cost_le_length k e d h.1
    have h2 := costElems_le_length k es d h.2
    rw [costElems, indentElems_cons]
    simp only [List.length_cons, List.length_append]
    omega
theorem costMembers_le_length (k : Nat) : ∀ (ms : List (Bytes × JValue)) (d : Nat),
    WFMembers d ms → costMembers ms ≤ (indentMembers k ms).length
  | [], _, _ => by rw [costMembers]; omega
  | (key, v) :: ms, d, h => by
    rw [WFMembers] at h
    have h1 := cost_le_length k v d h.2.1
    have h2 := costMembers_le_length k ms d h.2.2
    rw [costMembers, indentMembers_cons]
    simp only [List.length_cons, List.length_append]
    omega
end

/-- The whole text `Indent` wrote for an accepted value parses to that value. -/
theorem parseJSON_indent (v : JValue) (h : WF maxNestingDepth v) :
    parseJSON (indent 0 v) = some v := by
  obtain ⟨b, t, hbt, hb⟩ := indent_start 0 maxNestingDepth v h
  have hskip : skipSpace (indent 0 v) = indent 0 v := by
    rw [hbt]
    exact skipSpace_cons_of_not_space b t hb.not_space
  have hp := (parse_indent ((indent 0 v).length + 1)).1 maxNestingDepth 0 v [] h
    (Nat.le_succ_of_le (cost_le_length 0 v maxNestingDepth h)) (.inl rfl)
  rw [List.append_nil] at hp
  unfold parseJSON
  rw [hskip, hp]
  rfl

/-! ## C6: what `MarshalIndent` writes for a store, `Unmarshal` reads back -/

/-- A byte that stands for itself in the text of a JSON string. -/
def isPlainByte (b : Byte) : Bool := b.val != 0x22 && b.val != 0x5C && 0x20 ≤ b.val

theorem Body.of_plain {l : Bytes} (h : l.all isPlainByte = true) : Body l := by
  induction l with
  | nil => exact .nil
  | cons c cs ih =>
    rw [List.all_cons, Bool.and_eq_true] at h
    have hc := h.1
    unfold isPlainByte at hc
    simp only [Bool.and_eq_true, bne_iff_ne, ne_eq, decide_eq_true_eq] at hc
    exact .plain c cs hc.1.1 hc.1.2 hc.2 (ih h.2)

theorem WF_accountJSON (d : Nat) (a : Account) : WF (d + 1) (accountJSON a) := by
  unfold accountJSON
  rw [WF, WFMembers, WFMembers, WFMembers, WF, WF]
  exact ⟨Body.of_plain (by decide), encodeString_body _, Body.of_plain (by decide),
    encodeString_body _, trivial⟩

theorem WFMembers_entries (d : Nat) (f : Bytes → Account) (ks : List Bytes) :
    WFMembers (d + 1) (ks.map (fun k => (encodeString k, accountJSON (f k)))) := by
  induction ks with
  | nil => rw [List.map_nil, WFMembers]; trivial
  | cons k ks ih =>
    rw [List.map_cons, WFMembers]
    exact ⟨encodeString_body k, WF_accountJSON d (f k), ih⟩

theorem WF_configJSON (c : Config) : WF maxNestingDepth (configJSON c) := by
  have hd : maxNestingDepth = 9997 + 1 + 1 + 1 := rfl
  rw [hd]
  unfold configJSON
  rw [WF, WFMembers, WFMembers, WFMembers, WF]
  refine ⟨Body.of_plain (by decide), encodeString_body _, Body.of_plain (by decide), ?_, trivial⟩
  cases c.AccountMap with
  | none => simp only []; rw [WF]; trivial
  | some m =>
    simp only []
    unfold mapJSON
    rw [WF]
    exact WFMembers_entries 9997 _ _

/-- Serializing a store cannot fail, and the text written parses to the tokens it was
made of. -/
theorem parseJSON_MarshalIndent (c : Config) :
    MarshalIndent c = .ok (indent 0 (configJSON c)) ∧
      parseJSON (indent 0 (configJSON c)) = some (configJSON c) :=
  ⟨rfl, parseJSON_indent _ (WF_configJSON c)⟩

/-- A store all of whose strings are valid UTF-8. -/
def Config.ValidUTF8 (c : Config) : Prop :=
  Valid c.DefaultAccount = true ∧
    ∀ m, c.AccountMap = some m → ∀ k a, m.lookup k = some a →
      Valid k = true ∧ Valid a.ClientID = true ∧ Valid a.ClientSecret = true

theorem storeString_encodeString (s cur : Bytes) (h : Valid s = true) :
    storeString (.str (encodeString s)) cur = (s, none) := by
  unfold storeString
  simp only []
  rw [goString_encodeString s h]

theorem goString_clientId : goString (ascii "clientId") = ascii "clientId" := by decide

theorem goString_clientSecret : goString (ascii "clientSecret") = ascii "clientSecret" := by
  decide

theorem goString_defaultAccount : goString (ascii "defaultAccount") = ascii "defaultAccount" := by
  decide

theorem goString_accountMap : goString (ascii "accountMap") = ascii "accountMap" := by decide

theorem findField_clientId (U : UnicodeTables) :
    findField U accountFields (ascii "clientId") = some 0 := rfl

theorem findField_clientSecret (U : UnicodeTables) :
    findField U accountFields (ascii "clientSecret") = some 1 := rfl

theorem findField_defaultAccount (U : UnicodeTables) :
    findField U configFields (ascii "defaultAccount") = some 0 := rfl

theorem findField_accountMap (U : UnicodeTables) :
    findField U configFields (ascii "accountMap") = some 1 := rfl

theorem decodeAccount_accountJSON (U : UnicodeTables) (a cur : Account)
    (h1 : Valid a.ClientID = true) (h2 : Valid a.ClientSecret = true) :
    decodeAccount U (accountJSON a) cur = (a, none) := by
  unfold decodeAccount accountJSON
  simp only [decodeAccountMembers, goString_clientId, goString_clientSecret,
    findField_clientId, findField_clientSecret, storeString_encodeString _ _ h1,
    storeString_encodeString _ _ h2]
  rfl

theorem decodeMapMembers_entries (U : UnicodeTables) (f : Bytes → Account) (ks : List Bytes)
    (hv : ∀ k ∈ ks, Valid k = true ∧ Valid (f k).ClientID = true
      ∧ Valid (f k).ClientSecret = true) (acc : AccountMap) :
    decodeMapMembers U (ks.map (fun k => (encodeString k, accountJSON (f k)))) acc
      = (ks.foldl (fun m k => m.insert k (f k)) acc, none) := by
  induction ks generalizing acc with
  | nil => rfl
  | cons k ks ih =>
    obtain ⟨hk, h1, h2⟩ := hv k (List.mem_cons_self _ _)
    rw [List.map_cons, decodeMapMembers]
    simp only [decodeAccount_accountJSON U (f k) Account.zero h1 h2,
      goString_encodeString k hk, List.foldl_cons]
    rw [ih (fun x hx => hv x (List.mem_cons_of_mem _ hx))]
    rfl

theorem lookup_foldl_insert (f : Bytes → Account) (ks : List Bytes) (acc : AccountMap)
    (x : Bytes) :
    (ks.foldl (fun m k => m.insert k (f k)) acc).lookup x
      = if x ∈ ks then some (f x) else acc.lookup x := by
  induction ks generalizing acc with
  | nil => simp
  | cons k ks ih =>
    rw [List.foldl_cons, ih]
    by_cases hx : x ∈ ks
    · simp [hx]
    · by_cases hxk : x = k
      · subst hxk
        simp [hx, Finmap.lookup_insert]
      · simp [hx, hxk, Finmap.lookup_insert_of_ne _ hxk]

theorem foldl_insert_sortedKeys (m : AccountMap) :
    (sortedKeys m).foldl (fun acc k => acc.insert k (mapGet (some m) k).1) ∅ = m := by
  apply Finmap.ext_lookup
  intro x
  rw [lookup_foldl_insert]
  by_cases hx : x ∈ m
  · rw [if_pos ((mem_sortedKeys m x).mpr hx)]
    obtain ⟨a, ha⟩ := Option.isSome_iff_exists.mp (Finmap.lookup_isSome.mpr hx)
    rw [mapGet_some_of_lookup ha, ha]
  · rw [if_neg (fun h => hx ((mem_sortedKeys m x).mp h))]
    rw [Finmap.lookup_eq_none.mpr hx]
    exact Finmap.lookup_empty x

/-- Decoding the tokens of a store with valid UTF-8 strings into the zero `Config` gives
the store back, without an error. -/
theorem decodeConfig_configJSON (U : UnicodeTables) (d : Bytes) (m : AccountMap)
    (hv : Config.ValidUTF8 ⟨d, some m⟩) :
    decodeConfig U (configJSON ⟨d, some m⟩) Config.zero = (⟨d, some m⟩, none) := by
  obtain ⟨hd, hm⟩ := hv
  have hentries : ∀ k ∈ sortedKeys m, Valid k = true
      ∧ Valid (mapGet (some m) k).1.ClientID = true
      ∧ Valid (mapGet (some m) k).1.ClientSecret = true := by
    intro k hk
    have hx := (mem_sortedKeys m k).mp hk
    obtain ⟨a, ha⟩ := Option.isSome_iff_exists.mp (Finmap.lookup_isSome.mpr hx)
    rw [mapGet_some_of_lookup ha]
    exact hm m rfl k a ha
  unfold decodeConfig configJSON
  simp only [decodeConfigMembers, goString_defaultAccount, goString_accountMap,
    findField_defaultAccount, findField_accountMap, storeString_encodeString _ _ hd,
    decodeMap, mapJSON, Config.zero, Option.getD_none,
    decodeMapMembers_entries U _ _ hentries, foldl_insert_sortedKeys]
  rfl

/-- C6 (as amended): for every store whose map is not nil and whose strings
(`defaultAccount`, the names, every `clientId` and `clientSecret`) are valid UTF-8,
serializing it as the tool saves it succeeds, and loading the bytes written yields, with no
error reported, a store equal to it field for field. -/
theorem save_load_roundtrip (U : UnicodeTables) (d : Bytes) (m : AccountMap)
    (hv : Config.ValidUTF8 ⟨d, some m⟩) :
    ∃ contents, MarshalIndent ⟨d, some m⟩ = .ok contents ∧
      loadConfig U (.contents contents) = ⟨[], none, ⟨d, some m⟩⟩ := by
  obtain ⟨h1, h2⟩ := parseJSON_MarshalIndent ⟨d, some m⟩
  refine ⟨_, h1, ?_⟩
  unfold loadConfig Unmarshal
  simp only [h2, decodeConfig_configJSON U d m hv]
  rfl

/-- A store with one account `acme` whose client id and secret are `abc` and `xyz`. -/
def acmeStore : Config :=
  ⟨ascii "acme", some (Finmap.singleton (ascii "acme") ⟨ascii "abc", ascii "xyz"⟩)⟩

theorem save_load_roundtrip_witness :
    Config.ValidUTF8 acmeStore ∧
    ∃ contents, MarshalIndent acmeStore = .ok contents ∧
      loadConfig ⟨fun r => r, fun r => r⟩ (.contents contents) = ⟨[], none, acmeStore⟩ :=
  have hv : Config.ValidUTF8 acmeStore := by
    refine ⟨by decide, ?_⟩
    intro m hm k a hl
    simp only [acmeStore, Option.some.injEq] at hm
    subst hm
    have hk : k = ascii "acme" :=
      (Finmap.mem_singleton _ _ _).mp (Finmap.mem_of_lookup_eq_some hl)
    subst hk
    rw [Finmap.lookup_singleton_eq] at hl
    cases hl
    exact ⟨by decide, by decide, by decide⟩
  ⟨hv, save_load_roundtrip ⟨fun r => r, fun r => r⟩ _ _ hv⟩

set_option maxRecDepth 100000

/-- A store whose one account has a client id that is not valid UTF-8 (the byte 0xFF),
as `config configure acme --client-id` leaves it when given that byte. -/
def rawByteStore : Config :=
  ⟨[], some (Finmap.singleton (ascii "acme") ⟨[0xFF], []⟩)⟩

/-- C6 as stated fails: the store `rawByteStore` has a map that is not nil, yet what is
loaded from its serialization has the client id U+FFFD (bytes EF BF BD) in place of the
byte FF, so the loaded store is not the store saved. -/
theorem save_load_roundtrip_fails :
    ∃ contents, MarshalIndent rawByteStore = .ok contents ∧
      (loadConfig ⟨fun r => r, fun r => r⟩ (.contents contents)).config
        = ⟨[], some (Finmap.singleton (ascii "acme") ⟨[0xEF, 0xBF, 0xBD], []⟩)⟩ ∧
      (loadConfig ⟨fun r => r, fun r => r⟩ (.contents contents)).config ≠ rawByteStore :=
  ⟨_, rfl, by decide, by decide⟩

/-! ## encoding/json: number literals -/

/-- The input does not go on with a byte of the given kind. -/
def HeadNot (p : Byte → Bool) (rest : Bytes) : Prop := ∀ b t, rest = b :: t → p b = false

theorem HeadNot.nil (p : Byte → Bool) : HeadNot p [] := by
  intro b t h
  cases h

theorem HeadNot.cons {p : Byte → Bool} {c : Byte} (h : p c = false) (t : Bytes) :
    HeadNot p (c :: t) := by
  intro b t' hbt
  cases hbt
  exact h

/-- The bytes `compact` replaces by an escape when `escape` is set. -/
def isHTML (c : Byte) : Prop := c.val = 0x3C ∨ c.val = 0x3E ∨ c.val = 0x26

theorem startsLineSep_iff (c : Byte) (rest : Bytes) :
    startsLineSep (c :: rest) = true ↔
      ∃ b1 b2 rest2, rest = b1 :: b2 :: rest2 ∧ c.val = 0xE2 ∧ b1.val = 0x80
        ∧ (b2.val = 0xA8 ∨ b2.val = 0xA9) := by
  rcases rest with _ | ⟨b1, _ | ⟨b2, rest2⟩⟩
  · simp [startsLineSep]
  · simp [startsLineSep]
  · simp [startsLineSep, and_assoc]

theorem startsLineSep_of_ne (c : Byte) (rest : Bytes) (h : c.val ≠ 0xE2) :
    startsLineSep (c :: rest) = false := by
  cases hs : startsLineSep (c :: rest) with
  | false => rfl
  | true =>
    obtain ⟨_, _, _, _, hc, _⟩ := (startsLineSep_iff c rest).mp hs
    exact absurd hc h

theorem compactStringAux_html (n : Nat) (c : Byte) (rest : Bytes) (h : isHTML c) :
    compactStringAux (n + 1) (c :: rest) =
      0x5C :: 0x75 :: 0x30 :: 0x30 :: hexDigit (c.val / 16) :: hexDigit (c.val % 16)
        :: compactStringAux n rest := by
  unfold isHTML at h
  rw [compactStringAux, if_pos h]

theorem compactStringAux_linesep (n : Nat) (c b1 b2 : Byte) (rest2 : Bytes)
    (h : c.val = 0xE2 ∧ b1.val = 0x80 ∧ (b2.val = 0xA8 ∨ b2.val = 0xA9)) :
    compactStringAux (n + 1) (c :: b1 :: b2 :: rest2) =
      0x5C :: 0x75 :: 0x32 :: 0x30 :: 0x32 :: hexDigit (b2.val % 16)
        :: compactStringAux n rest2 := by
  have hs : startsLineSep (c :: b1 :: b2 :: rest2) = true :=
    (startsLineSep_iff c _).mpr ⟨b1, b2, rest2, rfl, h⟩
  have hn : ¬ (c.val = 0x3C ∨ c.val = 0x3E ∨ c.val = 0x26) := by omega
  rw [compactStringAux, if_neg hn, if_pos hs]
  rfl

theorem compactStringAux_copy (n : Nat) (c : Byte) (rest : Bytes) (h1 : ¬ isHTML c)
    (h2 : startsLineSep (c :: rest) = false) :
    compactStringAux (n + 1) (c :: rest) = c :: compactStringAux n rest := by
  unfold isHTML at h1
  rw [compactStringAux, if_neg h1, if_neg (by rw [h2]; simp)]

theorem Body.tail {c : Byte} {t : Bytes} (h : Body (c :: t)) (hc : c.val ≠ 0x5C) : Body t := by
  cases h with
  | plain _ _ _ _ _ hr => exact hr
  | esc _ e rest hb _ _ => exact absurd hb hc
  | uni _ u h1 h2 h3 h4 rest hb _ _ _ => exact absurd hb hc

theorem isHex_not_special {h : Byte} (hh : isHex h = true) : ¬ isHTML h ∧ h.val ≠ 0xE2 := by
  simp only [isHex, Bool.or_eq_true, Bool.and_eq_true, decide_eq_true_eq] at hh
  unfold isHTML
  omega

theorem isSimpleEscape_not_special {e : Byte} (he : isSimpleEscape e = true) :
    ¬ isHTML e ∧ e.val ≠ 0xE2 := by
  rw [isSimpleEscape_iff] at he
  unfold isHTML
  omega

/-- The escapes `compact` adds leave a text the scanner accepts. -/
theorem compactStringAux_body (n : Nat) :
    ∀ raw : Bytes, raw.length ≤ n → Body raw → Body (compactStringAux n raw) := by
  induction n using Nat.strong_induction_on with
  | _ n ih =>
    intro raw hlen hb
    cases n with
    | zero =>
      cases raw with
      | nil => exact .nil
      | cons c t => simp at hlen
    | succ n =>
      cases hb with
      | nil => exact .nil
      | plain b rest h1 h2 h3 hr =>
        simp only [List.length_cons] at hlen
        by_cases hh : isHTML b
        · rw [compactStringAux_html n b rest hh]
          exact .uni 0x5C 0x75 0x30 0x30 _ _ _ rfl rfl
            ⟨rfl, rfl, isHex_hexDigit (by have := b.isLt; omega),
              isHex_hexDigit (Nat.mod_lt _ (by omega))⟩
            (ih n (Nat.lt_succ_self n) rest (by omega) hr)
        · by_cases hs : startsLineSep (b :: rest) = true
          · obtain ⟨b1, b2, rest2, rfl, hv⟩ := (startsLineSep_iff b rest).mp hs
            rw [compactStringAux_linesep n b b1 b2 rest2 hv]
            simp only [List.length_cons] at hlen
            exact .uni 0x5C 0x75 0x32 0x30 0x32 _ _ rfl rfl
              ⟨rfl, rfl, rfl, isHex_hexDigit (Nat.mod_lt _ (by omega))⟩
              (ih n (Nat.lt_succ_self n) rest2 (by omega)
                ((hr.tail (by omega)).tail (by omega)))
          · rw [compactStringAux_copy n b rest hh (by simpa using hs)]
            exact .plain b _ h1 h2 h3 (ih n (Nat.lt_succ_self n) rest (by omega) hr)
      | esc b e rest hb he hr =>
        simp only [List.length_cons] at hlen
        obtain ⟨m, rfl⟩ : ∃ m, n = m + 1 := ⟨n - 1, by omega⟩
        obtain ⟨e1, e2⟩ := isSimpleEscape_not_special he
        rw [compactStringAux_copy _ b _ (by unfold isHTML; omega)
            (startsLineSep_of_ne b _ (by omega)),
          compactStringAux_copy _ e _ e1 (startsLineSep_of_ne e _ e2)]
        exact .esc b e _ hb he (ih m (by omega) rest (by omega) hr)
      | uni b u h1 h2 h3 h4 rest hb hu hh hr =>
        simp only [List.length_cons] at hlen
        obtain ⟨m, rfl⟩ : ∃ m, n = m + 5 := ⟨n - 5, by omega⟩
        obtain ⟨a1, a2⟩ := isHex_not_special hh.1
        obtain ⟨b1, b2⟩ := isHex_not_special hh.2.1
        obtain ⟨c1, c2⟩ := isHex_not_special hh.2.2.1
        obtain ⟨d1, d2⟩ := isHex_not_special hh.2.2.2
        rw [compactStringAux_copy _ b _ (by unfold isHTML; omega)
            (startsLineSep_of_ne b _ (by omega)),
          compactStringAux_copy _ u _ (by unfold isHTML; omega)
            (startsLineSep_of_ne u _ (by omega)),
          compactStringAux_copy _ h1 _ a1 (startsLineSep_of_ne h1 _ a2),
          compactStringAux_copy _ h2 _ b1 (startsLineSep_of_ne h2 _ b2),
          compactStringAux_copy _ h3 _ c1 (startsLineSep_of_ne h3 _ c2),
          compactStringAux_copy _ h4 _ d1 (startsLineSep_of_ne h4 _ d2)]
        exact .uni b u h1 h2 h3 h4 _ hb hu hh (ih m (by omega) rest (by omega) hr)

theorem compactString_body {raw : Bytes} (h : Body raw) : Body (compactString raw) :=
  compactStringAux_body _ raw (Nat.le_refl _) h

mutual
theorem compactValue_WF : ∀ (v : JValue) (d : Nat), WF d v → WF d (compactValue v)
  | .null, _, _ => by rw [compactValue, WF]; trivial
  | .bool _, _, _ => by rw [compactValue, WF]; trivial
  | .num raw, _, h => by rw [compactValue]; exact h
  | .str raw, _, h => by
    rw [WF] at h
    rw [compactValue, WF]
    exact compactString_body h
  | .arr es, 0, h => by rw [WF] at h; exact h.elim
  | .arr es, d + 1, h => by
    rw [WF] at h
    rw [compactValue, WF]
    exact compactElems_WF es d h
  | .obj ms, 0, h => by rw [WF] at h; exact h.elim
  | .obj ms, d + 1, h => by
    rw [WF] at h
    rw [compactValue, WF]
    exact compactMembers_WF ms d h
theorem compactElems_WF : ∀ (es : List JValue) (d : Nat), WFElems d es →
    WFElems d (compactElems es)
  | [], _, _ => by rw [compactElems, WFElems]; trivial
  | e :: es, d, h => by
    rw [WFElems] at h
    rw [compactElems, WFElems]
    exact ⟨compactValue_WF e d h.1, compactElems_WF es d h.2⟩
theorem compactMembers_WF : ∀ (ms : List (Bytes × JValue)) (d : Nat), WFMembers d ms →
    WFMembers d (compactMembers ms)
  | [], _, _ => by rw [compactMembers, WFMembers]; trivial
  | (k, v) :: ms, d, h => by
    rw [WFMembers] at h
    rw [compactMembers, WFMembers]
    exact ⟨compactString_body h.1, compactValue_WF v d h.2.1, compactMembers_WF ms d h.2.2⟩
end

/-- A continuation byte of UTF-8. -/
def Cont (c : Byte) : Prop := 0x80 ≤ c.val ∧ c.val ≤ 0xBF

theorem Cont.not_special {c : Byte} (h : Cont c) :
    ¬ isHTML c ∧ c.val ≠ 0xE2 ∧ c.val ≠ 0x5C ∧ c.val ≠ 0x22 ∧ 0x20 ≤ c.val := by
  unfold Cont at h
  unfold isHTML
  omega

/-- The bytes of a well-formed encoding after the first are continuation bytes. -/
theorem RuneShape.tail_cont {b : Byte} {rest : Bytes} {d : Nat × Nat}
    (h : RuneShape (b :: rest) d) (hv : ¬ (d.1 = RuneError ∧ d.2 = 1)) :
    ∃ k, d.2 = k + 1 ∧ k ≤ rest.length ∧ ∀ c ∈ rest.take k, Cont c := by
  cases h with
  | bad p => exact absurd ⟨rfl, rfl⟩ hv
  | two p0 b1 t h0 h1 =>
    refine ⟨1, rfl, by simp, ?_⟩
    intro c hc
    simp only [List.take_succ_cons, List.take_zero, List.mem_cons, List.mem_nil_iff,
      or_false] at hc
    subst hc
    exact h1
  | three p0 b1 b2 t h0 h1 hlo hhi h2 =>
    refine ⟨2, rfl, by simp, ?_⟩
    intro c hc
    simp only [List.take_succ_cons, List.take_zero, List.mem_cons, List.mem_nil_iff,
      or_false] at hc
    rcases hc with rfl | rfl
    · exact h1
    · exact h2
  | four p0 b1 b2 b3 t h0 h1 hlo hhi h2 h3 =>
    refine ⟨3, rfl, by simp, ?_⟩
    intro c hc
    simp only [List.take_succ_cons, List.take_zero, List.mem_cons, List.mem_nil_iff,
      or_false] at hc
    rcases hc with rfl | rfl | rfl
    · exact h1
    · exact h2
    · exact h3

theorem compactStringAux_cont (n : Nat) (c : Byte) (rest : Bytes) (hc : Cont c) :
    compactStringAux (n + 1) (c :: rest) = c :: compactStringAux n rest :=
  compactStringAux_copy n c rest hc.not_special.1 (startsLineSep_of_ne c rest hc.not_special.2.1)

/-- Leading continuation bytes pass through `compact` unchanged. -/
theorem compactStringAux_take_cont (k : Nat) : ∀ (n : Nat) (rest : Bytes), k ≤ rest.length →
    rest.length ≤ n → (∀ c ∈ rest.take k, Cont c) →
    compactStringAux n rest = rest.take k ++ compactStringAux (n - k) (rest.drop k) := by
  induction k with
  | zero => intro n rest _ _ _; rfl
  | succ k ih =>
    intro n rest hk hn hc
    cases rest with
    | nil => simp at hk
    | cons c t =>
      simp only [List.length_cons] at hk hn
      obtain ⟨m, rfl⟩ : ∃ m, n = m + 1 := ⟨n - 1, by omega⟩
      have hcc : Cont c := hc c (by simp)
      rw [compactStringAux_cont m c t hcc, ih m t (by omega) (by omega)
        (fun x hx => hc x (by simp [hx]))]
      simp

/-- Leading continuation bytes in the output of `compact` stood in its input. -/
theorem compactStringAux_cont_prefix (k : Nat) : ∀ (n : Nat) (rest : Bytes), rest.length ≤ n →
    k ≤ (compactStringAux n rest).length → (∀ c ∈ (compactStringAux n rest).take k, Cont c) →
    k ≤ rest.length ∧ rest.take k = (compactStringAux n rest).take k := by
  induction k with
  | zero => intro n rest _ _ _; exact ⟨Nat.zero_le _, rfl⟩
  | succ k ih =>
    intro n rest hn hk hc
    cases rest with
    | nil =>
      have : compactStringAux n [] = [] := by cases n <;> rfl
      rw [this] at hk
      simp at hk
    | cons c t =>
      simp only [List.length_cons] at hn
      obtain ⟨m, rfl⟩ : ∃ m, n = m + 1 := ⟨n - 1, by omega⟩
      by_cases hh : isHTML c
      · rw [compactStringAux_html m c t hh] at hc
        have := hc 0x5C (by simp)
        unfold Cont at this
        exact absurd this.1 (by decide)
      · by_cases hs : startsLineSep (c :: t) = true
        · obtain ⟨b1, b2, rest2, rfl, hv⟩ := (startsLineSep_iff c t).mp hs
          rw [compactStringAux_linesep m c b1 b2 rest2 hv] at hc
          have := hc 0x5C (by simp)
          unfold Cont at this
          exact absurd this.1 (by decide)
        · have hcopy := compactStringAux_copy m c t hh (by simpa using hs)
          rw [hcopy] at hk hc ⊢
          simp only [List.length_cons] at hk
          obtain ⟨h1, h2⟩ := ih m t (by omega) (by omega) (fun x hx => hc x (by simp [hx]))
          refine ⟨by simp; omega, ?_⟩
          simp only [List.take_succ_cons]
          rw [h2]

/-- The rune `DecodeRune` reads at a byte of 0x80 or more is the same before and after
`compact`. -/
theorem DecodeRune_compact (b : Byte) (hb : 0x80 ≤ b.val) (n : Nat) (rest : Bytes)
    (hn : rest.length ≤ n) :
    DecodeRune (b :: compactStringAux n rest) = DecodeRune (b :: rest) := by
  by_cases hv : (DecodeRune (b :: rest)).1 = RuneError ∧ (DecodeRune (b :: rest)).2 = 1
  · by_cases hv2 : (DecodeRune (b :: compactStringAux n rest)).1 = RuneError
        ∧ (DecodeRune (b :: compactStringAux n rest)).2 = 1
    · exact Prod.ext (hv2.1.trans hv.1.symm) (hv2.2.trans hv.2.symm)
    · have hs := DecodeRune_shape b (compactStringAux n rest) hb
      obtain ⟨k, hk, hlen, hcont⟩ := hs.tail_cont hv2
      obtain ⟨h1, h2⟩ := compactStringAux_cont_prefix k n rest hn hlen hcont
      have hpre := hs.decode_prefix hv2 (rest.drop k)
      rw [hk] at hpre
      simp only [List.take_succ_cons, List.cons_append] at hpre
      rw [← h2, List.take_append_drop] at hpre
      exact hpre.symm
  · have hs := DecodeRune_shape b rest hb
    obtain ⟨k, hk, hlen, hcont⟩ := hs.tail_cont hv
    have hpre := hs.decode_prefix hv (compactStringAux (n - k) (rest.drop k))
    rw [hk] at hpre
    simp only [List.take_succ_cons, List.cons_append] at hpre
    rw [← compactStringAux_take_cont k n rest hlen hn hcont] at hpre
    exact hpre

theorem Body.drop_cont (k : Nat) : ∀ (rest : Bytes), Body rest → (∀ c ∈ rest.take k, Cont c) →
    Body (rest.drop k) := by
  induction k with
  | zero => intro rest h _; exact h
  | succ k ih =>
    intro rest h hc
    cases rest with
    | nil => exact .nil
    | cons c t =>
      have hcc : Cont c := hc c (by simp)
      exact ih t (h.tail hcc.not_special.2.2.1) (fun x hx => hc x (by simp [hx]))

/-! ### The loops do not depend on their fuel -/

theorem compactStringAux_nil (n : Nat) : compactStringAux n [] = [] := by
  cases n <;> rfl

theorem compactStringAux_fuel (n : Nat) :
    ∀ raw : Bytes, raw.length ≤ n → compactStringAux n raw = compactString raw := by
  induction n using Nat.strong_induction_on with
  | _ n ih =>
    intro raw hlen
    unfold compactString
    cases raw with
    | nil => rw [compactStringAux_nil, compactStringAux_nil]
    | cons c rest =>
      simp only [List.length_cons] at hlen ⊢
      obtain ⟨m, rfl⟩ : ∃ m, n = m + 1 := ⟨n - 1, by omega⟩
      have e1 : compactStringAux m rest = compactStringAux rest.length rest := by
        rw [ih m (by omega) rest (by omega)]; rfl
      have e2 : compactStringAux m (rest.drop 2) = compactStringAux rest.length (rest.drop 2) := by
        rw [ih m (by omega) (rest.drop 2) (by simp; omega)]
        by_cases hr : rest.length = m + 1
        · omega
        · rw [ih rest.length (by omega) (rest.drop 2) (by simp)]
      rw [compactStringAux, compactStringAux, e1, e2]

theorem compactString_html (c : Byte) (rest : Bytes) (h : isHTML c) :
    compactString (c :: rest) =
      0x5C :: 0x75 :: 0x30 :: 0x30 :: hexDigit (c.val / 16) :: hexDigit (c.val % 16)
        :: compactString rest := by
  show compactStringAux (rest.length + 1) (c :: rest) = _
  rw [compactStringAux_html _ c rest h]
  rfl

theorem compactString_linesep (c b1 b2 : Byte) (rest2 : Bytes)
    (h : c.val = 0xE2 ∧ b1.val = 0x80 ∧ (b2.val = 0xA8 ∨ b2.val = 0xA9)) :
    compactString (c :: b1 :: b2 :: rest2) =
      0x5C :: 0x75 :: 0x32 :: 0x30 :: 0x32 :: hexDigit (b2.val % 16)
        :: compactString rest2 := by
  show compactStringAux (rest2.length + 1 + 1 + 1) (c :: b1 :: b2 :: rest2) = _
  rw [compactStringAux_linesep _ c b1 b2 rest2 h, compactStringAux_fuel _ rest2 (by omega)]

theorem compactString_copy (c : Byte) (rest : Bytes) (h1 : ¬ isHTML c)
    (h2 : startsLineSep (c :: rest) = false) :
    compactString (c :: rest) = c :: compactString rest := by
  show compactStringAux (rest.length + 1) (c :: rest) = _
  rw [compactStringAux_copy _ c rest h1 h2]
  rfl

theorem unquoteAux_fuel (n : Nat) :
    ∀ s : Bytes, s.length ≤ n → unquoteAux n s = unquote s := by
  induction n using Nat.strong_induction_on with
  | _ n ih =>
    intro s hlen
    unfold unquote
    cases s with
    | nil => rw [unquoteAux_nil, unquoteAux_nil]
    | cons c rest =>
      simp only [List.length_cons] at hlen ⊢
      obtain ⟨m, rfl⟩ : ∃ m, n = m + 1 := ⟨n - 1, by omega⟩
      rw [unquoteAux, unquoteAux]
      rcases hstep : unquoteStep c rest with _ | ⟨out, k⟩
      · rfl
      · dsimp only
        rw [ih m (by omega) (rest.drop k) (by simp; omega)]
        by_cases hr : rest.length = m + 1
        · omega
        · by_cases hk : (rest.drop k).length ≤ rest.length
          · by_cases hlt : rest.length < m + 1
            · rw [ih rest.length hlt (rest.drop k) hk]
            · omega
          · simp at hk

/-- One round of `unquoteBytes`, without fuel. -/
theorem unquote_cons (c : Byte) (rest out : Bytes) (k : Nat)
    (h : unquoteStep c rest = some (out, k)) :
    unquote (c :: rest) = (unquote (rest.drop k)).map (fun t => out ++ t) := by
  show unquoteAux (rest.length + 1) (c :: rest) = _
  rw [unquoteAux_step _ c rest out k h, unquoteAux_fuel _ _ (by simp)]

/-! ### The escapes of `compact` decode to the bytes they replaced -/

theorem hexVal_of_isHex {h : Byte} (hh : isHex h = true) : ∃ a, hexVal h = some a ∧ a < 16 := by
  simp only [isHex, Bool.or_eq_true, Bool.and_eq_true, decide_eq_true_eq] at hh
  unfold hexVal
  by_cases c1 : 0x30 ≤ h.val ∧ h.val ≤ 0x39
  · exact ⟨_, by rw [if_pos c1], by omega⟩
  · by_cases c2 : 0x61 ≤ h.val ∧ h.val ≤ 0x66
    · exact ⟨_, by rw [if_neg c1, if_pos c2], by omega⟩
    · have c3 : 0x41 ≤ h.val ∧ h.val ≤ 0x46 := by omega
      exact ⟨_, by rw [if_neg c1, if_neg c2, if_pos c3], by omega⟩

theorem getu4_hex (b u h1 h2 h3 h4 : Byte) (hb : b.val = 0x5C) (hu : u.val = 0x75)
    (hh : isHex h1 = true ∧ isHex h2 = true ∧ isHex h3 = true ∧ isHex h4 = true) :
    ∃ rr, rr < 65536 ∧ ∀ X, getu4 (b :: u :: h1 :: h2 :: h3 :: h4 :: X) = some rr := by
  obtain ⟨a1, e1, l1⟩ := hexVal_of_isHex hh.1
  obtain ⟨a2, e2, l2⟩ := hexVal_of_isHex hh.2.1
  obtain ⟨a3, e3, l3⟩ := hexVal_of_isHex hh.2.2.1
  obtain ⟨a4, e4, l4⟩ := hexVal_of_isHex hh.2.2.2
  exact ⟨a1 * 4096 + a2 * 256 + a3 * 16 + a4, by omega,
    fun X => getu4_cons b u h1 h2 h3 h4 X a1 a2 a3 a4 hb hu e1 e2 e3 e4⟩

theorem getu4_first_ne (c : Byte) (t : Bytes) (hc : c.val ≠ 0x5C) : getu4 (c :: t) = none := by
  rcases t with _ | ⟨a1, _ | ⟨a2, _ | ⟨a3, _ | ⟨a4, _ | ⟨a5, t5⟩⟩⟩⟩⟩ <;> simp [getu4, hc]

theorem getu4_second_ne (c e : Byte) (t : Bytes) (he : e.val ≠ 0x75) :
    getu4 (c :: e :: t) = none := by
  rcases t with _ | ⟨a2, _ | ⟨a3, _ | ⟨a4, _ | ⟨a5, t5⟩⟩⟩⟩ <;> simp [getu4, he]

theorem utf16_not_low (rr : Nat) (r2 : Option Nat)
    (h : ∀ x, r2 = some x → ¬ (0xDC00 ≤ x ∧ x < 0xE000)) :
    utf16DecodeRune rr r2 = RuneError := by
  cases r2 with
  | none => rfl
  | some x =>
    unfold utf16DecodeRune
    have := h x rfl
    simp only
    rw [if_neg (by omega)]

/-- The round of `unquoteBytes` at an escape of one character writes one byte, whatever
follows. -/
theorem unquoteStep_esc (b e : Byte) (hb : b.val = 0x5C) (he : isSimpleEscape e = true) :
    ∃ out, ∀ X, unquoteStep b (e :: X) = some (out, 1) := by
  rw [isSimpleEscape_iff] at he
  unfold unquoteStep
  simp only [hb, if_true]
  by_cases c1 : e.val = 0x22 ∨ e.val = 0x5C ∨ e.val = 0x2F ∨ e.val = 0x27
  · exact ⟨[e], fun X => by rw [if_pos c1]⟩
  · by_cases c2 : e.val = 0x62
    · exact ⟨_, fun X => by rw [if_neg c1, if_pos c2]⟩
    · by_cases c3 : e.val = 0x66
      · exact ⟨_, fun X => by rw [if_neg c1, if_neg c2, if_pos c3]⟩
      · by_cases c4 : e.val = 0x6E
        · exact ⟨_, fun X => by rw [if_neg c1, if_neg c2, if_neg c3, if_pos c4]⟩
        · by_cases c5 : e.val = 0x72
          · exact ⟨_, fun X => by rw [if_neg c1, if_neg c2, if_neg c3, if_neg c4, if_pos c5]⟩
          · have c6 : e.val = 0x74 := by omega
            exact ⟨_, fun X => by
              rw [if_neg c1, if_neg c2, if_neg c3, if_neg c4, if_neg c5, if_pos c6]⟩

/-- The round of `unquoteBytes` at a `\u` escape, with the look-ahead for a second half
of a surrogate pair. -/
theorem unquoteStep_uni (b u h1 h2 h3 h4 : Byte) (X : Bytes) (rr : Nat)
    (hb : b.val = 0x5C) (hu : u.val = 0x75)
    (hg : getu4 (b :: u :: h1 :: h2 :: h3 :: h4 :: X) = some rr) :
    unquoteStep b (u :: h1 :: h2 :: h3 :: h4 :: X) =
      if 0xD800 ≤ rr ∧ rr < 0xE000 then
        if utf16DecodeRune rr (getu4 X) ≠ RuneError then
          some (EncodeRune (utf16DecodeRune rr (getu4 X)), 11)
        else some (EncodeRune RuneError, 5)
      else some (EncodeRune rr, 5) := by
  unfold unquoteStep
  simp only [hb, if_true]
  rw [if_neg (by omega), if_neg (by omega), if_neg (by omega), if_neg (by omega),
    if_neg (by omega), if_neg (by omega), if_pos hu]
  simp only [hg, List.drop_succ_cons, List.drop_zero]

/-- What `unquoteBytes` finds when it looks for the second half of a surrogate pair is the
same before and after `compact`: a `\u` escape stands unchanged, and the escapes `compact`
adds are no second halves. -/
theorem lookahead_compact (rr : Nat) {rest : Bytes} (h : Body rest) :
    utf16DecodeRune rr (getu4 (compactString rest)) = utf16DecodeRune rr (getu4 rest) ∧
    (utf16DecodeRune rr (getu4 rest) ≠ RuneError →
      ∃ c u g1 g2 g3 g4 rest2, rest = c :: u :: g1 :: g2 :: g3 :: g4 :: rest2 ∧ Body rest2 ∧
        compactString rest = c :: u :: g1 :: g2 :: g3 :: g4 :: compactString rest2) := by
  cases h with
  | nil => exact ⟨rfl, fun hne => absurd rfl hne⟩
  | plain c t h1 h2 h3 hr =>
    have hR : utf16DecodeRune rr (getu4 (c :: t)) = RuneError := by
      rw [getu4_first_ne c t h2]; rfl
    refine ⟨?_, fun hne => absurd hR hne⟩
    rw [hR]
    by_cases hh : isHTML c
    · rw [compactString_html c t hh]
      have hg := getu4_cons 0x5C 0x75 0x30 0x30 (hexDigit (c.val / 16)) (hexDigit (c.val % 16))
        (compactString t) 0 0 (c.val / 16) (c.val % 16) rfl rfl (by decide) (by decide)
        (hexVal_hexDigit (by have := c.isLt; omega)) (hexVal_hexDigit (Nat.mod_lt _ (by omega)))
      rw [hg]
      exact utf16_not_low rr _ (fun x hx => by
        have := c.isLt
        simp only [Option.some.injEq] at hx
        omega)
    · by_cases hs : startsLineSep (c :: t) = true
      · obtain ⟨b1, b2, rest2, rfl, hv⟩ := (startsLineSep_iff c t).mp hs
        rw [compactString_linesep c b1 b2 rest2 hv]
        have hg := getu4_cons 0x5C 0x75 0x32 0x30 0x32 (hexDigit (b2.val % 16))
          (compactString rest2) 2 0 2 (b2.val % 16) rfl rfl (by decide) (by decide) (by decide)
          (hexVal_hexDigit (Nat.mod_lt _ (by omega)))
        rw [hg]
        exact utf16_not_low rr _ (fun x hx => by
          simp only [Option.some.injEq] at hx
          omega)
      · rw [compactString_copy c t hh (by simpa using hs), getu4_first_ne c _ h2]
        rfl
  | esc c e t hc he hr =>
    have hne := isSimpleEscape_ne_u he
    have hR : utf16DecodeRune rr (getu4 (c :: e :: t)) = RuneError := by
      rw [getu4_second_ne c e t hne]; rfl
    refine ⟨?_, fun hne => absurd hR hne⟩
    obtain ⟨e1, e2⟩ := isSimpleEscape_not_special he
    rw [hR, compactString_copy c _ (by unfold isHTML; omega) (startsLineSep_of_ne c _ (by omega)),
      compactString_copy e _ e1 (startsLineSep_of_ne e _ e2), getu4_second_ne c e _ hne]
    rfl
  | uni c u g1 g2 g3 g4 t hc hu hh hr =>
    obtain ⟨a1, a2⟩ := isHex_not_special hh.1
    obtain ⟨b1, b2⟩ := isHex_not_special hh.2.1
    obtain ⟨c1, c2⟩ := isHex_not_special hh.2.2.1
    obtain ⟨d1, d2⟩ := isHex_not_special hh.2.2.2
    have hcopy : compactString (c :: u :: g1 :: g2 :: g3 :: g4 :: t)
        = c :: u :: g1 :: g2 :: g3 :: g4 :: compactString t := by
      rw [compactString_copy c _ (by unfold isHTML; omega) (startsLineSep_of_ne c _ (by omega)),
        compactString_copy u _ (by unfold isHTML; omega) (startsLineSep_of_ne u _ (by omega)),
        compactString_copy g1 _ a1 (startsLineSep_of_ne g1 _ a2),
        compactString_copy g2 _ b1 (startsLineSep_of_ne g2 _ b2),
        compactString_copy g3 _ c1 (startsLineSep_of_ne g3 _ c2),
        compactString_copy g4 _ d1 (startsLineSep_of_ne g4 _ d2)]
    obtain ⟨x, _, hx⟩ := getu4_hex c u g1 g2 g3 g4 hc hu hh
    refine ⟨by rw [hcopy, hx, hx], fun _ => ⟨c, u, g1, g2, g3, g4, t, rfl, hr, hcopy⟩⟩

/-! ### `compact` keeps what a string stands for -/

theorem compactString_esc (c e : Byte) (t : Bytes) (hc : c.val = 0x5C)
    (he : isSimpleEscape e = true) :
    compactString (c :: e :: t) = c :: e :: compactString t := by
  obtain ⟨e1, e2⟩ := isSimpleEscape_not_special he
  rw [compactString_copy c _ (by unfold isHTML; omega) (startsLineSep_of_ne c _ (by omega)),
    compactString_copy e _ e1 (startsLineSep_of_ne e _ e2)]

theorem compactString_uni (c u g1 g2 g3 g4 : Byte) (t : Bytes) (hc : c.val = 0x5C)
    (hu : u.val = 0x75)
    (hh : isHex g1 = true ∧ isHex g2 = true ∧ isHex g3 = true ∧ isHex g4 = true) :
    compactString (c :: u :: g1 :: g2 :: g3 :: g4 :: t)
      = c :: u :: g1 :: g2 :: g3 :: g4 :: compactString t := by
  obtain ⟨a1, a2⟩ := isHex_not_special hh.1
  obtain ⟨b1, b2⟩ := isHex_not_special hh.2.1
  obtain ⟨c1, c2⟩ := isHex_not_special hh.2.2.1
  obtain ⟨d1, d2⟩ := isHex_not_special hh.2.2.2
  rw [compactString_copy c _ (by unfold isHTML; omega) (startsLineSep_of_ne c _ (by omega)),
    compactString_copy u _ (by unfold isHTML; omega) (startsLineSep_of_ne u _ (by omega)),
    compactString_copy g1 _ a1 (startsLineSep_of_ne g1 _ a2),
    compactString_copy g2 _ b1 (startsLineSep_of_ne g2 _ b2),
    compactString_copy g3 _ c1 (startsLineSep_of_ne g3 _ c2),
    compactString_copy g4 _ d1 (startsLineSep_of_ne g4 _ d2)]

/-- The encoding of the line separators U+2028 and U+2029. -/
theorem EncodeRune_linesep (c b1 b2 : Byte)
    (h : c.val = 0xE2 ∧ b1.val = 0x80 ∧ (b2.val = 0xA8 ∨ b2.val = 0xA9)) :
    EncodeRune (2 * 4096 + 0 * 256 + 2 * 16 + b2.val % 16) = [c, b1, b2] := by
  obtain ⟨h0, h1, h2⟩ := h
  have e0 : c = 0xE2 := Fin.ext h0
  have e1 : b1 = 0x80 := Fin.ext h1
  rcases h2 with h2 | h2
  · have e2 : b2 = 0xA8 := Fin.ext h2
    subst e0 e1 e2
    decide
  · have e2 : b2 = 0xA9 := Fin.ext h2
    subst e0 e1 e2
    decide

theorem DecodeRune_linesep (c b1 b2 : Byte) (X : Bytes)
    (h : c.val = 0xE2 ∧ b1.val = 0x80 ∧ (b2.val = 0xA8 ∨ b2.val = 0xA9)) :
    DecodeRune (c :: b1 :: b2 :: X) = (2 * 4096 + 0 * 256 + 2 * 16 + b2.val % 16, 3) := by
  obtain ⟨h0, h1, h2⟩ := h
  have hacc := @accept_ok c b1 (by omega) (by omega) (by omega) (by omega) (by omega)
  unfold DecodeRune
  dsimp only
  rw [if_neg (by omega), if_neg (by omega), if_neg hacc, if_neg (by omega),
    if_neg (by omega), if_pos (by omega)]
  refine Prod.ext ?_ rfl
  show c.val % 16 * 4096 + b1.val % 64 * 64 + b2.val % 64 = _
  omega

/-- Every text the scanner accepts as a string stands for a string, and `compact` with
`escape` set leaves that string as it is: the escapes it writes for `<`, `>`, `&`,
U+2028 and U+2029 are read back as these characters. -/
theorem unquote_compactString_aux (n : Nat) : ∀ raw : Bytes, raw.length ≤ n → Body raw →
    ∃ s, unquote raw = some s ∧ unquote (compactString raw) = some s := by
  induction n using Nat.strong_induction_on with
  | _ n ih =>
    intro raw hlen hb
    cases hb with
    | nil => exact ⟨[], rfl, rfl⟩
    | plain b rest h1 h2 h3 hr =>
      simp only [List.length_cons] at hlen
      by_cases hh : isHTML b
      · have hlt : b.val < 0x80 := by unfold isHTML at hh; omega
        obtain ⟨s, e1, e2⟩ := ih rest.length (by omega) rest (Nat.le_refl _) hr
        refine ⟨[b] ++ s, ?_, ?_⟩
        · rw [unquote_cons b rest [b] 0 (unquoteStep_plain b rest h2 h1 h3 hlt)]
          simp only [List.drop_zero]
          rw [e1]; rfl
        · rw [compactString_html b rest hh]
          have hg := getu4_cons 0x5C 0x75 0x30 0x30 (hexDigit (b.val / 16))
            (hexDigit (b.val % 16)) (compactString rest) 0 0 (b.val / 16) (b.val % 16) rfl rfl
            (by decide) (by decide) (hexVal_hexDigit (by omega))
            (hexVal_hexDigit (Nat.mod_lt _ (by omega)))
          have hrr : 0 * 4096 + 0 * 256 + b.val / 16 * 16 + b.val % 16 = b.val := by omega
          rw [hrr] at hg
          rw [unquote_cons _ _ _ _ (unquoteStep_u4 0x5C 0x75 0x30 0x30 _ _ _ b.val rfl rfl hg
            (by omega))]
          simp only [List.drop_succ_cons, List.drop_zero]
          rw [e2, EncodeRune_ascii b hlt]; rfl
      · by_cases hs : startsLineSep (b :: rest) = true
        · obtain ⟨b1, b2, rest2, rfl, hv⟩ := (startsLineSep_iff b rest).mp hs
          simp only [List.length_cons] at hlen
          have hr2 : Body rest2 := (hr.tail (by omega)).tail (by omega)
          obtain ⟨s, e1, e2⟩ := ih rest2.length (by omega) rest2 (Nat.le_refl _) hr2
          refine ⟨[b, b1, b2] ++ s, ?_, ?_⟩
          · rw [unquote_cons b _ _ _ (unquoteStep_high b _ (by omega)),
              DecodeRune_linesep b b1 b2 rest2 hv, EncodeRune_linesep b b1 b2 hv]
            simp only [Nat.add_sub_cancel, List.drop_succ_cons, List.drop_zero]
            rw [e1]; rfl
          · rw [compactString_linesep b b1 b2 rest2 hv]
            have hg := getu4_cons 0x5C 0x75 0x32 0x30 0x32 (hexDigit (b2.val % 16))
              (compactString rest2) 2 0 2 (b2.val % 16) rfl rfl (by decide) (by decide)
              (by decide) (hexVal_hexDigit (Nat.mod_lt _ (by omega)))
            rw [unquote_cons _ _ _ _ (unquoteStep_u4 0x5C 0x75 0x32 0x30 0x32 _ _ _ rfl rfl hg
              (by omega))]
            simp only [List.drop_succ_cons, List.drop_zero]
            rw [e2, EncodeRune_linesep b b1 b2 hv]; rfl
        · have hcopy := compactString_copy b rest hh (by simpa using hs)
          by_cases hlt : b.val < 0x80
          · obtain ⟨s, e1, e2⟩ := ih rest.length (by omega) rest (Nat.le_refl _) hr
            refine ⟨[b] ++ s, ?_, ?_⟩
            · rw [unquote_cons b rest [b] 0 (unquoteStep_plain b rest h2 h1 h3 hlt)]
              simp only [List.drop_zero]
              rw [e1]; rfl
            · rw [hcopy, unquote_cons b _ [b] 0 (unquoteStep_plain b _ h2 h1 h3 hlt)]
              simp only [List.drop_zero]
              rw [e2]; rfl
          · have hge : 0x80 ≤ b.val := by omega
            have hdec : DecodeRune (b :: compactString rest) = DecodeRune (b :: rest) :=
              DecodeRune_compact b hge rest.length rest (Nat.le_refl _)
            have hdrop : Body (rest.drop ((DecodeRune (b :: rest)).2 - 1)) ∧
                (compactString rest).drop ((DecodeRune (b :: rest)).2 - 1)
                  = compactString (rest.drop ((DecodeRune (b :: rest)).2 - 1)) := by
              by_cases hv : (DecodeRune (b :: rest)).1 = RuneError
                  ∧ (DecodeRune (b :: rest)).2 = 1
              · rw [hv.2]
                exact ⟨hr, rfl⟩
              · obtain ⟨k, hk, hkl, hcont⟩ := (DecodeRune_shape b rest hge).tail_cont hv
                rw [hk, Nat.add_sub_cancel]
                refine ⟨Body.drop_cont k rest hr hcont, ?_⟩
                show (compactStringAux rest.length rest).drop k = _
                rw [compactStringAux_take_cont k rest.length rest hkl (Nat.le_refl _) hcont,
                  List.drop_append_of_le_length (by simp; omega),
                  List.drop_of_length_le (by simp), List.nil_append,
                  compactStringAux_fuel _ _ (by simp)]
            obtain ⟨s, e1, e2⟩ := ih (rest.drop ((DecodeRune (b :: rest)).2 - 1)).length
              (by simp only [List.length_drop]; omega) _ (Nat.le_refl _) hdrop.1
            refine ⟨EncodeRune (DecodeRune (b :: rest)).1 ++ s, ?_, ?_⟩
            · rw [unquote_cons b _ _ _ (unquoteStep_high b _ hge), e1]; rfl
            · rw [hcopy, unquote_cons b _ _ _ (unquoteStep_high b _ hge), hdec, hdrop.2, e2]
              rfl
    | esc b e rest hb he hr =>
      simp only [List.length_cons] at hlen
      obtain ⟨out, hout⟩ := unquoteStep_esc b e hb he
      obtain ⟨s, e1, e2⟩ := ih rest.length (by omega) rest (Nat.le_refl _) hr
      refine ⟨out ++ s, ?_, ?_⟩
      · rw [unquote_cons b _ out 1 (hout rest)]
        simp only [List.drop_succ_cons, List.drop_zero]
        rw [e1]; rfl
      · rw [compactString_esc b e rest hb he, unquote_cons b _ out 1 (hout _)]
        simp only [List.drop_succ_cons, List.drop_zero]
        rw [e2]; rfl
    | uni b u g1 g2 g3 g4 rest hb hu hh hr =>
      simp only [List.length_cons] at hlen
      obtain ⟨rr, _, hrr⟩ := getu4_hex b u g1 g2 g3 g4 hb hu hh
      obtain ⟨hla, hpair⟩ := lookahead_compact rr hr
      have hL := unquoteStep_uni b u g1 g2 g3 g4 rest rr hb hu (hrr rest)
      have hC := unquoteStep_uni b u g1 g2 g3 g4 (compactString rest) rr hb hu (hrr _)
      rw [hla] at hC
      rw [compactString_uni b u g1 g2 g3 g4 rest hb hu hh]
      by_cases hsur : 0xD800 ≤ rr ∧ rr < 0xE000
      · rw [if_pos hsur] at hL hC
        by_cases hne : utf16DecodeRune rr (getu4 rest) ≠ RuneError
        · rw [if_pos hne] at hL hC
          obtain ⟨c2, u2, k1, k2, k3, k4, rest2, rfl, hr2, hcopy2⟩ := hpair hne
          simp only [List.length_cons] at hlen
          obtain ⟨s, e1, e2⟩ := ih rest2.length (by omega) rest2 (Nat.le_refl _) hr2
          refine ⟨EncodeRune (utf16DecodeRune rr
            (getu4 (c2 :: u2 :: k1 :: k2 :: k3 :: k4 :: rest2))) ++ s, ?_, ?_⟩
          · rw [unquote_cons b _ _ _ hL]
            simp only [List.drop_succ_cons, List.drop_zero]
            rw [e1]; rfl
          · rw [unquote_cons b _ _ _ hC, hcopy2]
            simp only [List.drop_succ_cons, List.drop_zero]
            rw [e2]; rfl
        · rw [if_neg hne] at hL hC
          obtain ⟨s, e1, e2⟩ := ih rest.length (by omega) rest (Nat.le_refl _) hr
          refine ⟨EncodeRune RuneError ++ s, ?_, ?_⟩
          · rw [unquote_cons b _ _ _ hL]
            simp only [List.drop_succ_cons, List.drop_zero]
            rw [e1]; rfl
          · rw [unquote_cons b _ _ _ hC]
            simp only [List.drop_succ_cons, List.drop_zero]
            rw [e2]; rfl
      · rw [if_neg hsur] at hL hC
        obtain ⟨s, e1, e2⟩ := ih rest.length (by omega) rest (Nat.le_refl _) hr
        refine ⟨EncodeRune rr ++ s, ?_, ?_⟩
        · rw [unquote_cons b _ _ _ hL]
          simp only [List.drop_succ_cons, List.drop_zero]
          rw [e1]; rfl
        · rw [unquote_cons b _ _ _ hC]
          simp only [List.drop_succ_cons, List.drop_zero]
          rw [e2]; rfl

/-- The function `unquoteBytes` succeeds on every text the scanner accepts. -/
theorem unquote_body {raw : Bytes} (h : Body raw) : ∃ s, unquote raw = some s := by
  obtain ⟨s, e, _⟩ := unquote_compactString_aux raw.length raw (Nat.le_refl _) h
  exact ⟨s, e⟩

theorem unquote_compactString {raw : Bytes} (h : Body raw) :
    unquote (compactString raw) = unquote raw := by
  obtain ⟨s, e1, e2⟩ := unquote_compactString_aux raw.length raw (Nat.le_refl _) h
  rw [e1, e2]

theorem goString_compactString {raw : Bytes} (h : Body raw) :
    goString (compactString raw) = goString raw := by
  unfold goString
  rw [unquote_compactString h]

/-! ## C9: the response of the api command -/

mutual
/-- The JSON value a tree of tokens stands for: every string and every key is replaced by
the string it denotes, as `unquoteBytes` reads it; a number keeps its literal. -/
def jsonValue : JValue → JValue
  | .null => .null
  | .bool b => .bool b
  | .num raw => .num raw
  | .str raw => .str (goString raw)
  | .arr es => .arr (jsonElems es)
  | .obj ms => .obj (jsonMembers ms)
def jsonElems : List JValue → List JValue
  | [] => []
  | e :: es => jsonValue e :: jsonElems es
def jsonMembers : List (Bytes × JValue) → List (Bytes × JValue)
  | [] => []
  | (k, v) :: ms => (goString k, jsonValue v) :: jsonMembers ms
end

mutual
theorem jsonValue_compactValue : ∀ (v : JValue) (d : Nat), WF d v →
    jsonValue (compactValue v) = jsonValue v
  | .null, _, _ => by rw [compactValue]
  | .bool _, _, _ => by rw [compactValue]
  | .num raw, _, _ => by rw [compactValue]
  | .str raw, _, h => by
    rw [WF] at h
    rw [compactValue, jsonValue, jsonValue, goString_compactString h]
  | .arr es, 0, h => by rw [WF] at h; exact h.elim
  | .arr es, d + 1, h => by
    rw [WF] at h
    rw [compactValue, jsonValue, jsonValue, jsonElems_compactElems es d h]
  | .obj ms, 0, h => by rw [WF] at h; exact h.elim
  | .obj ms, d + 1, h => by
    rw [WF] at h
    rw [compactValue, jsonValue, jsonValue, jsonMembers_compactMembers ms d h]
theorem jsonElems_compactElems : ∀ (es : List JValue) (d : Nat), WFElems d es →
    jsonElems (compactElems es) = jsonElems es
  | [], _, _ => by rw [compactElems]
  | e :: es, d, h => by
    rw [WFElems] at h
    rw [compactElems, jsonElems, jsonElems, jsonValue_compactValue e d h.1,
      jsonElems_compactElems es d h.2]
theorem jsonMembers_compactMembers : ∀ (ms : List (Bytes × JValue)) (d : Nat),
    WFMembers d ms → jsonMembers (compactMembers ms) = jsonMembers ms
  | [], _, _ => by rw [compactMembers]
  | (k, v) :: ms, d, h => by
    rw [WFMembers] at h
    rw [compactMembers, jsonMembers, jsonMembers, goString_compactString h.1,
      jsonValue_compactValue v d h.2.1, jsonMembers_compactMembers ms d h.2.2]
end

theorem ValidAux_nil (n : Nat) : ValidAux n [] = true := by
  cases n <;> rfl

theorem ValidAux_fuel (n : Nat) : ∀ s : Bytes, s.length ≤ n → ValidAux n s = Valid s := by
  induction n using Nat.strong_induction_on with
  | _ n ih =>
    intro s hlen
    unfold Valid
    cases s with
    | nil => rw [ValidAux_nil, ValidAux_nil]
    | cons b rest =>
      simp only [List.length_cons] at hlen ⊢
      obtain ⟨m, rfl⟩ : ∃ m, n = m + 1 := ⟨n - 1, by omega⟩
      have e1 : ValidAux m rest = ValidAux rest.length rest := by
        rw [ih m (by omega) rest (by omega)]; rfl
      have e2 : ∀ k, ValidAux m (rest.drop k) = ValidAux rest.length (rest.drop k) := by
        intro k
        rw [ih m (by omega) (rest.drop k) (by simp; omega)]
        by_cases hr : rest.length = m + 1
        · omega
        · rw [ih rest.length (by omega) (rest.drop k) (by simp)]
      rw [ValidAux, ValidAux, e1, e2]

theorem Valid_cons_low (c : Byte) (t : Bytes) (h : c.val < 0x80) :
    Valid (c :: t) = Valid t := by
  show ValidAux (t.length + 1) (c :: t) = Valid t
  rw [ValidAux, if_pos h]
  rfl

theorem Valid_cons_high (b : Byte) (rest : Bytes) (hb : 0x80 ≤ b.val)
    (hv : ¬ ((DecodeRune (b :: rest)).1 = RuneError ∧ (DecodeRune (b :: rest)).2 = 1)) :
    Valid (b :: rest) = Valid (rest.drop ((DecodeRune (b :: rest)).2 - 1)) := by
  show ValidAux (rest.length + 1) (b :: rest) = _
  rw [ValidAux, if_neg (by omega), if_neg hv, ValidAux_fuel _ _ (by simp)]

/-- A well-formed encoding in front of a string does not change whether it is valid. -/
theorem RuneShape.valid_prefix {p : Bytes} {d : Nat × Nat} (h : RuneShape p d)
    (hv : ¬ (d.1 = RuneError ∧ d.2 = 1)) (X : Bytes) : Valid (p.take d.2 ++ X) = Valid X := by
  have hpre := h.decode_prefix hv X
  cases h with
  | bad p => exact absurd ⟨rfl, rfl⟩ hv
  | two p0 b1 t h0 h1 =>
    simp only [List.take_succ_cons, List.take_zero, List.cons_append, List.nil_append]
      at hpre ⊢
    rw [Valid_cons_high p0 _ (by omega) (by rw [hpre]; exact hv), hpre]
    rfl
  | three p0 b1 b2 t h0 h1 hlo hhi h2 =>
    simp only [List.take_succ_cons, List.take_zero, List.cons_append, List.nil_append]
      at hpre ⊢
    rw [Valid_cons_high p0 _ (by omega) (by rw [hpre]; exact hv), hpre]
    rfl
  | four p0 b1 b2 b3 t h0 h1 hlo hhi h2 h3 =>
    simp only [List.take_succ_cons, List.take_zero, List.cons_append, List.nil_append]
      at hpre ⊢
    rw [Valid_cons_high p0 _ (by omega) (by rw [hpre]; exact hv), hpre]
    rfl

/-- Whatever the rune, what `utf8.AppendRune` writes is valid UTF-8. -/
theorem Valid_EncodeRune (r : Nat) (X : Bytes) : Valid (EncodeRune r ++ X) = Valid X := by
  unfold EncodeRune
  by_cases c1 : r ≤ 0x7F
  · rw [if_pos c1]
    exact Valid_cons_low _ X (by rw [byte_val]; omega)
  · rw [if_neg c1]
    by_cases c2 : r ≤ 0x7FF
    · rw [if_pos c2]
      have hs : RuneShape (byte (0xC0 + r / 64) :: byte (0x80 + r % 64) :: X) _ :=
        .two _ _ X (by rw [byte_val]; omega) (by rw [byte_val]; omega)
      exact hs.valid_prefix (by simp only [RuneError]; omega) X
    · rw [if_neg c2]
      by_cases c3 : 0x10FFFF < r ∨ (0xD800 ≤ r ∧ r ≤ 0xDFFF)
      · rw [if_pos c3]
        have hs : RuneShape ((0xEF : Byte) :: 0xBF :: 0xBD :: X) _ :=
          .three _ _ _ X (by decide) (by decide) (by decide) (by decide) (by decide)
        exact hs.valid_prefix (by decide) X
      · rw [if_neg c3]
        by_cases c4 : r ≤ 0xFFFF
        · rw [if_pos c4]
          have hs : RuneShape (byte (0xE0 + r / 4096) :: byte (0x80 + r / 64 % 64)
              :: byte (0x80 + r % 64) :: X) _ :=
            .three _ _ _ X (by rw [byte_val]; omega) (by rw [byte_val]; omega)
              (by rw [byte_val, byte_val]; omega) (by rw [byte_val, byte_val]; omega)
              (by rw [byte_val]; omega)
          exact hs.valid_prefix (by simp only [RuneError]; omega) X
        · rw [if_neg c4]
          have hs : RuneShape (byte (0xF0 + r / 262144) :: byte (0x80 + r / 4096 % 64)
              :: byte (0x80 + r / 64 % 64) :: byte (0x80 + r % 64) :: X) _ :=
            .four _ _ _ _ X (by rw [byte_val]; omega) (by rw [byte_val]; omega)
              (by rw [byte_val, byte_val]; omega) (by rw [byte_val, byte_val]; omega)
              (by rw [byte_val]; omega) (by rw [byte_val]; omega)
          exact hs.valid_prefix (by simp only [RuneError]; omega) X

/-- What one round of `unquoteBytes` writes is valid UTF-8. -/
theorem unquoteStep_valid (c : Byte) (rest out : Bytes) (k : Nat)
    (h : unquoteStep c rest = some (out, k)) (X : Bytes) : Valid (out ++ X) = Valid X := by
  unfold unquoteStep at h
  by_cases c0 : c.val = 0x5C
  · rw [if_pos c0] at h
    cases rest with
    | nil => cases h
    | cons e t =>
      dsimp only at h
      by_cases e1 : e.val = 0x22 ∨ e.val = 0x5C ∨ e.val = 0x2F ∨ e.val = 0x27
      · rw [if_pos e1] at h
        cases h
        exact Valid_cons_low e X (by omega)
      · rw [if_neg e1] at h
        by_cases e2 : e.val = 0x62
        · rw [if_pos e2] at h
          cases h
          exact Valid_cons_low _ X (by decide)
        · rw [if_neg e2] at h
          by_cases e3 : e.val = 0x66
          · rw [if_pos e3] at h
            cases h
            exact Valid_cons_low _ X (by decide)
          · rw [if_neg e3] at h
            by_cases e4 : e.val = 0x6E
            · rw [if_pos e4] at h
              cases h
              exact Valid_cons_low _ X (by decide)
            · rw [if_neg e4] at h
              by_cases e5 : e.val = 0x72
              · rw [if_pos e5] at h
                cases h
                exact Valid_cons_low _ X (by decide)
              · rw [if_neg e5] at h
                by_cases e6 : e.val = 0x74
                · rw [if_pos e6] at h
                  cases h
                  exact Valid_cons_low _ X (by decide)
                · rw [if_neg e6] at h
                  by_cases e7 : e.val = 0x75
                  · rw [if_pos e7] at h
                    rcases hg : getu4 (c :: e :: t) with _ | rr
                    · rw [hg] at h
                      cases h
                    · rw [hg] at h
                      dsimp only at h
                      split_ifs at h <;> cases h <;> exact Valid_EncodeRune _ X
                  · rw [if_neg e7] at h
                    cases h
  · rw [if_neg c0] at h
    by_cases c1 : c.val = 0x22 ∨ c.val < 0x20
    · rw [if_pos c1] at h
      cases h
    · rw [if_neg c1] at h
      by_cases c2 : c.val < 0x80
      · rw [if_pos c2] at h
        cases h
        exact Valid_cons_low c X c2
      · rw [if_neg c2] at h
        cases h
        exact Valid_EncodeRune _ X

theorem unquoteAux_valid (n : Nat) : ∀ (raw s : Bytes), unquoteAux n raw = some s →
    Valid s = true := by
  induction n with
  | zero =>
    intro raw s h
    cases raw with
    | nil =>
      rw [unquoteAux_nil] at h
      cases h
      rfl
    | cons c rest => simp [unquoteAux] at h
  | succ n ih =>
    intro raw s h
    cases raw with
    | nil =>
      rw [unquoteAux_nil] at h
      cases h
      rfl
    | cons c rest =>
      rw [unquoteAux] at h
      rcases hstep : unquoteStep c rest with _ | ⟨out, k⟩
      · rw [hstep] at h
        cases h
      · rw [hstep] at h
        dsimp only at h
        rcases ht : unquoteAux n (rest.drop k) with _ | t
        · rw [ht] at h
          cases h
        · rw [ht] at h
          simp only [Option.map_some', Option.some.injEq] at h
          subst h
          rw [unquoteStep_valid c rest out k hstep t]
          exact ih _ t ht

/-- The Go string the decoder makes of a string token is valid UTF-8, whatever the
token. -/
theorem goString_valid (raw : Bytes) : Valid (goString raw) = true := by
  unfold goString unquote
  rcases h : unquoteAux raw.length raw with _ | s
  · rfl
  · exact unquoteAux_valid _ raw s h

/-! ## The store load yields -/

theorem storeString_valid (v : JValue) (cur : Bytes) (h : Valid cur = true) :
    Valid (storeString v cur).1 = true := by
  cases v with
  | str raw => exact goString_valid raw
  | null => exact h
  | bool b => exact h
  | num raw => exact h
  | arr es => exact h
  | obj ms => exact h

theorem decodeAccountMembers_valid (U : UnicodeTables) :
    ∀ (ms : List (Bytes × JValue)) (a : Account),
      Valid a.ClientID = true ∧ Valid a.ClientSecret = true →
      Valid (decodeAccountMembers U ms a).1.ClientID = true
        ∧ Valid (decodeAccountMembers U ms a).1.ClientSecret = true
  | [], _, h => h
  | (k, v) :: ms, a, h => by
    rw [decodeAccountMembers]
    dsimp only
    apply decodeAccountMembers_valid U ms
    split
    · exact ⟨storeString_valid _ _ h.1, h.2⟩
    · exact ⟨h.1, storeString_valid _ _ h.2⟩
    · exact h

theorem decodeAccount_valid (U : UnicodeTables) (v : JValue) (a : Account)
    (h : Valid a.ClientID = true ∧ Valid a.ClientSecret = true) :
    Valid (decodeAccount U v a).1.ClientID = true
      ∧ Valid (decodeAccount U v a).1.ClientSecret = true := by
  cases v with
  | obj ms => exact decodeAccountMembers_valid U ms a h
  | null => exact h
  | bool b => exact h
  | num raw => exact h
  | str raw => exact h
  | arr es => exact h

/-- Every name and every credential of the map is valid UTF-8. -/
def MapValid (m : AccountMap) : Prop :=
  ∀ k a, m.lookup k = some a →
    Valid k = true ∧ Valid a.ClientID = true ∧ Valid a.ClientSecret = true

theorem MapValid.empty : MapValid ∅ := by
  intro k a h
  rw [Finmap.lookup_empty] at h
  cases h

theorem MapValid.insert {m : AccountMap} (h : MapValid m) (k : Bytes) (a : Account)
    (hk : Valid k = true) (ha : Valid a.ClientID = true ∧ Valid a.ClientSecret = true) :
    MapValid (m.insert k a) := by
  intro x b hx
  by_cases hxk : x = k
  · subst hxk
    rw [Finmap.lookup_insert] at hx
    cases hx
    exact ⟨hk, ha⟩
  · rw [Finmap.lookup_insert_of_ne _ hxk] at hx
    exact h x b hx

theorem decodeMapMembers_valid (U : UnicodeTables) :
    ∀ (ms : List (Bytes × JValue)) (m : AccountMap), MapValid m →
      MapValid (decodeMapMembers U ms m).1
  | [], _, h => h
  | (k, v) :: ms, m, h => by
    rw [decodeMapMembers]
    dsimp only
    exact decodeMapMembers_valid U ms _
      (h.insert _ _ (goString_valid k) (decodeAccount_valid U v Account.zero ⟨rfl, rfl⟩))

theorem decodeMap_valid (U : UnicodeTables) (v : JValue) (cur : Option AccountMap)
    (h : ∀ m, cur = some m → MapValid m) :
    ∀ m, (decodeMap U v cur).1 = some m → MapValid m := by
  intro m hm
  cases v with
  | obj ms =>
    simp only [decodeMap, Option.some.injEq] at hm
    subst hm
    apply decodeMapMembers_valid
    cases cur with
    | none => exact MapValid.empty
    | some c => exact h c rfl
  | null => simp [decodeMap] at hm
  | bool b => exact h m hm
  | num raw => exact h m hm
  | str raw => exact h m hm
  | arr es => exact h m hm

theorem decodeConfigMembers_valid (U : UnicodeTables) :
    ∀ (ms : List (Bytes × JValue)) (c : Config), Config.ValidUTF8 c →
      Config.ValidUTF8 (decodeConfigMembers U ms c).1
  | [], _, h => h
  | (k, v) :: ms, c, h => by
    rw [decodeConfigMembers]
    dsimp only
    apply decodeConfigMembers_valid U ms
    split
    · exact ⟨storeString_valid _ _ h.1, h.2⟩
    · exact ⟨h.1, decodeMap_valid U v c.AccountMap h.2⟩
    · exact h

theorem decodeConfig_valid (U : UnicodeTables) (v : JValue) (c : Config)
    (h : Config.ValidUTF8 c) : Config.ValidUTF8 (decodeConfig U v c).1 := by
  cases v with
  | obj ms => exact decodeConfigMembers_valid U ms c h
  | null => exact h
  | bool b => exact h
  | num raw => exact h
  | str raw => exact h
  | arr es => exact h

theorem Config.zero_valid : Config.ValidUTF8 Config.zero :=
  ⟨rfl, fun m hm => by cases hm⟩

theorem ensureMap_valid (c : Config) (h : Config.ValidUTF8 c) :
    Config.ValidUTF8 (ensureMap c) := by
  unfold ensureMap
  cases hc : c.AccountMap with
  | none =>
    refine ⟨h.1, fun m hm => ?_⟩
    simp only [Option.some.injEq] at hm
    subst hm
    exact MapValid.empty
  | some m => exact h

/-- Whatever the config file holds, every string of the store load yields is valid UTF-8:
the decoder puts U+FFFD where the text of a string is not. -/
theorem loadConfig_valid (U : UnicodeTables) (file : ReadResult) :
    Config.ValidUTF8 (loadConfig U file).config := by
  cases file with
  | failed err => exact Config.zero_valid
  | notExist err => exact ensureMap_valid _ Config.zero_valid
  | contents data =>
    rw [loadConfig_contents_config]
    apply ensureMap_valid
    unfold Unmarshal
    cases parseJSON data with
    | none => exact Config.zero_valid
    | some v => exact decodeConfig_valid U v _ Config.zero_valid

theorem loadConfig_exit (U : UnicodeTables) (file : ReadResult) (h : ∀ e, file ≠ .failed e) :
    (loadConfig U file).exit = none := by
  cases file with
  | failed err => exact absurd rfl (h err)
  | notExist err => rfl
  | contents data =>
    unfold loadConfig
    rcases hu : Unmarshal U data Config.zero with ⟨config, _ | err⟩ <;> simp [hu]

theorem loadConfig_map (U : UnicodeTables) (file : ReadResult) :
    ∃ d m, (loadConfig U file).config = ⟨d, some m⟩ ∨ ∃ e, file = .failed e := by
  cases file with
  | failed err => exact ⟨[], ∅, Or.inr ⟨err, rfl⟩⟩
  | notExist err => exact ⟨[], ∅, Or.inl rfl⟩
  | contents data =>
    have h := ensureMap_ne_none (Unmarshal U data Config.zero).1
    rw [← loadConfig_contents_config] at h
    rcases hc : (loadConfig U (.contents data)).config with ⟨d, _ | m⟩
    · rw [hc] at h
      exact absurd rfl h
    · exact ⟨d, m, Or.inl rfl⟩

/-! ## What load makes of a saved store -/

/-- An account as it is loaded after it was saved: each credential as the encoder and the
decoder pass it on (the same string when it is valid UTF-8). -/
def reloadAccount (a : Account) : Account :=
  ⟨goString (encodeString a.ClientID), goString (encodeString a.ClientSecret)⟩

theorem reloadAccount_valid (a : Account)
    (h : Valid a.ClientID = true ∧ Valid a.ClientSecret = true) : reloadAccount a = a := by
  unfold reloadAccount
  rw [goString_encodeString _ h.1, goString_encodeString _ h.2]

theorem decodeAccount_saved (U : UnicodeTables) (a cur : Account) :
    decodeAccount U (accountJSON a) cur = (reloadAccount a, none) := by
  unfold decodeAccount accountJSON
  simp only [decodeAccountMembers, goString_clientId, goString_clientSecret,
    findField_clientId, findField_clientSecret, storeString]
  rfl

theorem decodeMapMembers_saved (U : UnicodeTables) (f : Bytes → Account) (ks : List Bytes)
    (hv : ∀ k ∈ ks, Valid k = true) (acc : AccountMap) :
    decodeMapMembers U (ks.map (fun k => (encodeString k, accountJSON (f k)))) acc
      = (ks.foldl (fun m k => m.insert k (reloadAccount (f k))) acc, none) := by
  induction ks generalizing acc with
  | nil => rfl
  | cons k ks ih =>
    have hk := hv k (List.mem_cons_self _ _)
    rw [List.map_cons, decodeMapMembers]
    simp only [decodeAccount_saved U (f k) Account.zero, goString_encodeString k hk,
      List.foldl_cons]
    rw [ih (fun x hx => hv x (List.mem_cons_of_mem _ hx))]
    rfl

/-- Loading the file save wrote for a store whose `defaultAccount` and names are valid
UTF-8 reports nothing and yields that store, each credential as it reloads. -/
theorem loadConfig_saved (U : UnicodeTables) (d : Bytes) (m : AccountMap)
    (hd : Valid d = true) (hk : ∀ k, k ∈ m → Valid k = true) :
    ∃ m', loadConfig U (.contents (indent 0 (configJSON ⟨d, some m⟩)))
        = ⟨[], none, ⟨d, some m'⟩⟩ ∧
      ∀ x, m'.lookup x = (m.lookup x).map reloadAccount := by
  have hkeys : ∀ k ∈ sortedKeys m, Valid k = true :=
    fun k hk' => hk k ((mem_sortedKeys m k).mp hk')
  refine ⟨(sortedKeys m).foldl
    (fun acc k => acc.insert k (reloadAccount (mapGet (some m) k).1)) ∅, ?_, ?_⟩
  · have hdec : decodeConfig U (configJSON ⟨d, some m⟩) Config.zero
        = (⟨d, some ((sortedKeys m).foldl
            (fun acc k => acc.insert k (reloadAccount (mapGet (some m) k).1)) ∅)⟩, none) := by
      unfold decodeConfig configJSON
      simp only [decodeConfigMembers, goString_defaultAccount, goString_accountMap,
        findField_defaultAccount, findField_accountMap, storeString_encodeString _ _ hd,
        decodeMap, mapJSON, Config.zero, Option.getD_none,
        decodeMapMembers_saved U _ _ hkeys]
      rfl
    unfold loadConfig Unmarshal
    simp only [(parseJSON_MarshalIndent ⟨d, some m⟩).2, hdec]
    rfl
  · intro x
    rw [lookup_foldl_insert (fun k => reloadAccount (mapGet (some m) k).1)]
    by_cases hx : x ∈ m
    · rw [if_pos ((mem_sortedKeys m x).mpr hx)]
      obtain ⟨a, ha⟩ := Option.isSome_iff_exists.mp (Finmap.lookup_isSome.mpr hx)
      rw [mapGet_some_of_lookup ha, ha]
      rfl
    · rw [if_neg (fun h => hx ((mem_sortedKeys m x).mp h)), Finmap.lookup_eq_none.mpr hx]
      exact Finmap.lookup_empty x

/-- Loading the file save wrote for a store whose strings are all valid UTF-8 yields that
store. -/
theorem loadConfig_saved_valid (U : UnicodeTables) (d : Bytes) (m : AccountMap)
    (hv : Config.ValidUTF8 ⟨d, some m⟩) :
    loadConfig U (.contents (indent 0 (configJSON ⟨d, some m⟩))) = ⟨[], none, ⟨d, some m⟩⟩ := by
  obtain ⟨m', h1, h2⟩ := loadConfig_saved U d m hv.1 (fun k hk => by
    obtain ⟨a, ha⟩ := Option.isSome_iff_exists.mp (Finmap.lookup_isSome.mpr hk)
    exact (hv.2 m rfl k a ha).1)
  rw [h1]
  have : m' = m := by
    apply Finmap.ext_lookup
    intro x
    rw [h2 x]
    rcases hx : m.lookup x with _ | a
    · rfl
    · have := hv.2 m rfl x a hx
      simp only [Option.map_some', reloadAccount_valid a this.2]
  rw [this]

/-! ## Runs of the program, one after the other

Two runs of the program share nothing but the config file: what one run wrote is what the
next run reads. -/

/-- One run of the program on a machine where reading the config file gives `file`. -/
def runOn (env : Env) (file : ReadResult) (args : Args) : Outcome :=
  main { env with readFile := file } args

/-- What reading the config file gives after a run that found it as `file`: the bytes the
run wrote when `os.WriteFile` succeeded; a run that wrote nothing leaves the file as it
was, and so, here, does a write that failed. -/
def fileAfter (env : Env) (file : ReadResult) (out : Outcome) : ReadResult :=
  match out.written with
  | none => file
  | some w =>
    match env.writeFile w.contents with
    | none => .contents w.contents
    | some _ => file

/-- What reading the config file gives after a sequence of runs, each of which finds the
file as the run before it left it. -/
def fileAfterRuns (env : Env) : ReadResult → List Args → ReadResult
  | file, [] => file
  | file, a :: rest => fileAfterRuns env (fileAfter env file (runOn env file a)) rest

theorem runOn_eq (env : Env) (file : ReadResult) (args : Args) (hmk : env.makePath = none)
    (hfile : ∀ e, file ≠ .failed e) :
    runOn env file args =
      ⟨(loadConfig env.unicode file).stdout
          ++ (runCommand { env with readFile := file } args
            (loadConfig env.unicode file).config).stdout,
        (runCommand { env with readFile := file } args
          (loadConfig env.unicode file).config).exitCode,
        (runCommand { env with readFile := file } args
          (loadConfig env.unicode file).config).config,
        (runCommand { env with readFile := file } args
          (loadConfig env.unicode file).config).written,
        (runCommand { env with readFile := file } args
          (loadConfig env.unicode file).config).clientConfig,
        (runCommand { env with readFile := file } args
          (loadConfig env.unicode file).config).request⟩ := by
  unfold runOn main
  simp only [hmk, loadConfig_exit env.unicode file hfile]

theorem runCommand_configure (env : Env) (name cid csec d : Bytes) (m : AccountMap)
    (hw : ∀ c, env.writeFile c = none) :
    runCommand env (configureArgs name cid csec) ⟨d, some m⟩ =
      ⟨[], 0, ⟨d, some (m.insert name ⟨cid, csec⟩)⟩,
        some ⟨indent 0 (configJSON ⟨d, some (m.insert name ⟨cid, csec⟩)⟩), 0o600⟩, none, none⟩ := by
  simp [runCommand, configureArgs, configConfigure, mapSet, saveConfig, MarshalIndent, hw]

theorem runCommand_activate (env : Env) (name d : Bytes) (m : AccountMap) (h : name ∈ m)
    (hw : ∀ c, env.writeFile c = none) :
    runCommand env (activateArgs name) ⟨d, some m⟩ =
      ⟨[], 0, ⟨name, some m⟩, some ⟨indent 0 (configJSON ⟨name, some m⟩), 0o600⟩, none, none⟩ := by
  have hget : (mapGet (some m) name).2 = true := (mapGet_snd_iff m name).mpr h
  simp [runCommand, activateArgs, configActivate, hget, saveConfig, MarshalIndent, hw]

theorem MapValid.mem {m : AccountMap} (h : MapValid m) (k : Bytes) (hk : k ∈ m) :
    Valid k = true := by
  obtain ⟨a, ha⟩ := Option.isSome_iff_exists.mp (Finmap.lookup_isSome.mpr hk)
  exact (h k a ha).1

/-- A run of `config configure` whose write succeeds: the store it ends with is the store
it loaded with the account put under the name, and the file holds that store. -/
theorem configure_run (env : Env) (file : ReadResult) (name cid csec : Bytes)
    (hmk : env.makePath = none) (hw : ∀ c, env.writeFile c = none)
    (hfile : ∀ e, file ≠ .failed e) :
    ∃ d m, (loadConfig env.unicode file).config = ⟨d, some m⟩ ∧ Valid d = true ∧ MapValid m ∧
      (runOn env file (configureArgs name cid csec)).config
        = ⟨d, some (m.insert name ⟨cid, csec⟩)⟩ ∧
      fileAfter env file (runOn env file (configureArgs name cid csec))
        = .contents (indent 0 (configJSON ⟨d, some (m.insert name ⟨cid, csec⟩)⟩)) := by
  obtain ⟨d, m, hl | ⟨e, he⟩⟩ := loadConfig_map env.unicode file
  · have hv := loadConfig_valid env.unicode file
    rw [hl] at hv
    refine ⟨d, m, hl, hv.1, hv.2 m rfl, ?_, ?_⟩
    · rw [runOn_eq env file _ hmk hfile, hl,
        runCommand_configure { env with readFile := file } _ _ _ _ _ hw]
    · rw [runOn_eq env file _ hmk hfile, hl,
        runCommand_configure { env with readFile := file } _ _ _ _ _ hw]
      simp only [fileAfter, hw]
  · exact absurd he (hfile e)

/-- After one or more runs of `config configure` with one name that is valid UTF-8, the
file holds a store with that name among its keys, all of them valid UTF-8. -/
theorem configure_runs (env : Env) (name : Bytes) (hmk : env.makePath = none)
    (hw : ∀ c, env.writeFile c = none) (hname : Valid name = true) :
    ∀ (creds : List (Bytes × Bytes)) (file : ReadResult), (∀ e, file ≠ .failed e) →
      creds ≠ [] →
      ∃ d m, fileAfterRuns env file (creds.map (fun c => configureArgs name c.1 c.2))
          = .contents (indent 0 (configJSON ⟨d, some m⟩)) ∧
        Valid d = true ∧ (∀ k, k ∈ m → Valid k = true) ∧ name ∈ m
  | [], _, _, h => absurd rfl h
  | c :: cs, file, hfile, _ => by
    obtain ⟨d, m, _, hd, hm, _, hf⟩ := configure_run env file name c.1 c.2 hmk hw hfile
    rw [List.map_cons, fileAfterRuns, hf]
    cases cs with
    | nil =>
      refine ⟨d, _, rfl, hd, fun k hk => ?_, by simp⟩
      rcases Finmap.mem_insert.mp hk with rfl | hk'
      · exact hname
      · exact hm.mem k hk'
    | cons c2 cs2 =>
      exact configure_runs env name hmk hw hname (c2 :: cs2) _ (by intro e h; cases h)
        (by simp)

/-- A run of `config list` on the file save wrote for a store whose `defaultAccount` and
names are valid UTF-8: it prints the names of that store, each on its line. -/
theorem list_run_saved (env : Env) (d : Bytes) (m : AccountMap) (hmk : env.makePath = none)
    (hd : Valid d = true) (hk : ∀ k, k ∈ m → Valid k = true) :
    ∃ m', (∀ k, k ∈ m' ↔ k ∈ m) ∧
      runOn env (.contents (indent 0 (configJSON ⟨d, some m⟩))) listArgs =
        ⟨(sortedKeys m').map (fun k => Printed.text (k ++ [0x0A])), 0, ⟨d, some m'⟩, none, none,
          none⟩ := by
  obtain ⟨m', h1, h2⟩ := loadConfig_saved env.unicode d m hd hk
  refine ⟨m', fun k => ?_, ?_⟩
  · rw [← Finmap.lookup_isSome, ← Finmap.lookup_isSome, h2 k]
    cases m.lookup k <;> rfl
  · rw [runOn_eq env _ _ hmk (by intro e h; cases h), h1]
    simp [runCommand, listArgs, configList, rangeKeys]

theorem line_injective :
    Function.Injective (fun k : Bytes => Printed.text (k ++ [0x0A])) := by
  intro a b h
  simp only [Printed.text.injEq] at h
  exact List.append_cancel_right h

/-- A second run of `config configure` with the arguments of the first leaves the file as
the first left it. -/
theorem configure_twice (env : Env) (file : ReadResult) (name cid csec : Bytes)
    (hmk : env.makePath = none) (hw : ∀ c, env.writeFile c = none)
    (hfile : ∀ e, file ≠ .failed e) (hname : Valid name = true) :
    fileAfterRuns env file [configureArgs name cid csec, configureArgs name cid csec]
      = fileAfterRuns env file [configureArgs name cid csec] := by
  obtain ⟨d, m, _, hd, hm, _, hf⟩ := configure_run env file name cid csec hmk hw hfile
  simp only [fileAfterRuns]
  rw [hf]
  obtain ⟨d2, m2, hl2, _, _, _, hf2⟩ := configure_run env
    (.contents (indent 0 (configJSON ⟨d, some (m.insert name ⟨cid, csec⟩)⟩))) name cid csec hmk hw
    (by intro e h; cases h)
  rw [hf2]
  obtain ⟨m', h1, h2⟩ := loadConfig_saved env.unicode d (m.insert name ⟨cid, csec⟩) hd
    (fun k hk => by
      rcases Finmap.mem_insert.mp hk with rfl | hk'
      · exact hname
      · exact hm.mem k hk')
  rw [h1] at hl2
  simp only [Config.mk.injEq, Option.some.injEq] at hl2
  obtain ⟨rfl, rfl⟩ := hl2
  have : m'.insert name ⟨cid, csec⟩ = m.insert name ⟨cid, csec⟩ := by
    apply Finmap.ext_lookup
    intro x
    by_cases hx : x = name
    · subst hx
      rw [Finmap.lookup_insert, Finmap.lookup_insert]
    · rw [Finmap.lookup_insert_of_ne _ hx, Finmap.lookup_insert_of_ne _ hx, h2 x,
        Finmap.lookup_insert_of_ne _ hx]
      rcases hl : m.lookup x with _ | a
      · rfl
      · simp only [Option.map_some', reloadAccount_valid a (hm x a hl).2]
  rw [this]

/-! ## C4: list after configure -/

/-- C4 (as amended): for every config file the first run can read (or none), every name
that is valid UTF-8 and every non-empty sequence of `config configure` runs with that name
(any credentials each time), each reading the file the run before wrote, all writes
succeeding: a run of `config list` on the file then exits with 0 and prints, in whatever
order the map is ranged over, one line for every key of the `accountMap` it loaded and no
other, each once, the configured name among them exactly once; the keys `list` finds after
a `configure` run are those of the store that run ended with; and a second
`configure` run with the arguments of the first leaves the file as the first left it. -/
theorem list_after_configure (env : Env) (file : ReadResult) (name : Bytes)
    (creds : List (Bytes × Bytes)) (hmk : env.makePath = none)
    (hw : ∀ c, env.writeFile c = none) (hfile : ∀ e, file ≠ .failed e)
    (hname : Valid name = true) (hn : creds ≠ []) (out : List Printed)
    (hout : out.Perm (runOn env
      (fileAfterRuns env file (creds.map (fun c => configureArgs name c.1 c.2))) listArgs).stdout) :
    (runOn env (fileAfterRuns env file (creds.map (fun c => configureArgs name c.1 c.2)))
      listArgs).exitCode = 0 ∧
    out.count (.text (name ++ [0x0A])) = 1 ∧ out.Nodup ∧
    (∀ p, p ∈ out ↔ ∃ k, p = .text (k ++ [0x0A]) ∧
      (mapGet (runOn env (fileAfterRuns env file
        (creds.map (fun c => configureArgs name c.1 c.2))) listArgs).config.AccountMap k).2
          = true) ∧
    (∀ f cid csec k, (∀ e, f ≠ .failed e) →
      (mapGet (runOn env (fileAfterRuns env f [configureArgs name cid csec])
          listArgs).config.AccountMap k).2
        = (mapGet (runOn env f (configureArgs name cid csec)).config.AccountMap k).2) ∧
    (∀ f cid csec, (∀ e, f ≠ .failed e) →
      fileAfterRuns env f [configureArgs name cid csec, configureArgs name cid csec]
        = fileAfterRuns env f [configureArgs name cid csec]) := by
  obtain ⟨d, m, hf, hd, hk, hmem⟩ := configure_runs env name hmk hw hname creds file hfile hn
  obtain ⟨m', hkeys, hrun⟩ := list_run_saved env d m hmk hd hk
  rw [hf, hrun] at hout ⊢
  have hnd : out.Nodup :=
    hout.nodup_iff.mpr ((nodup_sortedKeys m').map line_injective)
  have hmem' : ∀ p, p ∈ out ↔ ∃ k, p = .text (k ++ [0x0A]) ∧ k ∈ m' := by
    intro p
    rw [hout.mem_iff, List.mem_map]
    constructor
    · rintro ⟨k, hk', rfl⟩
      exact ⟨k, rfl, (mem_sortedKeys m' k).mp hk'⟩
    · rintro ⟨k, rfl, hk'⟩
      exact ⟨k, (mem_sortedKeys m' k).mpr hk', rfl⟩
  refine ⟨rfl, ?_, hnd, ?_, ?_, ?_⟩
  · exact List.count_eq_one_of_mem hnd ((hmem' _).mpr ⟨name, rfl, (hkeys name).mpr hmem⟩)
  · intro p
    rw [hmem' p]
    simp only [mapGet_snd_iff]
  · intro f cid csec k hf'
    obtain ⟨d1, m1, _, hd1, hm1, hc1, hf1⟩ := configure_run env f name cid csec hmk hw hf'
    obtain ⟨m1', hkeys1, hrun1⟩ := list_run_saved env d1 (m1.insert name ⟨cid, csec⟩) hmk hd1
      (fun k hk' => by
        rcases Finmap.mem_insert.mp hk' with rfl | hk''
        · exact hname
        · exact hm1.mem k hk'')
    simp only [fileAfterRuns]
    rw [hf1, hrun1, hc1]
    by_cases hx : k ∈ m1.insert name ⟨cid, csec⟩
    · rw [(mapGet_snd_iff _ k).mpr hx, (mapGet_snd_iff _ k).mpr ((hkeys1 k).mpr hx)]
    · have h1 : ¬ (mapGet (some m1') k).2 = true :=
        fun h => hx ((hkeys1 k).mp ((mapGet_snd_iff _ k).mp h))
      have h2 : ¬ (mapGet (some (m1.insert name ⟨cid, csec⟩)) k).2 = true :=
        fun h => hx ((mapGet_snd_iff _ k).mp h)
      rw [Bool.not_eq_true] at h1 h2
      rw [h1, h2]
  · intro f cid csec hf'
    exact configure_twice env f name cid csec hmk hw hf' hname

theorem list_after_configure_witness :
    (Env.answering []).makePath = none ∧
    (∀ c, (Env.answering []).writeFile c = none) ∧
    Valid (ascii "acme") = true ∧
    [Printed.text (ascii "acme\n")].Perm
      (runOn (Env.answering [])
        (fileAfterRuns (Env.answering []) (.notExist (.external []))
          ([(ascii "abc", ascii "xyz"), (ascii "def", ascii "uvw")].map
            (fun c => configureArgs (ascii "acme") c.1 c.2))) listArgs).stdout ∧
    [Printed.text (ascii "acme\n")].count (.text (ascii "acme" ++ [0x0A])) = 1 :=
  have hout : [Printed.text (ascii "acme\n")].Perm
      (runOn (Env.answering [])
        (fileAfterRuns (Env.answering []) (.notExist (.external []))
          ([(ascii "abc", ascii "xyz"), (ascii "def", ascii "uvw")].map
            (fun c => configureArgs (ascii "acme") c.1 c.2))) listArgs).stdout := by decide
  ⟨rfl, fun _ => rfl, by decide, hout,
    (list_after_configure (Env.answering []) (.notExist (.external [])) (ascii "acme")
      [(ascii "abc", ascii "xyz"), (ascii "def", ascii "uvw")] rfl (fun _ => rfl)
      (by intro e h; cases h) (by decide) (by decide) [.text (ascii "acme\n")] hout).2.1⟩

/-- C4 as stated fails: on a machine without a config file, after `config configure` with
the name that is the one byte 0xFF (both runs exit with 0), `config list` prints one line,
U+FFFD (the bytes EF BF BD), and the line of the configured name not at all. -/
theorem list_after_configure_fails :
    (runOn (Env.answering []) (.notExist (.external [])) (configureArgs [0xFF] [] [])).exitCode
      = 0 ∧
    (runOn (Env.answering [])
      (fileAfterRuns (Env.answering []) (.notExist (.external [])) [configureArgs [0xFF] [] []])
      listArgs).exitCode = 0 ∧
    (runOn (Env.answering [])
      (fileAfterRuns (Env.answering []) (.notExist (.external [])) [configureArgs [0xFF] [] []])
      listArgs).stdout = [.text [0xEF, 0xBF, 0xBD, 0x0A]] ∧
    (runOn (Env.answering [])
      (fileAfterRuns (Env.answering []) (.notExist (.external [])) [configureArgs [0xFF] [] []])
      listArgs).stdout.count (.text ([0xFF] ++ [0x0A])) = 0 := by
  decide

/-! ## C7: the credentials of the api command -/

/-- C7 (as amended): for every store, the credentials `api` hands to `pax8.NewClient` are
those of `accountMap[defaultAccount]` when `defaultAccount` is a key of the map, the empty
name included, and the empty pair when it is no key or the map is nil; the client is always
created with them, and when that succeeds the request is always sent: the program has no
failure of its own for a missing account.  Starting from any config file the first run can read (or none),
after a run of `configure acme` with id `abc` and secret `xyz` and then a run of
`activate acme`, each reading the file the run before wrote, both writes succeeding, a run
of `api` hands over exactly `abc` and `xyz`. -/
theorem api_resolves_credentials (env : Env) (endpoint : Bytes) (method body : Option Bytes)
    (d : Bytes) (m : AccountMap) :
    (∀ a, m.lookup d = some a →
      (runCommand env (apiArgs endpoint method body) ⟨d, some m⟩).clientConfig
        = some ⟨a.ClientID, a.ClientSecret, baseURL⟩) ∧
    (d ∉ m →
      (runCommand env (apiArgs endpoint method body) ⟨d, some m⟩).clientConfig
        = some ⟨[], [], baseURL⟩ ∧
      (env.newClient ⟨[], [], baseURL⟩ = none →
        (runCommand env (apiArgs endpoint method body) ⟨d, some m⟩).request ≠ none)) ∧
    ((runCommand env (apiArgs endpoint method body) ⟨d, none⟩).clientConfig
        = some ⟨[], [], baseURL⟩ ∧
      (env.newClient ⟨[], [], baseURL⟩ = none →
        (runCommand env (apiArgs endpoint method body) ⟨d, none⟩).request ≠ none)) ∧
    (∀ file, env.makePath = none → (∀ c, env.writeFile c = none) → (∀ e, file ≠ .failed e) →
      (runOn env
        (fileAfterRuns env file
          [configureArgs (ascii "acme") (ascii "abc") (ascii "xyz"), activateArgs (ascii "acme")])
        (apiArgs endpoint method body)).clientConfig
        = some ⟨ascii "abc", ascii "xyz", baseURL⟩) := by
  refine ⟨?_, ?_, ?_, ?_⟩
  · intro a ha
    simp only [runCommand, apiArgs]
    rw [apiCommand_clientConfig]
    simp [mapGet_some_of_lookup ha]
  · intro hd
    have hz : mapGet (some m) d = (Account.zero, false) := mapGet_some_of_not_mem hd
    constructor
    · simp only [runCommand, apiArgs]
      rw [apiCommand_clientConfig]
      simp [hz, Account.zero]
    · intro hc
      simp only [runCommand, apiArgs]
      rw [apiCommand_request]
      · simp
      · simpa [hz, Account.zero] using hc
  · have hz : mapGet none d = (Account.zero, false) := rfl
    constructor
    · simp only [runCommand, apiArgs]
      rw [apiCommand_clientConfig]
      simp [hz, Account.zero]
    · intro hc
      simp only [runCommand, apiArgs]
      rw [apiCommand_request]
      · simp
      · simpa [hz, Account.zero] using hc
  · intro file hmk hw hfile
    obtain ⟨d0, m0, _, hd0, hm0, _, hf1⟩ := configure_run env file (ascii "acme") (ascii "abc")
      (ascii "xyz") hmk hw hfile
    have hv1 : Config.ValidUTF8 ⟨d0, some (m0.insert (ascii "acme") ⟨ascii "abc", ascii "xyz"⟩)⟩ :=
      ⟨hd0, fun m' hm' => by
        simp only [Option.some.injEq] at hm'
        subst hm'
        exact hm0.insert _ _ (by decide) ⟨by decide, by decide⟩⟩
    have hl1 := loadConfig_saved_valid env.unicode _ _ hv1
    have hmem : ascii "acme" ∈ m0.insert (ascii "acme") ⟨ascii "abc", ascii "xyz"⟩ := by simp
    have hf2 : fileAfter env
        (.contents (indent 0 (configJSON
          ⟨d0, some (m0.insert (ascii "acme") ⟨ascii "abc", ascii "xyz"⟩)⟩)))
        (runOn env (.contents (indent 0 (configJSON
          ⟨d0, some (m0.insert (ascii "acme") ⟨ascii "abc", ascii "xyz"⟩)⟩)))
          (activateArgs (ascii "acme")))
        = .contents (indent 0 (configJSON
          ⟨ascii "acme", some (m0.insert (ascii "acme") ⟨ascii "abc", ascii "xyz"⟩)⟩)) := by
      have hact := runCommand_activate
        { env with readFile := .contents (indent 0 (configJSON
          ⟨d0, some (m0.insert (ascii "acme") ⟨ascii "abc", ascii "xyz"⟩)⟩)) }
        (ascii "acme") d0 _ hmem hw
      rw [runOn_eq env _ _ hmk (by intro e h; cases h), hl1]
      dsimp only
      rw [hact]
      simp only [fileAfter, hw]
    have hv2 : Config.ValidUTF8
        ⟨ascii "acme", some (m0.insert (ascii "acme") ⟨ascii "abc", ascii "xyz"⟩)⟩ :=
      ⟨(by decide : Valid (ascii "acme") = true), hv1.2⟩
    have hl2 := loadConfig_saved_valid env.unicode _ _ hv2
    simp only [fileAfterRuns]
    rw [hf1, hf2, runOn_eq env _ _ hmk (by intro e h; cases h), hl2]
    show (runCommand _ (apiArgs endpoint method body) _).clientConfig = _
    simp only [runCommand, apiArgs]
    rw [apiCommand_clientConfig]
    have hl : (m0.insert (ascii "acme") ⟨ascii "abc", ascii "xyz"⟩).lookup (ascii "acme")
        = some ⟨ascii "abc", ascii "xyz"⟩ := Finmap.lookup_insert m0
    simp [mapGet_some_of_lookup hl]

theorem api_resolves_credentials_witness :
    (Env.answering []).makePath = none ∧
    (∀ c, (Env.answering []).writeFile c = none) ∧
    (runOn (Env.answering [])
      (fileAfterRuns (Env.answering []) (.notExist (.external []))
        [configureArgs (ascii "acme") (ascii "abc") (ascii "xyz"), activateArgs (ascii "acme")])
      (apiArgs (ascii "/v1/orgs") (some (ascii "get")) none)).clientConfig
      = some ⟨ascii "abc", ascii "xyz", baseURL⟩ :=
  ⟨rfl, fun _ => rfl,
    (api_resolves_credentials (Env.answering []) (ascii "/v1/orgs") (some (ascii "get")) none
      [] ∅).2.2.2 (.notExist (.external [])) rfl (fun _ => rfl) (by intro e h; cases h)⟩

/-- C7 as stated fails: on a machine without a config file, after `config configure` with
the empty name, id `abc` and secret `xyz`, the store `api` loads has an empty
`defaultAccount`, yet `api` hands `abc` and `xyz` to the client, not the empty pair. -/
theorem api_resolves_credentials_fails :
    (runOn (Env.answering [])
      (fileAfterRuns (Env.answering []) (.notExist (.external []))
        [configureArgs [] (ascii "abc") (ascii "xyz")])
      (apiArgs (ascii "/v1/orgs") none none)).config.DefaultAccount = [] ∧
    (runOn (Env.answering [])
      (fileAfterRuns (Env.answering []) (.notExist (.external []))
        [configureArgs [] (ascii "abc") (ascii "xyz")])
      (apiArgs (ascii "/v1/orgs") none none)).clientConfig
      = some ⟨ascii "abc", ascii "xyz", baseURL⟩ ∧
    (runOn (Env.answering [])
      (fileAfterRuns (Env.answering []) (.notExist (.external []))
        [configureArgs [] (ascii "abc") (ascii "xyz")])
      (apiArgs (ascii "/v1/orgs") none none)).clientConfig
      ≠ some ⟨[], [], baseURL⟩ := by
  decide

end Pax8
